import Mathlib

/-!
# SHA-L : Simple Hybesis Algorithms Logger

Shallow embedding of the two instrumented algorithms of the logger,

* `CocktailLog` (`Modules/Sort/cocktail_log.hxx`), the bidirectional bubble sort, and
* `MazeKruskalsLog` (`Modules/DataStructures/maze_kruskals_log.hxx`), the randomized
  Kruskal maze generator with its bucket table,

followed by the properties established about them.

Conventions of the embedding.

* A C++ `int` index or an iterator offset is an `Int`; an `unsigned int` is a `Nat`, reduced
  modulo `2 ^ 32` where the source computes with it.
* A run is a value of `Except Fault _`. `Fault.outOfBounds` stands for an access outside a
  container (undefined behaviour in the source), `Fault.assertion` for a failed `assert`,
  and `Fault.outOfFuel` for a loop that was cut by the step budget of the model.
* Every loop takes a step budget (`fuel`); the theorems show that a finite budget suffices.
* The writer calls of one logged record are kept as one `Record` of the `logs` array.
-/

namespace SHA_Logger

/-- Ways a run can stop without a result. -/
inductive Fault where
  | outOfBounds
  | assertion
  | outOfFuel
deriving DecidableEq, Repr

/-- One entry of the `logs` array: a comment or a typed operation record. -/
inductive Record where
  | comment (text : String)
  | opSet (name : String) (value : Int)
  | opSwap (aName bName : String)
  | opReturn (value : Bool)
  | selectEdge (ax ay bx b_y : Int)
  | connectEdge (ax ay bx b_y : Int)
  | mergeBuckets (idA idB : Int)
deriving DecidableEq, Repr

/-! ## Cocktail sort -/

namespace CocktailLog

/-- The default `Compare` of `CocktailLog`, `std::less_equal`. -/
def lessEqual {α : Type} [LinearOrder α] (x y : α) : Bool := decide (x ≤ y)

/-- The variables of `WriteComputation`: the sequence `[begin, end)`, the active bounds,
the swap flag, the logged cursor `_itIdx` and the records written so far. The two pass
counters are ghost fields: they count the executions of the forward `for` statement and of
the backward `for` statement and are not variables of the source. -/
structure SortState (α : Type) where
  seq : List α
  beginIdx : Int
  endIdx : Int
  hasSwapped : Bool
  itIdx : Int
  logs : List Record
  forwardPasses : Nat
  backwardPasses : Nat
deriving DecidableEq, Repr

/-- The body shared by both `for` loops (lines 163-168 and 181-186): read `*it` and
`*(it + 1)`, and when `Compare()(*(it + 1), *it)` holds exchange them, log the `Swap`
and raise `hasSwapped`. `it` is the offset of the iterator from `begin`. -/
def compareSwap {α : Type} (comp : α → α → Bool) (it : Int) (s : SortState α) :
    Except Fault (SortState α) :=
  if 0 ≤ it then
    match s.seq[it.toNat]?, s.seq[it.toNat + 1]? with
    | some x, some y =>
      if comp y x then
        .ok { s with
              seq := (s.seq.set it.toNat y).set (it.toNat + 1) x
              logs := s.logs ++ [Record.opSwap "it" "it++"]
              hasSwapped := true }
      else .ok s
    | _, _ => .error Fault.outOfBounds
  else .error Fault.outOfBounds

/-- The record `Operation::Set<int>(writer, "it", ++_itIdx)` closing a forward step. -/
def logIncr {α : Type} (s : SortState α) : SortState α :=
  { s with itIdx := s.itIdx + 1, logs := s.logs ++ [Record.opSet "it" (s.itIdx + 1)] }

/-- The record `Operation::Set<int>(writer, "it", --_itIdx)` closing a backward step. -/
def logDecr {α : Type} (s : SortState α) : SortState α :=
  { s with itIdx := s.itIdx - 1, logs := s.logs ++ [Record.opSet "it" (s.itIdx - 1)] }

/-- The forward loop `for (it = begin + beginIdx; it < begin + endIdx; ++it)`, entered at
offset `it`. -/
def forwardLoop {α : Type} (comp : α → α → Bool) :
    Nat → Int → SortState α → Except Fault (SortState α)
  | 0, it, s => if it < s.endIdx then .error Fault.outOfFuel else .ok s
  | fuel + 1, it, s =>
    if it < s.endIdx then
      match compareSwap comp it s with
      | .ok s1 => forwardLoop comp fuel (it + 1) (logIncr s1)
      | .error e => .error e
    else .ok s

/-- The backward loop `for (it = begin + endIdx - 1; it >= begin + beginIdx; --it)`,
entered at offset `it`. -/
def backwardLoop {α : Type} (comp : α → α → Bool) :
    Nat → Int → SortState α → Except Fault (SortState α)
  | 0, it, s => if it ≥ s.beginIdx then .error Fault.outOfFuel else .ok s
  | fuel + 1, it, s =>
    if it ≥ s.beginIdx then
      match compareSwap comp it s with
      | .ok s1 => backwardLoop comp fuel (it - 1) (logDecr s1)
      | .error e => .error e
    else .ok s

/-- Lines 158-160: reset the flag, place the cursor on `beginIdx` and log it. -/
def startForward {α : Type} (s : SortState α) : SortState α :=
  { s with hasSwapped := false, itIdx := s.beginIdx
           logs := s.logs ++ [Record.opSet "it" s.beginIdx] }

/-- Line 171, `--endIdx`, after the forward `for` statement. -/
def endForward {α : Type} (s : SortState α) : SortState α :=
  { s with endIdx := s.endIdx - 1, forwardPasses := s.forwardPasses + 1 }

/-- Lines 177-178: place the cursor on `endIdx - 1` and log it. -/
def startBackward {α : Type} (s : SortState α) : SortState α :=
  { s with itIdx := s.endIdx - 1, logs := s.logs ++ [Record.opSet "it" (s.endIdx - 1)] }

/-- Line 189, `++beginIdx`, after the backward `for` statement. -/
def endBackward {α : Type} (s : SortState α) : SortState α :=
  { s with beginIdx := s.beginIdx + 1, backwardPasses := s.backwardPasses + 1 }

/-- The outer loop `while (hasSwapped && beginIdx < kdistance - 1)` (lines 156-190).
`inner` is the step budget handed to each `for` loop, the first `Nat` the budget of the
`while` loop itself. -/
def whileLoop {α : Type} (comp : α → α → Bool) (kdistance : Int) (inner : Nat) :
    Nat → SortState α → Except Fault (SortState α)
  | 0, s =>
    if s.hasSwapped = true ∧ s.beginIdx < kdistance - 1 then .error Fault.outOfFuel
    else .ok s
  | fuel + 1, s =>
    if s.hasSwapped = true ∧ s.beginIdx < kdistance - 1 then
      match forwardLoop comp inner s.beginIdx (startForward s) with
      | .error e => .error e
      | .ok s2 =>
        if (endForward s2).hasSwapped = false then .ok (endForward s2)
        else
          match backwardLoop comp inner ((endForward s2).endIdx - 1)
              (startBackward (endForward s2)) with
          | .error e => .error e
          | .ok s5 => whileLoop comp kdistance inner fuel (endBackward s5)
    else .ok s

/-- The state at the head of the `while` loop (lines 151-154). -/
def initState {α : Type} (a : List α) : SortState α :=
  { seq := a, beginIdx := 0, endIdx := (a.length : Int) - 1, hasSwapped := true,
    itIdx := 0, logs := [], forwardPasses := 0, backwardPasses := 0 }

/-- `CocktailLog::WriteComputation` on the sequence `a` (lines 140-196): the sort loop
followed by the record `Return(true)`. The result is the state in which the function
returns `true`. -/
def WriteComputation {α : Type} (comp : α → α → Bool) (fuel : Nat) (a : List α) :
    Except Fault (SortState α) :=
  match whileLoop comp (a.length : Int) fuel fuel (initState a) with
  | .error e => .error e
  | .ok s => .ok { s with logs := s.logs ++ [Record.opReturn true] }

/-- Number of `Swap` records in a log. -/
def swapCount (logs : List Record) : Nat :=
  (logs.filter (fun r => match r with | Record.opSwap _ _ => true | _ => false)).length

/-- Specification vocabulary: in the sequence `a` every pair of positions `i < j` with `i`
left of `b` or `j` right of `e` is in order. -/
def Settled {α : Type} [LinearOrder α] (a : List α) (b e : Int) : Prop :=
  ∀ (i j : Nat) (x y : α), i < j → a[i]? = some x → a[j]? = some y →
    ((i : Int) < b ∨ e < (j : Int)) → x ≤ y

/-- Specification vocabulary: every adjacent pair of `a` is in order. -/
def AdjacentSorted {α : Type} [LinearOrder α] (a : List α) : Prop :=
  ∀ (i : Nat) (x y : α), a[i]? = some x → a[i + 1]? = some y → x ≤ y

/-- Specification vocabulary: every adjacent pair of `a` is strictly increasing. -/
def StrictlyAscending {α : Type} [LinearOrder α] (a : List α) : Prop :=
  ∀ (i : Nat) (x y : α), a[i]? = some x → a[i + 1]? = some y → x < y

/-- Invariant of the forward pass entered in state `s0` with bounds `b`, `e` on a sequence
of length `n`, when the cursor stands at `it`. -/
def ForwardInv {α : Type} [LinearOrder α] (n : Nat) (b e : Int) (s0 : SortState α)
    (it : Int) (s : SortState α) : Prop :=
  s.seq.length = n ∧ s.beginIdx = b ∧ s.endIdx = e ∧ b ≤ it ∧
  s.backwardPasses = s0.backwardPasses ∧ s.forwardPasses = s0.forwardPasses ∧
  Settled s.seq b e ∧
  (∀ (i : Nat) (x y : α), b ≤ (i : Int) → (i : Int) ≤ it → s.seq[i]? = some x →
      s.seq[it.toNat]? = some y → x ≤ y) ∧
  (s.hasSwapped = false → s.seq = s0.seq ∧ swapCount s.logs = swapCount s0.logs ∧
      ∀ (i : Nat) (x y : α), b ≤ (i : Int) → (i : Int) < it → s.seq[i]? = some x →
        s.seq[i + 1]? = some y → x < y) ∧
  (s.hasSwapped = true → b < e)

/-- Invariant of the backward pass with bounds `b`, `e` when the cursor stands at `it`. -/
def BackwardInv {α : Type} [LinearOrder α] (n : Nat) (b e : Int) (s0 : SortState α)
    (it : Int) (s : SortState α) : Prop :=
  s.seq.length = n ∧ s.beginIdx = b ∧ s.endIdx = e ∧ b - 1 ≤ it ∧ it ≤ e - 1 ∧
  s.backwardPasses = s0.backwardPasses ∧ s.forwardPasses = s0.forwardPasses ∧
  s.hasSwapped = true ∧
  Settled s.seq b e ∧
  (∀ (j : Nat) (x y : α), it + 1 ≤ (j : Int) → (j : Int) ≤ e →
      s.seq[(it + 1).toNat]? = some x → s.seq[j]? = some y → x ≤ y)

/-- Invariant at the head of the `while` loop on a sequence of length `n`. -/
def WhileInv {α : Type} [LinearOrder α] (n : Nat) (s : SortState α) : Prop :=
  s.seq.length = n ∧ 0 ≤ s.beginIdx ∧ s.endIdx = (n : Int) - 1 - s.beginIdx ∧
  Settled s.seq s.beginIdx s.endIdx ∧ s.hasSwapped = true ∧
  (s.backwardPasses : Int) = s.beginIdx ∧ 2 * s.beginIdx ≤ (n : Int)

/-- Invariant of the forward pass over the strictly ascending sequence `a`: nothing has
been exchanged so far. -/
def AscendingInv {α : Type} (a : List α) (it : Int) (s : SortState α) : Prop :=
  s.seq = a ∧ s.hasSwapped = false ∧ s.endIdx = (a.length : Int) - 1 ∧ 0 ≤ it ∧
  swapCount s.logs = 0 ∧ s.forwardPasses = 0 ∧ s.backwardPasses = 0

/-- What the `while` loop establishes on a sequence of length `n`. -/
def WhilePost {α : Type} [LinearOrder α] (n : Nat) (s : SortState α) : Prop :=
  s.seq.length = n ∧ AdjacentSorted s.seq ∧ 2 * s.backwardPasses ≤ n

end CocktailLog

/-! ## Kruskal maze generator -/

namespace MazeKruskalsLog

/-- Reduction of a value to the range of `unsigned int`. -/
def u32 (n : Nat) : Nat := n % 2 ^ 32

/-- Subtraction of `unsigned int`, wrapping below zero. -/
def usub (a b : Nat) : Nat := (a % 2 ^ 32 + 2 ^ 32 - b % 2 ^ 32) % 2 ^ 32

/-- Conversion of an `unsigned int` to the `int` taken by `writer.Int`. -/
def toInt (n : Nat) : Int :=
  if n % 2 ^ 32 < 2 ^ 31 then ((n % 2 ^ 32 : Nat) : Int) else ((n % 2 ^ 32 : Nat) : Int) - 2 ^ 32

/-- The expression `(height - 1) * width + (width - 1) * height` over `unsigned int`, used
to size the bucket table (line 208) and emitted twice in `stats` (lines 313 and 315). -/
def edgeCount (width height : Nat) : Nat :=
  u32 (u32 (usub height 1 * width) + u32 (usub width 1 * height))

/-- Class `Cell` (lines 43-74). A `shared_ptr<Cell>` or `weak_ptr<Cell>` is the index of the
cell in the list of the cells allocated by the run (see `MazeState.heap`). The constructor
leaves `bucketId` without a value; the embedding starts it at `0`, and it is assigned
before it is read. -/
structure Cell where
  x : Nat
  y : Nat
  isVisited : Bool
  bucketId : Nat
  connectedCells : List Nat
deriving DecidableEq, Repr

/-- The variables of `WriteComputation`. `heap` holds the cells in allocation order, so
the cell built for `(x, y)` has the address `x * height + y`. `edges` is the `std::set` of
pairs of cell pointers; it is kept in insertion order, whereas the set iterates in the order
of the addresses, which the program does not determine: either way each remaining edge can
be the one a draw selects. -/
structure MazeState where
  heap : List Cell
  mazeMatrix : List (List Nat)
  edges : List (Nat × Nat)
  bucketCells : List (List Nat)
  logs : List Record
deriving DecidableEq, Repr

/-- The checked form of `operator[]` on a `std::vector` and of a pointer dereference: an
index outside the container is undefined behaviour in the source. -/
def readAt {α : Type} (l : List α) (i : Nat) : Except Fault α :=
  match l[i]? with
  | some v => .ok v
  | none => .error Fault.outOfBounds

/-- Lines 173-181: the cells of the grid, column by column, and the matrix of their
addresses. -/
def initMatrix (width height : Nat) : List Cell × List (List Nat) :=
  ((List.range width).flatMap (fun x =>
      (List.range height).map (fun y =>
        ({ x := x, y := y, isVisited := false, bucketId := 0, connectedCells := [] } : Cell))),
   (List.range width).map (fun x => (List.range height).map (fun y => x * height + y)))

/-- The method `edges.insert(e)` of `std::set`: an element already present is not added. -/
def insertEdge (edges : List (Nat × Nat)) (e : Nat × Nat) : List (Nat × Nat) :=
  if e ∈ edges then edges else edges ++ [e]

/-- Body of the initialisation loop (lines 213-224) for the cell `p` of the column `col`,
with the running `nodeId`; the result carries the incremented `nodeId`. -/
def initCell (col : List Nat) (acc : Nat × MazeState) (p : Nat) :
    Except Fault (Nat × MazeState) := do
  let nodeId := acc.1
  let s := acc.2
  let c ← readAt s.heap p
  let heap1 := s.heap.set p { c with bucketId := nodeId }
  let bucket ← readAt s.bucketCells nodeId
  let buckets1 := s.bucketCells.set nodeId (bucket ++ [p])
  let edges1 ←
    if c.x + 1 < s.mazeMatrix.length then do
      let column ← readAt s.mazeMatrix (c.x + 1)
      let q ← readAt column c.y
      pure (insertEdge s.edges (p, q))
    else pure s.edges
  let edges2 ←
    if c.y + 1 < col.length then do
      let column ← readAt s.mazeMatrix c.x
      let q ← readAt column (c.y + 1)
      pure (insertEdge edges1 (p, q))
    else pure edges1
  pure (u32 (nodeId + 1),
    { s with heap := heap1, bucketCells := buckets1, edges := edges2 })

/-- The initialisation loops (lines 209-225) over the columns of the matrix and the cells of
each column. -/
def initBuckets (s : MazeState) : Except Fault (Nat × MazeState) :=
  s.mazeMatrix.foldlM (fun acc col => col.foldlM (initCell col) acc) (0, s)

/-- Body of the loop of `MergeBucket` (lines 335-336) for the cell `p` of bucket `bucketIdB`. -/
def mergeCell (bucketIdA : Nat) (acc : List Cell × List (List Nat)) (p : Nat) :
    Except Fault (List Cell × List (List Nat)) := do
  let c ← readAt acc.1 p
  let bucketA ← readAt acc.2 bucketIdA
  pure (acc.1.set p { c with bucketId := bucketIdA }, acc.2.set bucketIdA (bucketA ++ [p]))

/-- `MazeKruskalsLog::MergeBucket` (lines 328-340) on the bucket table `buckets`, with the
cells the table points to in `heap`. Bucket `bucketIdB` is not modified while it is
traversed, because the assertion excludes `bucketIdA = bucketIdB`. -/
def MergeBucket (heap : List Cell) (buckets : List (List Nat)) (bucketIdA bucketIdB : Nat) :
    Except Fault (List Cell × List (List Nat)) :=
  if bucketIdA = bucketIdB then .error Fault.assertion
  else do
    let bucketB ← readAt buckets bucketIdB
    let r ← bucketB.foldlM (mergeCell bucketIdA) (heap, buckets)
    pure (r.1, r.2.set bucketIdB [])

/-- Lines 262-300: the branch taken when the two cells of the selected edge lie in different
buckets. -/
def connectAndMerge (s : MazeState) (edge : Nat × Nat) (cellA cellB : Cell) :
    Except Fault MazeState := do
  let logs1 := s.logs ++
    [Record.connectEdge (toInt cellA.x) (toInt cellA.y) (toInt cellB.x) (toInt cellB.y)]
  let a ← readAt s.heap edge.1
  let heap1 := s.heap.set edge.1 { a with connectedCells := a.connectedCells ++ [edge.2] }
  let b ← readAt heap1 edge.2
  let heap2 := heap1.set edge.2 { b with connectedCells := b.connectedCells ++ [edge.1] }
  let logs2 := logs1 ++ [Record.mergeBuckets (toInt cellA.bucketId) (toInt cellB.bucketId)]
  let r ← MergeBucket heap2 s.bucketCells cellA.bucketId cellB.bucketId
  pure { s with heap := r.1, bucketCells := r.2, logs := logs2 }

/-- One turn of the loop `while (!edges.empty())` (lines 232-303), entered with a non-empty
edge set. `draw` is the value returned by `mt()`. -/
def edgeStep (draw : Nat) (s : MazeState) : Except Fault MazeState := do
  let idx := draw % s.edges.length
  let edge ← readAt s.edges idx
  let cellA ← readAt s.heap edge.1
  let cellB ← readAt s.heap edge.2
  let s1 : MazeState := { s with logs := s.logs ++
    [Record.selectEdge (toInt cellA.x) (toInt cellA.y) (toInt cellB.x) (toInt cellB.y)] }
  let s2 ←
    if cellA.bucketId ≠ cellB.bucketId then connectAndMerge s1 edge cellA cellB
    else pure s1
  pure { s2 with edges := s2.edges.eraseIdx idx }

/-- The loop `while (!edges.empty())` (lines 230-304). `draws k` is the value returned by
the `k`-th call of `mt()`. -/
def edgeLoop (draws : Nat → Nat) : Nat → Nat → MazeState → Except Fault MazeState
  | 0, _, s => if s.edges.isEmpty then .ok s else .error Fault.outOfFuel
  | fuel + 1, k, s =>
    if s.edges.isEmpty then .ok s
    else
      match edgeStep (draws k) s with
      | .error e => .error e
      | .ok s2 => edgeLoop draws fuel (k + 1) s2

/-- The result of `WriteComputation`: the final variables and the two members of `stats`. -/
structure MazeResult where
  state : MazeState
  stackSize : Int
  nbPushes : Int
deriving DecidableEq, Repr

/-- The state before the initialisation loops (lines 173-208). -/
def startState (width height : Nat) : MazeState :=
  { heap := (initMatrix width height).1
    mazeMatrix := (initMatrix width height).2
    edges := []
    bucketCells := List.replicate (edgeCount width height) []
    logs := [Record.comment "Initialize random generator based on Mersenne Twister algorithm.",
             Record.comment
               "Create buckets for each cell and a set with all possible connecting edges."] }

/-- `MazeKruskalsLog::WriteComputation` (lines 170-319). -/
def WriteComputation (draws : Nat → Nat) (fuel : Nat) (width height : Nat) :
    Except Fault MazeResult := do
  let r ← initBuckets (startState width height)
  let s1 : MazeState := { r.2 with logs := r.2.logs ++
    [Record.comment ("While the set of edges is not empty randomly get an edge; connect cells" ++
      " and merge buckets if not already in the same one:")] }
  let s2 ← edgeLoop draws fuel 0 s1
  let s3 : MazeState := { s2 with logs := s2.logs ++ [Record.opReturn true] }
  pure { state := s3, stackSize := toInt (edgeCount width height),
         nbPushes := toInt (edgeCount width height) }

/-- Specification vocabulary: the cell at address `p` of a grid with columns of `height`
cells, once the initialisation has handled the first `k` cells. -/
def cellAfter (height k p : Nat) : Cell :=
  { x := p / height, y := p % height, isVisited := false,
    bucketId := if p < k then p else 0, connectedCells := [] }

/-- Specification vocabulary: the edges the initialisation inserts for the cell at address
`p`, the one to its right neighbour and the one to its bottom neighbour. -/
def edgesOf (width height p : Nat) : List (Nat × Nat) :=
  (if p / height + 1 < width then [(p, p + height)] else []) ++
  (if p % height + 1 < height then [(p, p + 1)] else [])

/-- Specification vocabulary: the variables once the initialisation has handled the first
`k` cells of the grid. -/
def stateAfter (width height k : Nat) : MazeState :=
  { heap := (List.range (width * height)).map (cellAfter height k)
    mazeMatrix := (initMatrix width height).2
    edges := (List.range k).flatMap (edgesOf width height)
    bucketCells := (List.range (edgeCount width height)).map (fun i => if i < k then [i] else [])
    logs := (startState width height).logs }

/-- The bucket id of the cell at address `p`, when there is such a cell. -/
def bucketIdOf (heap : List Cell) (p : Nat) : Option Nat :=
  (heap[p]?).map (fun c => c.bucketId)

/-- Specification vocabulary: the bucket table is a partition of the cells. Every cell
occurs in the bucket named by its `bucketId`, a bucket holds only cells whose `bucketId` is
its index (so a cell occurs in no other bucket), and no bucket holds a cell twice. -/
def Partitioned (heap : List Cell) (buckets : List (List Nat)) : Prop :=
  (∀ (p i : Nat), bucketIdOf heap p = some i → ∃ b, buckets[i]? = some b ∧ p ∈ b) ∧
  (∀ (i : Nat) (b : List Nat) (p : Nat), buckets[i]? = some b → p ∈ b →
    bucketIdOf heap p = some i) ∧
  (∀ (i : Nat) (b : List Nat), buckets[i]? = some b → b.Nodup)

/-- Specification vocabulary: the cells at the addresses `p` and `q` have the same bucket
id. -/
def SameBucket (heap : List Cell) (p q : Nat) : Prop :=
  ∃ i, bucketIdOf heap p = some i ∧ bucketIdOf heap q = some i

/-- Number of non-empty buckets of the table. -/
def nonEmptyCount (buckets : List (List Nat)) : Nat :=
  (buckets.filter (fun b => !b.isEmpty)).length

/-- Number of `ConnectEdge` records in a log. -/
def connectCount (logs : List Record) : Nat :=
  (logs.filter (fun r => match r with | Record.connectEdge _ _ _ _ => true | _ => false)).length

/-- Specification vocabulary: what one turn of the edge loop does to the variables. The edge
at position `idx` is removed, the cells of the bucket `idB` of its second cell take the
bucket id `idA` of its first cell (nothing changes when the two ids are equal), the table
stays a partition, and each `ConnectEdge` record empties one bucket. -/
def StepRel (s s2 : MazeState) : Prop :=
  ∃ (idx : Nat) (e : Nat × Nat) (idA idB : Nat),
    s.edges[idx]? = some e ∧
    bucketIdOf s.heap e.1 = some idA ∧ bucketIdOf s.heap e.2 = some idB ∧
    s2.edges = s.edges.eraseIdx idx ∧
    (∀ p, bucketIdOf s2.heap p =
      (bucketIdOf s.heap p).map (fun i => if i = idB then idA else i)) ∧
    s2.heap.length = s.heap.length ∧
    Partitioned s2.heap s2.bucketCells ∧
    connectCount s2.logs + nonEmptyCount s2.bucketCells =
      connectCount s.logs + nonEmptyCount s.bucketCells

/-- Invariant of the edge loop on a `width × height` grid: the table is a partition of the
`width * height` cells, each edge of the grid is still in the edge set or has both cells in
one bucket, and the `ConnectEdge` records and the non-empty buckets add up to the number of
cells. -/
def MazeInv (width height : Nat) (s : MazeState) : Prop :=
  Partitioned s.heap s.bucketCells ∧
  (∀ e ∈ s.edges, e.1 < s.heap.length ∧ e.2 < s.heap.length) ∧
  s.heap.length = width * height ∧
  (∀ e ∈ (List.range (width * height)).flatMap (edgesOf width height),
    e ∈ s.edges ∨ SameBucket s.heap e.1 e.2) ∧
  connectCount s.logs + nonEmptyCount s.bucketCells = width * height

/-- Invariant of the edge loop: the table is a partition of the cells and the remaining
edges join live cells. -/
def EdgeInv (s : MazeState) : Prop :=
  Partitioned s.heap s.bucketCells ∧
  ∀ e ∈ s.edges, e.1 < s.heap.length ∧ e.2 < s.heap.length

end MazeKruskalsLog

/-! ## Trace sessions -/

/-- What a session hands to the writer, in order. The calls `StartObject`, `EndObject`,
`StartArray`, `EndArray`, `Key`, `String` and `Int` are kept one by one; the calls that one
`Comment` or `Operation` record makes are kept as one `record`, and those of one `Value`,
`Iterator` or `Array` encoder (`Logger/value.hxx`, `Logger/array.hxx`, whose text is not part
of the sources at hand) as one event that carries the arguments of its `Build`. -/
inductive Event where
  | startObject
  | endObject
  | startArray
  | endArray
  | key (name : String)
  | string (value : String)
  | int (value : Int)
  | record (r : Record)
  | value (name : String) (v : Nat)
  | iterator (seqName name : String) (index : Int)
  | array (seqName beginName endName : String) (size : Nat)
deriving DecidableEq, Repr

namespace CocktailLog

/-- What `Write` leaves behind: the events written, the sequence in place, and the value
returned. -/
structure WriteResult (α : Type) where
  events : List Event
  seq : List α
  returned : Bool
deriving DecidableEq, Repr

/-- `CocktailLog::WriteParameters` (lines 120-137). `isSub` is `opts & OpIsSub`. -/
def WriteParameters (kSeqName : String) (isSub : Bool) (size : Nat) : List Event :=
  [Event.key "parameters", Event.startArray] ++
  (if isSub then
    [Event.iterator kSeqName "begin" 0, Event.iterator kSeqName "end" (size : Int)]
   else [Event.array kSeqName "begin" "end" size]) ++
  [Event.endArray]

/-- The writer calls of `WriteComputation` (lines 143-149 and 192-193) around the records
`logs` of the sort loop. -/
def computationEvents (kSeqName : String) (logs : List Record) : List Event :=
  [Event.key "locals", Event.startArray, Event.iterator kSeqName "it" 0, Event.endArray,
   Event.key "logs", Event.startArray] ++ logs.map Event.record ++ [Event.endArray]

/-- `CocktailLog::Write` (lines 92-117). `traits` stands for the events written by
`Algo_Traits<CocktailLog>::Build` (`Logger/algorithm.hxx`, not part of the sources at hand),
`kSeqName` for the constant of that name, and `isSub` for `opts & OpIsSub`. -/
def Write {α : Type} (comp : α → α → Bool) (fuel : Nat) (traits : List Event)
    (kSeqName : String) (isSub : Bool) (a : List α) : Except Fault (WriteResult α) :=
  if (a.length : Int) < 2 then
    .ok { events := [Event.record (Record.comment "Sequence size too small to be processed."),
                     Event.record (Record.opReturn true)]
          seq := a, returned := true }
  else
    match WriteComputation comp fuel a with
    | .error e => .error e
    | .ok s =>
      .ok { events := [Event.startObject] ++ traits ++ WriteParameters kSeqName isSub a.length ++
              computationEvents kSeqName s.logs ++ [Event.endObject]
            seq := s.seq, returned := true }

/-- The exchange of the elements at the positions `it` and `it + 1` of a sequence; a
position outside the sequence leaves it as it is. -/
def exchange {α : Type} (seq : List α) (it : Int) : List α :=
  if 0 ≤ it then
    match seq[it.toNat]?, seq[it.toNat + 1]? with
    | some x, some y => (seq.set it.toNat y).set (it.toNat + 1) x
    | _, _ => seq
  else seq

/-- One record of the replay the specification describes: a `Set` record on `it` moves the
cursor, a `Swap` record exchanges the elements at the cursor and after it, any other record
changes nothing. -/
def replayStep {α : Type} (st : Int × List α) (r : Record) : Int × List α :=
  match r with
  | Record.opSet name v => if name = "it" then (v, st.2) else st
  | Record.opSwap _ _ => (st.1, exchange st.2 st.1)
  | _ => st

/-- The replay of a log against the initial sequence `a`, as the specification describes
it: the cursor starts at `0`. The result is the cursor and the sequence after the last
record. -/
def replay {α : Type} (a : List α) (logs : List Record) : Int × List α :=
  logs.foldl replayStep (0, a)

/-- Invariant of a pass for the replay of the log: the sequence keeps its length `n`, the
replay of the records written so far gives the logged cursor and the sequence in place, and
the logged cursor is the offset `it` of the iterator. -/
def ReplayInv {α : Type} (a : List α) (n : Nat) (b e : Int) (it : Int) (s : SortState α) :
    Prop :=
  s.seq.length = n ∧ s.beginIdx = b ∧ s.endIdx = e ∧
  replay a s.logs = (s.itIdx, s.seq) ∧ s.itIdx = it

/-- Invariant at the head of the `while` loop for the replay of the log. -/
def ReplayHead {α : Type} (a : List α) (n : Nat) (s : SortState α) : Prop :=
  s.seq.length = n ∧ 0 ≤ s.beginIdx ∧ s.endIdx ≤ (n : Int) - 1 ∧
  replay a s.logs = (s.itIdx, s.seq)

/-- Specification vocabulary: every `Swap` record of the log `logs` of a run on `a` was
written with the cursor on two neighbours `x`, `y` of the sequence in place at that moment
(the replay of the records before it) with `y ≤ x`: a pair out of order or an equal pair. -/
def SwapJustified {α : Type} [LinearOrder α] (a : List α) (logs : List Record) : Prop :=
  ∀ (pre post : List Record) (n1 n2 : String), logs = pre ++ Record.opSwap n1 n2 :: post →
    ∃ x y, 0 ≤ (replay a pre).1 ∧ (replay a pre).2[(replay a pre).1.toNat]? = some x ∧
      (replay a pre).2[(replay a pre).1.toNat + 1]? = some y ∧ y ≤ x

/-- Specification vocabulary: a comparison that exchanges nothing was made on a pair with
`x < y`. The comparison at the offset `k` stands in the log between the record `Set it k`
(lines 160, 168, 178, 186) and the record that closes the step, `Set it (k + 1)` in the
forward pass (line 168) and `Set it (k - 1)` in the backward pass (line 186); when nothing
is exchanged no `Swap` record stands between the two. -/
def UnswappedAscending {α : Type} [LinearOrder α] (a : List α) (logs : List Record) : Prop :=
  ∀ (pre post : List Record) (k k2 : Int),
    logs = pre ++ Record.opSet "it" k :: Record.opSet "it" k2 :: post →
    (k2 = k + 1 ∨ k2 = k - 1) →
    ∃ x y, 0 ≤ k ∧ (replay a pre).2[k.toNat]? = some x ∧
      (replay a pre).2[k.toNat + 1]? = some y ∧ x < y

/-- Invariant of a pass for the two properties of the log. -/
def SwapInv {α : Type} [LinearOrder α] (a : List α) (n : Nat) (b e : Int) (it : Int)
    (s : SortState α) : Prop :=
  ReplayInv a n b e it s ∧ SwapJustified a s.logs ∧ UnswappedAscending a s.logs

/-- Invariant at the head of the `while` loop for the two properties of the log: the cursor
logged last stands at least two positions before `beginIdx`. -/
def SwapHead {α : Type} [LinearOrder α] (a : List α) (n : Nat) (s : SortState α) : Prop :=
  ReplayHead a n s ∧ SwapJustified a s.logs ∧ UnswappedAscending a s.logs ∧
  (s.logs = [] ∨ s.itIdx + 2 ≤ s.beginIdx)

end CocktailLog

namespace MazeKruskalsLog

/-- What `Write` leaves behind: the events written and the value returned. -/
structure WriteResult where
  events : List Event
  returned : Bool
deriving DecidableEq, Repr

/-- `MazeKruskalsLog::WriteParameters` (lines 158-167). -/
def WriteParameters (width height : Nat) : List Event :=
  [Event.key "parameters", Event.startArray, Event.value "width" width,
   Event.value "height" height, Event.endArray]

/-- The writer calls of `WriteComputation` (lines 184-199 and 306-316) around the records
`logs`, with the value `edges` written for both members of `stats`. -/
def computationEvents (logs : List Record) (stackSize nbPushes : Int) : List Event :=
  [Event.key "locals", Event.startArray,
   Event.startObject, Event.key "name", Event.string "pathStack", Event.key "type",
   Event.string "set", Event.key "dataType", Event.string "Cell", Event.endObject,
   Event.endArray, Event.key "logs", Event.startArray] ++ logs.map Event.record ++
  [Event.endArray, Event.key "stats", Event.startObject, Event.key "stackSize",
   Event.int stackSize, Event.key "nbPushes", Event.int nbPushes, Event.endObject]

/-- `MazeKruskalsLog::Write` (lines 123-155). -/
def Write (draws : Nat → Nat) (fuel : Nat) (width height : Nat) : Except Fault WriteResult :=
  if width < 1 ∨ height < 1 then
    .ok { events := [Event.record (Record.comment "Sequence size too small to be processed."),
                     Event.record (Record.opReturn true)]
          returned := true }
  else
    match WriteComputation draws fuel width height with
    | .error e => .error e
    | .ok r =>
      .ok { events :=
              [Event.startObject, Event.key "type", Event.string "DataStructure",
               Event.key "structure", Event.startObject, Event.key "type",
               Event.string "2DGrid", Event.key "width", Event.int (toInt width),
               Event.key "height", Event.int (toInt height), Event.endObject,
               Event.key "name", Event.string "Kruskals Maze Generator"] ++
              WriteParameters width height ++
              computationEvents r.state.logs r.stackSize r.nbPushes ++ [Event.endObject]
            returned := true }

/-- The variables of a `2 × 1` grid after an initialisation with one bucket for each of the
two cells, as the specification describes it. -/
def twoCellState : MazeState :=
  { heap := [{ x := 0, y := 0, isVisited := false, bucketId := 0, connectedCells := [] },
             { x := 1, y := 0, isVisited := false, bucketId := 1, connectedCells := [] }]
    mazeMatrix := [[0], [1]]
    edges := [(0, 1)]
    bucketCells := [[0], [1]]
    logs := [] }

/-- Number of `SelectEdge` records in a log. -/
def selectCount (logs : List Record) : Nat :=
  (logs.filter (fun r => match r with | Record.selectEdge _ _ _ _ => true | _ => false)).length

end MazeKruskalsLog

/-! ## Error record -/

namespace Error

/-- `Error::Write` (`Logger/error.hxx`, lines 66-80). The result is the events written and
the value returned. `line` is an `int`. -/
def Write (file : String) (line : Int) (message : String) : List Event × Bool :=
  ([Event.startObject, Event.key "type", Event.string "error", Event.key "file",
    Event.string file, Event.key "line", Event.int line, Event.key "message",
    Event.string ("Error: " ++ message), Event.endObject], true)

end Error

/-! ## Structure of a sequence of events -/

/-- An open scope of the writer: an object in which a key (or the end of the object) is due,
an object in which the value of the last key is due, or an array. -/
inductive Frame where
  | objectKey
  | objectValue
  | array
deriving DecidableEq, Repr

/-- Specification vocabulary: the state of a scan of the events. `stack` holds the open
scopes, innermost first; `complete` tells that the root value has been closed; `keys` are the
keys met directly inside the root object. -/
structure Scan where
  stack : List Frame
  complete : Bool
  keys : List String
deriving DecidableEq, Repr

/-- A value has been completed in the innermost open scope. At the root a second value is
refused; inside an object a value is accepted only after a key. -/
def Scan.closeValue (s : Scan) : Option Scan :=
  match s.stack with
  | [] => if s.complete = true then none else some { s with complete := true }
  | Frame.array :: _ => some s
  | Frame.objectValue :: rest => some { s with stack := Frame.objectKey :: rest }
  | Frame.objectKey :: _ => none

/-- A scope `f` is opened where a value is due. -/
def Scan.openScope (s : Scan) (f : Frame) : Option Scan :=
  match s.stack with
  | [] => if s.complete = true then none else some { s with stack := [f] }
  | Frame.array :: _ => some { s with stack := f :: s.stack }
  | Frame.objectValue :: _ => some { s with stack := f :: s.stack }
  | Frame.objectKey :: _ => none

/-- One event of the scan. `EndObject` and `EndArray` must close the innermost open scope,
of their own kind, and an object is not closed between a key and its value; a key is
accepted only directly inside an object, where a key is due; every other event is one
complete value. -/
def scanStep (s : Scan) (e : Event) : Option Scan :=
  match e with
  | Event.startObject => s.openScope Frame.objectKey
  | Event.startArray => s.openScope Frame.array
  | Event.endObject =>
    match s.stack with
    | Frame.objectKey :: rest => Scan.closeValue { s with stack := rest }
    | _ => none
  | Event.endArray =>
    match s.stack with
    | Frame.array :: rest => Scan.closeValue { s with stack := rest }
    | _ => none
  | Event.key k =>
    match s.stack with
    | Frame.objectKey :: rest =>
      some { s with stack := Frame.objectValue :: rest
                    keys := if rest.isEmpty then s.keys ++ [k] else s.keys }
    | _ => none
  | _ => s.closeValue

/-- The scan of a sequence of events from the state `s`; `none` when an event is refused. -/
def scanFrom (s : Scan) : List Event → Option Scan
  | [] => some s
  | e :: es =>
    match scanStep s e with
    | none => none
    | some s2 => scanFrom s2 es

/-- The scan of a whole document. -/
def scan (events : List Event) : Option Scan :=
  scanFrom { stack := [], complete := false, keys := [] } events

/-- Specification vocabulary: the events form one complete top-level object, strictly
nested, whose keys are `keys` in this order: the first event opens an object, no event is
refused, and at the end no scope is open and the root value is complete. -/
def CompleteObject (events : List Event) (keys : List String) : Prop :=
  events.head? = some Event.startObject ∧
  scan events = some { stack := [], complete := true, keys := keys }

end SHA_Logger

/-! # Properties -/

namespace SHA_Logger

namespace CocktailLog

/-! ### The comparison step -/

theorem getElem?_swap {α : Type} (a : List α) (p : Nat) (x y : α)
    (hx : a[p]? = some x) (hy : a[p + 1]? = some y) (i : Nat) :
    ((a.set p y).set (p + 1) x)[i]? =
      a[if i = p then p + 1 else if i = p + 1 then p else i]? := by
  have hp : p + 1 < a.length := by
    rcases List.getElem?_eq_some.mp hy with ⟨h, _⟩
    exact h
  simp only [List.getElem?_set, List.length_set]
  by_cases h1 : p + 1 = i
  · subst h1
    simp [hp, hx]
  · by_cases h2 : p = i
    · subst h2
      simp [hy]
      omega
    · have h3 : ¬ i = p := fun h => h2 h.symm
      have h4 : ¬ i = p + 1 := fun h => h1 h.symm
      simp [h1, h2, h3, h4]

theorem compareSwap_eq {α : Type} (comp : α → α → Bool) (it : Int) (s : SortState α)
    (h0 : 0 ≤ it) (h1 : it + 1 < s.seq.length) :
    ∃ x y, s.seq[it.toNat]? = some x ∧ s.seq[it.toNat + 1]? = some y ∧
      compareSwap comp it s =
        .ok (if comp y x = true then
              { s with
                seq := (s.seq.set it.toNat y).set (it.toNat + 1) x
                logs := s.logs ++ [Record.opSwap "it" "it++"]
                hasSwapped := true }
            else s) := by
  have hb : it.toNat + 1 < s.seq.length := by omega
  have hb0 : it.toNat < s.seq.length := by omega
  refine ⟨s.seq[it.toNat], s.seq[it.toNat + 1], List.getElem?_eq_getElem hb0,
    List.getElem?_eq_getElem hb, ?_⟩
  unfold compareSwap
  rw [if_pos h0, List.getElem?_eq_getElem hb0, List.getElem?_eq_getElem hb]
  simp only
  split <;> rfl

/-! ### Loop rules -/

/-- Invariant rule of the forward loop: an invariant kept by every step whose guard holds
is established at the exit, and the loop does exit within `endIdx - it` steps. -/
theorem forwardLoop_rule {α : Type} (comp : α → α → Bool) (e : Int)
    (I : Int → SortState α → Prop)
    (hend : ∀ it s, I it s → s.endIdx = e)
    (hstep : ∀ it s, I it s → it < e →
      ∃ s1, compareSwap comp it s = .ok s1 ∧ I (it + 1) (logIncr s1)) :
    ∀ (fuel : Nat) (it : Int) (s : SortState α), (e - it).toNat ≤ fuel → I it s →
      ∃ s2, forwardLoop comp fuel it s = .ok s2 ∧ I (max it e) s2 := by
  intro fuel
  induction fuel with
  | zero =>
    intro it s hf hI
    have he := hend it s hI
    have hle : e ≤ it := by omega
    refine ⟨s, ?_, ?_⟩
    · unfold forwardLoop
      rw [if_neg (by omega)]
    · rw [max_eq_left hle]
      exact hI
  | succ fuel ih =>
    intro it s hf hI
    have he := hend it s hI
    unfold forwardLoop
    by_cases hlt : it < e
    · rw [if_pos (by omega)]
      obtain ⟨s1, h1, hI1⟩ := hstep it s hI hlt
      rw [h1]
      simp only
      obtain ⟨s2, h2, hI2⟩ := ih (it + 1) (logIncr s1) (by omega) hI1
      refine ⟨s2, h2, ?_⟩
      rw [max_eq_right (by omega)] at hI2
      rw [max_eq_right (by omega)]
      exact hI2
    · rw [if_neg (by omega)]
      refine ⟨s, rfl, ?_⟩
      rw [max_eq_left (by omega)]
      exact hI

/-- Invariant rule of the backward loop. -/
theorem backwardLoop_rule {α : Type} (comp : α → α → Bool) (b : Int)
    (I : Int → SortState α → Prop)
    (hbeg : ∀ it s, I it s → s.beginIdx = b)
    (hstep : ∀ it s, I it s → b ≤ it →
      ∃ s1, compareSwap comp it s = .ok s1 ∧ I (it - 1) (logDecr s1)) :
    ∀ (fuel : Nat) (it : Int) (s : SortState α), (it + 1 - b).toNat ≤ fuel → I it s →
      ∃ s2, backwardLoop comp fuel it s = .ok s2 ∧ I (min it (b - 1)) s2 := by
  intro fuel
  induction fuel with
  | zero =>
    intro it s hf hI
    have he := hbeg it s hI
    refine ⟨s, ?_, ?_⟩
    · unfold backwardLoop
      rw [if_neg (by omega)]
    · rw [min_eq_left (by omega)]
      exact hI
  | succ fuel ih =>
    intro it s hf hI
    have he := hbeg it s hI
    unfold backwardLoop
    by_cases hlt : b ≤ it
    · rw [if_pos (by omega)]
      obtain ⟨s1, h1, hI1⟩ := hstep it s hI hlt
      rw [h1]
      simp only
      obtain ⟨s2, h2, hI2⟩ := ih (it - 1) (logDecr s1) (by omega) hI1
      refine ⟨s2, h2, ?_⟩
      rw [min_eq_right (by omega)] at hI2
      rw [min_eq_right (by omega)]
      exact hI2
    · rw [if_neg (by omega)]
      refine ⟨s, rfl, ?_⟩
      rw [min_eq_left (by omega)]
      exact hI

/-- Invariant rule of the `while` loop: `I` holds at the head, `Q` at both exits. -/
theorem whileLoop_rule {α : Type} (comp : α → α → Bool) (k : Int) (inner : Nat)
    (I Q : SortState α → Prop)
    (hexit : ∀ s, I s → ¬ (s.hasSwapped = true ∧ s.beginIdx < k - 1) → Q s)
    (hbody : ∀ s, I s → s.hasSwapped = true → s.beginIdx < k - 1 →
      ∃ s2, forwardLoop comp inner s.beginIdx (startForward s) = .ok s2 ∧
        ((endForward s2).hasSwapped = false → Q (endForward s2)) ∧
        (¬ (endForward s2).hasSwapped = false →
          ∃ s5, backwardLoop comp inner ((endForward s2).endIdx - 1)
              (startBackward (endForward s2)) = .ok s5 ∧
            I (endBackward s5) ∧ (endBackward s5).beginIdx = s.beginIdx + 1)) :
    ∀ (fuel : Nat) (s : SortState α), (k - 1 - s.beginIdx).toNat ≤ fuel → I s →
      ∃ s6, whileLoop comp k inner fuel s = .ok s6 ∧ Q s6 := by
  intro fuel
  induction fuel with
  | zero =>
    intro s hf hI
    have hc : ¬ (s.hasSwapped = true ∧ s.beginIdx < k - 1) := by
      rintro ⟨_, h⟩
      omega
    refine ⟨s, ?_, hexit s hI hc⟩
    unfold whileLoop
    rw [if_neg hc]
  | succ fuel ih =>
    intro s hf hI
    unfold whileLoop
    by_cases hc : s.hasSwapped = true ∧ s.beginIdx < k - 1
    · rw [if_pos hc]
      obtain ⟨s2, h2, hbreak, hcont⟩ := hbody s hI hc.1 hc.2
      rw [h2]
      simp only
      by_cases hsw : (endForward s2).hasSwapped = false
      · rw [if_pos hsw]
        exact ⟨_, rfl, hbreak hsw⟩
      · rw [if_neg hsw]
        obtain ⟨s5, h5, hI5, hb5⟩ := hcont hsw
        rw [h5]
        simp only
        exact ih (endBackward s5) (by omega) hI5
    · rw [if_neg hc]
      exact ⟨s, rfl, hexit s hI hc⟩

/-! ### The passes of the sort -/

theorem swapCount_append_set (l : List Record) (n : String) (v : Int) :
    swapCount (l ++ [Record.opSet n v]) = swapCount l := by
  simp [swapCount, List.filter_append]

theorem swapCount_append_swap (l : List Record) (a b : String) :
    swapCount (l ++ [Record.opSwap a b]) = swapCount l + 1 := by
  simp [swapCount, List.filter_append]

theorem swapCount_append_return (l : List Record) (b : Bool) :
    swapCount (l ++ [Record.opReturn b]) = swapCount l := by
  simp [swapCount, List.filter_append]

theorem lessEqual_eq_true {α : Type} [LinearOrder α] (x y : α) :
    lessEqual x y = true ↔ x ≤ y := by
  simp [lessEqual]

/-- An exchange of two neighbours inside the active bounds keeps the settled part. -/
theorem Settled.swap {α : Type} [LinearOrder α] {a : List α} {b e : Int}
    (h : Settled a b e) (p : Nat) (x y : α) (hx : a[p]? = some x) (hy : a[p + 1]? = some y)
    (hb : b ≤ (p : Int)) (he : (p : Int) + 1 ≤ e) :
    Settled ((a.set p y).set (p + 1) x) b e := by
  intro i j u v hij hi hj hor
  rw [getElem?_swap a p x y hx hy] at hi hj
  refine h _ _ u v ?_ hi hj ?_
  · split_ifs <;> omega
  · split_ifs <;> omega

theorem forward_step {α : Type} [LinearOrder α] (n : Nat) (b e : Int) (s0 : SortState α)
    (hb : 0 ≤ b) (he : e ≤ (n : Int) - 1)
    (it : Int) (s : SortState α) (hI : ForwardInv n b e s0 it s) (hlt : it < e) :
    ∃ s1, compareSwap lessEqual it s = .ok s1 ∧ ForwardInv n b e s0 (it + 1) (logIncr s1) := by
  obtain ⟨hlen, hbeg, hend, hbit, hbp, hfp, hset, hmax, hns, hsw⟩ := hI
  have h0 : 0 ≤ it := by omega
  obtain ⟨x, y, hx, hy, hcs⟩ := compareSwap_eq lessEqual it s h0 (by omega)
  have htn : (it.toNat : Int) = it := Int.toNat_of_nonneg h0
  have htn1 : (it + 1).toNat = it.toNat + 1 := by omega
  refine ⟨_, hcs, ?_⟩
  by_cases hc : lessEqual y x = true
  · rw [if_pos hc]
    have hyx : y ≤ x := (lessEqual_eq_true y x).mp hc
    refine ⟨by simp [logIncr, hlen], hbeg, hend, by omega, hbp, hfp, ?_, ?_, ?_, ?_⟩
    · exact hset.swap it.toNat x y hx hy (by omega) (by omega)
    · intro i u v hbi hii hu hv
      simp only [logIncr] at hu hv
      rw [htn1] at hv
      rw [getElem?_swap s.seq it.toNat x y hx hy] at hu hv
      simp only [if_true, Nat.succ_ne_self, if_false] at hv
      rw [hx] at hv
      cases hv
      split_ifs at hu with h1 h2
      · rw [hy] at hu
        cases hu
        exact hyx
      · rw [hx] at hu
        cases hu
        exact le_refl _
      · exact hmax i u x hbi (by omega) hu hx
    · intro h
      simp [logIncr] at h
    · intro _
      omega
  · rw [if_neg hc]
    have hxy : x < y := by
      have : ¬ y ≤ x := fun h => hc ((lessEqual_eq_true y x).mpr h)
      exact lt_of_not_le this
    refine ⟨by simp [logIncr, hlen], hbeg, hend, by omega, hbp, hfp, hset, ?_, ?_, ?_⟩
    · intro i u v hbi hii hu hv
      simp only [logIncr] at hu hv
      rw [htn1, hy] at hv
      cases hv
      by_cases hi : i = it.toNat + 1
      · subst hi
        rw [hy] at hu
        cases hu
        exact le_refl _
      · exact le_trans (hmax i u x hbi (by omega) hu hx) (le_of_lt hxy)
    · intro h
      have h2 : s.hasSwapped = false := by simpa [logIncr] using h
      obtain ⟨hseq, hcnt, hchain⟩ := hns h2
      refine ⟨hseq, ?_, ?_⟩
      · simp only [logIncr]
        rw [swapCount_append_set]
        exact hcnt
      · intro i u v hbi hii hu hv
        simp only [logIncr] at hu hv
        by_cases hi : i = it.toNat
        · subst hi
          rw [hx] at hu
          rw [hy] at hv
          cases hu
          cases hv
          exact hxy
        · exact hchain i u v hbi (by omega) hu hv
    · intro h
      exact hsw (by simpa [logIncr] using h)

/-- The forward pass, entered with the flag lowered, ends with `ForwardInv` at the cursor
`max b e`. -/
theorem forwardLoop_spec {α : Type} [LinearOrder α] (n fuel : Nat) (s : SortState α)
    (hb : 0 ≤ s.beginIdx) (he : s.endIdx ≤ (n : Int) - 1) (hlen : s.seq.length = n)
    (hS : Settled s.seq s.beginIdx s.endIdx) (hsw : s.hasSwapped = false) (hf : n ≤ fuel) :
    ∃ s2, forwardLoop lessEqual fuel s.beginIdx s = .ok s2 ∧
      ForwardInv n s.beginIdx s.endIdx s (max s.beginIdx s.endIdx) s2 := by
  apply forwardLoop_rule lessEqual s.endIdx (ForwardInv n s.beginIdx s.endIdx s)
  · intro it t h
    exact h.2.2.1
  · intro it t h hlt
    exact forward_step n s.beginIdx s.endIdx s hb he it t h hlt
  · omega
  · refine ⟨hlen, rfl, rfl, le_refl _, rfl, rfl, hS, ?_, ?_, ?_⟩
    · intro i u v hbi hii hu hv
      have : i = s.beginIdx.toNat := by omega
      subst this
      rw [hu] at hv
      cases hv
      exact le_refl _
    · intro _
      refine ⟨rfl, rfl, ?_⟩
      intro i u v hbi hii
      omega
    · intro h
      rw [hsw] at h
      cases h

theorem backward_step {α : Type} [LinearOrder α] (n : Nat) (b e : Int) (s0 : SortState α)
    (hb : 0 ≤ b) (he : e ≤ (n : Int) - 1)
    (it : Int) (s : SortState α) (hI : BackwardInv n b e s0 it s) (hle : b ≤ it) :
    ∃ s1, compareSwap lessEqual it s = .ok s1 ∧ BackwardInv n b e s0 (it - 1) (logDecr s1) := by
  obtain ⟨hlen, hbeg, hend, hbit, hite, hbp, hfp, hsw, hset, hmin⟩ := hI
  have h0 : 0 ≤ it := by omega
  obtain ⟨x, y, hx, hy, hcs⟩ := compareSwap_eq lessEqual it s h0 (by omega)
  have htn : (it.toNat : Int) = it := Int.toNat_of_nonneg h0
  have htn1 : (it + 1).toNat = it.toNat + 1 := by omega
  have htn2 : (it - 1 + 1).toNat = it.toNat := by
    rw [Int.sub_add_cancel]
  refine ⟨_, hcs, ?_⟩
  rw [htn1] at hmin
  by_cases hc : lessEqual y x = true
  · rw [if_pos hc]
    have hyx : y ≤ x := (lessEqual_eq_true y x).mp hc
    refine ⟨by simp [logDecr, hlen], hbeg, hend, by omega, by omega, hbp, hfp, rfl, ?_, ?_⟩
    · exact hset.swap it.toNat x y hx hy (by omega) (by omega)
    · intro j u v hlj hje hu hv
      simp only [logDecr] at hu hv
      rw [htn2] at hu
      rw [getElem?_swap s.seq it.toNat x y hx hy] at hu hv
      simp only [if_true] at hu
      rw [hy] at hu
      cases hu
      split_ifs at hv with h1 h2
      · rw [hy] at hv
        cases hv
        exact le_refl _
      · rw [hx] at hv
        cases hv
        exact hyx
      · exact hmin j _ v (by omega) hje hy hv
  · rw [if_neg hc]
    have hxy : x < y := by
      have : ¬ y ≤ x := fun h => hc ((lessEqual_eq_true y x).mpr h)
      exact lt_of_not_le this
    refine ⟨by simp [logDecr, hlen], hbeg, hend, by omega, by omega, hbp, hfp, ?_, hset, ?_⟩
    · simpa [logDecr] using hsw
    · intro j u v hlj hje hu hv
      simp only [logDecr] at hu hv
      rw [htn2, hx] at hu
      cases hu
      by_cases hj : j = it.toNat
      · subst hj
        rw [hx] at hv
        cases hv
        exact le_refl _
      · exact le_trans (le_of_lt hxy) (hmin j _ v (by omega) hje hy hv)

/-- The backward pass, entered at `endIdx - 1` with the flag raised, ends with
`BackwardInv` at the cursor `beginIdx - 1`. -/
theorem backwardLoop_spec {α : Type} [LinearOrder α] (n fuel : Nat) (s : SortState α)
    (hb : 0 ≤ s.beginIdx) (he : s.endIdx ≤ (n : Int) - 1) (hbe : s.beginIdx ≤ s.endIdx)
    (hlen : s.seq.length = n)
    (hS : Settled s.seq s.beginIdx s.endIdx) (hsw : s.hasSwapped = true) (hf : n ≤ fuel) :
    ∃ s2, backwardLoop lessEqual fuel (s.endIdx - 1) s = .ok s2 ∧
      BackwardInv n s.beginIdx s.endIdx s (s.beginIdx - 1) s2 := by
  have key := backwardLoop_rule lessEqual s.beginIdx (BackwardInv n s.beginIdx s.endIdx s)
    (fun it t h => h.2.1)
    (fun it t h hle => backward_step n s.beginIdx s.endIdx s hb he it t h hle)
    fuel (s.endIdx - 1) s (by omega) ?_
  · rw [min_eq_right (by omega)] at key
    exact key
  · refine ⟨hlen, rfl, rfl, by omega, le_refl _, rfl, rfl, hsw, hS, ?_⟩
    intro j u v hlj hje hu hv
    have : j = (s.endIdx - 1 + 1).toNat := by omega
    subst this
    rw [hu] at hv
    cases hv
    exact le_refl _

theorem whileLoop_spec {α : Type} [LinearOrder α] (n inner : Nat) (hin : n ≤ inner) :
    ∀ (fuel : Nat) (s : SortState α), ((n : Int) - 1 - s.beginIdx).toNat ≤ fuel →
      WhileInv n s →
      ∃ s6, whileLoop lessEqual (n : Int) inner fuel s = .ok s6 ∧ WhilePost n s6 := by
  apply whileLoop_rule lessEqual (n : Int) inner (WhileInv n) (WhilePost n)
  · intro s hI hc
    obtain ⟨hlen, hb, he, hS, hsw, hbp, h2⟩ := hI
    have hge : (n : Int) - 1 ≤ s.beginIdx := by
      by_contra h
      exact hc ⟨hsw, by omega⟩
    refine ⟨hlen, ?_, by omega⟩
    intro i x y hx hy
    have hi : i + 1 < s.seq.length := (List.getElem?_eq_some.mp hy).1
    exact hS i (i + 1) x y (by omega) hx hy (Or.inl (by omega))
  · intro s hI hsw hlt
    obtain ⟨hlen, hb, he, hS, _, hbp, h2⟩ := hI
    obtain ⟨s2, h2eq, hF⟩ := forwardLoop_spec n inner (startForward s) hb
      (by simp only [startForward]; omega) hlen hS rfl hin
    simp only [startForward] at hF
    refine ⟨s2, h2eq, ?_, ?_⟩
    · intro hns
      obtain ⟨hlen2, hbeg2, hend2, hbit, hbp2, hfp2, hset2, hmax2, hno, hyes⟩ := hF
      have hns2 : s2.hasSwapped = false := by simpa [endForward] using hns
      obtain ⟨_, _, hchain⟩ := hno hns2
      refine ⟨hlen2, ?_, ?_⟩
      · intro i x y hx hy
        simp only [endForward] at hx hy
        by_cases h1 : (i : Int) < s.beginIdx
        · exact hset2 i (i + 1) x y (by omega) hx hy (Or.inl h1)
        · by_cases h3 : s.endIdx < (i : Int) + 1
          · exact hset2 i (i + 1) x y (by omega) hx hy (Or.inr (by omega))
          · exact le_of_lt (hchain i x y (by omega)
              (lt_of_lt_of_le (by omega) (le_max_right _ _)) hx hy)
      · have hbp3 : s2.backwardPasses = s.backwardPasses := hbp2
        simp only [endForward]
        omega
    · intro hns
      obtain ⟨hlen2, hbeg2, hend2, hbit, hbp2, hfp2, hset2, hmax2, hno, hyes⟩ := hF
      have hsw2 : s2.hasSwapped = true := by
        cases h : s2.hasSwapped
        · exact absurd (by simpa [endForward] using h) hns
        · rfl
      have hbe : s.beginIdx < s.endIdx := hyes hsw2
      rw [max_eq_right (le_of_lt hbe)] at hmax2
      have hS3 : Settled (startBackward (endForward s2)).seq
          (startBackward (endForward s2)).beginIdx (startBackward (endForward s2)).endIdx := by
        simp only [startBackward, endForward, hbeg2, hend2]
        intro i j x y hij hx hy hor
        by_cases h1 : (i : Int) < s.beginIdx
        · exact hset2 i j x y hij hx hy (Or.inl h1)
        · by_cases h3 : s.endIdx < (j : Int)
          · exact hset2 i j x y hij hx hy (Or.inr h3)
          · have hj : j = s.endIdx.toNat := by omega
            subst hj
            exact hmax2 i x y (by omega) (by omega) hx hy
      obtain ⟨s5, h5eq, hB⟩ := backwardLoop_spec n inner (startBackward (endForward s2))
        (by simp only [startBackward, endForward, hbeg2]; exact hb)
        (by simp only [startBackward, endForward, hend2]; omega)
        (by simp only [startBackward, endForward, hbeg2, hend2]; omega)
        (by simp only [startBackward, endForward]; exact hlen2)
        hS3
        (by simp only [startBackward, endForward]; exact hsw2) hin
      refine ⟨s5, h5eq, ?_, ?_⟩ <;> simp only [startBackward, endForward, hbeg2, hend2] at hB
      · obtain ⟨hlen5, hbeg5, hend5, _, _, hbp5, hfp5, hsw5, hset5, hmin5⟩ := hB
        have e1 : (s.beginIdx - 1 + 1).toNat = s.beginIdx.toNat := by
          rw [Int.sub_add_cancel]
        rw [e1] at hmin5
        refine ⟨hlen5, ?_, ?_, ?_, hsw5, ?_, ?_⟩
        · simp only [endBackward, hbeg5]; omega
        · simp only [endBackward, hbeg5, hend5]; omega
        · simp only [endBackward, hbeg5, hend5]
          intro i j x y hij hx hy hor
          by_cases h1 : (i : Int) < s.beginIdx
          · exact hset5 i j x y hij hx hy (Or.inl h1)
          · by_cases h3 : s.endIdx - 1 < (j : Int)
            · exact hset5 i j x y hij hx hy (Or.inr h3)
            · have hi : i = s.beginIdx.toNat := by omega
              subst hi
              exact hmin5 j x y (by omega) (by omega) hx hy
        · have hbp3 : s2.backwardPasses = s.backwardPasses := hbp2
          simp only [endBackward, hbeg5, hbp5, hbp3]
          push_cast
          omega
        · simp only [endBackward, hbeg5]
          omega
      · simp only [endBackward, hB.2.1]

theorem initState_inv {α : Type} [LinearOrder α] (a : List α) :
    WhileInv a.length (initState a) := by
  refine ⟨rfl, le_refl _, by simp [initState], ?_, rfl, rfl, by simp [initState]⟩
  intro i j x y hij hx hy hor
  have hj : j < a.length := (List.getElem?_eq_some.mp hy).1
  simp only [initState] at hor
  omega

/-- The whole computation on a sequence of length at least two. -/
theorem WriteComputation_spec {α : Type} [LinearOrder α] (a : List α)
    (fuel : Nat) (hf : a.length ≤ fuel) :
    ∃ s, WriteComputation lessEqual fuel a = .ok s ∧ WhilePost a.length s := by
  obtain ⟨s6, h6, hP⟩ := whileLoop_spec a.length fuel hf fuel (initState a)
    (by simp only [initState]; omega) (initState_inv a)
  exact ⟨{ s6 with logs := s6.logs ++ [Record.opReturn true] },
    by simp only [WriteComputation, h6], hP⟩

theorem AdjacentSorted.chain {α : Type} [LinearOrder α] {a : List α} (h : AdjacentSorted a) :
    List.Chain' (· ≤ ·) a := by
  rw [List.chain'_iff_get]
  intro i hi
  exact h i _ _ (by simp [List.getElem?_eq_getElem (show i < a.length by omega)])
    (by simp [List.getElem?_eq_getElem (show i + 1 < a.length by omega)])

theorem StrictlyAscending.of_chain {α : Type} [LinearOrder α] {a : List α}
    (h : List.Chain' (· < ·) a) : StrictlyAscending a := by
  rw [List.chain'_iff_get] at h
  intro i x y hx hy
  obtain ⟨h1, rfl⟩ := List.getElem?_eq_some.mp hx
  obtain ⟨h2, rfl⟩ := List.getElem?_eq_some.mp hy
  exact h i (by omega)

theorem ascending_step {α : Type} [LinearOrder α] (a : List α) (ha : StrictlyAscending a)
    (it : Int) (s : SortState α) (hI : AscendingInv a it s) (hlt : it < (a.length : Int) - 1) :
    ∃ s1, compareSwap lessEqual it s = .ok s1 ∧ AscendingInv a (it + 1) (logIncr s1) := by
  obtain ⟨hseq, hsw, hend, h0, hcnt, hfp, hbp⟩ := hI
  obtain ⟨x, y, hx, hy, hcs⟩ := compareSwap_eq lessEqual it s h0 (by rw [hseq]; omega)
  rw [hseq] at hx hy
  have hxy : x < y := ha _ x y hx hy
  have hc : ¬ lessEqual y x = true := fun h => not_le_of_lt hxy ((lessEqual_eq_true y x).mp h)
  rw [if_neg hc] at hcs
  refine ⟨s, hcs, hseq, hsw, hend, by omega, ?_, hfp, hbp⟩
  simp only [logIncr]
  rw [swapCount_append_set]
  exact hcnt

/-- Claim C1: for every input sequence of length at least two over a linearly ordered
element type and the default predicate, `WriteComputation` returns (any step budget of at
least the length suffices) and the sequence it leaves in place is sorted ascending: every
adjacent pair satisfies `a[i] ≤ a[i + 1]`. -/
theorem cocktail_final_sequence_sorted {α : Type} [LinearOrder α] (a : List α)
    (hlen : 2 ≤ a.length) (fuel : Nat) (hf : a.length ≤ fuel) :
    ∃ s, WriteComputation lessEqual fuel a = .ok s ∧
      (∀ (i : Nat) (hi : i + 1 < s.seq.length), s.seq[i] ≤ s.seq[i + 1]) ∧
      List.Sorted (· ≤ ·) s.seq := by
  have _ := hlen
  obtain ⟨s, hs, _, hadj, _⟩ := WriteComputation_spec a fuel hf
  refine ⟨s, hs, ?_, ?_⟩
  · intro i hi
    exact hadj i _ _ (List.getElem?_eq_getElem (by omega)) (List.getElem?_eq_getElem hi)
  · exact List.chain'_iff_pairwise.mp hadj.chain

/-- The statement of C1 at the input `[3, 1, 2]`. -/
theorem cocktail_final_sequence_sorted_witness :
    2 ≤ [(3 : Int), 1, 2].length ∧ [(3 : Int), 1, 2].length ≤ 3 ∧
    ∃ s, WriteComputation lessEqual 3 [(3 : Int), 1, 2] = .ok s ∧
      (∀ (i : Nat) (hi : i + 1 < s.seq.length), s.seq[i] ≤ s.seq[i + 1]) ∧
      List.Sorted (· ≤ ·) s.seq :=
  ⟨by decide, by decide, cocktail_final_sequence_sorted [3, 1, 2] (by decide) 3 (by decide)⟩

/-- Claim C10: for every input sequence of length `n ≥ 2` the sort terminates (any step
budget of at least `n` suffices), and the number of outer-loop iterations that run a forward
pass followed by a backward pass is at most `⌈n / 2⌉`. -/
theorem cocktail_pass_pairs_bounded {α : Type} [LinearOrder α] (a : List α)
    (hlen : 2 ≤ a.length) (fuel : Nat) (hf : a.length ≤ fuel) :
    ∃ s, WriteComputation lessEqual fuel a = .ok s ∧
      s.backwardPasses ≤ (a.length + 1) / 2 := by
  have _ := hlen
  obtain ⟨s, hs, _, _, hpp⟩ := WriteComputation_spec a fuel hf
  exact ⟨s, hs, by omega⟩

/-- Claim C9, amended: for every input sequence of length at least two that is strictly
ascending (`a[i] < a[i + 1]` for all adjacent pairs), the sort performs exactly one forward
pass, no backward pass, emits no `Swap` record and leaves the sequence unchanged. -/
theorem cocktail_strictly_sorted_input {α : Type} [LinearOrder α] (a : List α)
    (hlen : 2 ≤ a.length) (hasc : List.Chain' (· < ·) a) (fuel : Nat) (hf : a.length ≤ fuel) :
    ∃ s, WriteComputation lessEqual fuel a = .ok s ∧
      s.forwardPasses = 1 ∧ s.backwardPasses = 0 ∧ swapCount s.logs = 0 ∧ s.seq = a := by
  obtain ⟨f, rfl⟩ : ∃ f, fuel = f + 1 := ⟨fuel - 1, by omega⟩
  have ha := StrictlyAscending.of_chain hasc
  obtain ⟨s2, h2, hI⟩ := forwardLoop_rule lessEqual ((a.length : Int) - 1) (AscendingInv a)
    (fun it t h => h.2.2.1) (fun it t h hlt => ascending_step a ha it t h hlt)
    (f + 1) 0 (startForward (initState a)) (by omega)
    ⟨rfl, rfl, rfl, le_refl _, by simp [startForward, initState, swapCount], rfl, rfl⟩
  obtain ⟨hseq, hsw, hend, h0, hcnt, hfp, hbp⟩ := hI
  refine ⟨{ endForward s2 with logs := (endForward s2).logs ++ [Record.opReturn true] },
    ?_, ?_, ?_, ?_, ?_⟩
  · unfold WriteComputation whileLoop
    have hc : (initState a).hasSwapped = true ∧ (initState a).beginIdx < (a.length : Int) - 1 :=
      ⟨rfl, by simp only [initState]; omega⟩
    rw [if_pos hc]
    have hb : (initState a).beginIdx = 0 := rfl
    rw [hb, h2]
    simp only
    rw [if_pos (by simpa [endForward] using hsw)]
  · simp [endForward, hfp]
  · simp [endForward, hbp]
  · simp only [endForward]
    rw [swapCount_append_return]
    exact hcnt
  · simpa [endForward] using hseq

/-- Claim C9 as stated fails on `[1, 1]`: the input is sorted ascending (`1 ≤ 1`), yet the
default predicate `std::less_equal` holds for the equal pair, so the forward pass exchanges
it and logs one `Swap`, and a backward pass follows. -/
theorem cocktail_sorted_input_counterexample :
    2 ≤ [(1 : Int), 1].length ∧ List.Chain' (· ≤ ·) [(1 : Int), 1] ∧
    WriteComputation lessEqual 2 [(1 : Int), 1] =
      .ok { seq := [1, 1], beginIdx := 1, endIdx := 0, hasSwapped := true, itIdx := -1,
            logs := [Record.opSet "it" 0, Record.opSwap "it" "it++", Record.opSet "it" 1,
                     Record.opSet "it" (-1), Record.opReturn true],
            forwardPasses := 1, backwardPasses := 1 } ∧
    swapCount [Record.opSet "it" 0, Record.opSwap "it" "it++", Record.opSet "it" 1,
                     Record.opSet "it" (-1), Record.opReturn true] = 1 :=
  ⟨by decide, by simp, rfl, rfl⟩

/-- The amended statement of C9 at the input `[1, 2, 3]`. -/
theorem cocktail_strictly_sorted_input_witness :
    2 ≤ [(1 : Int), 2, 3].length ∧ List.Chain' (· < ·) [(1 : Int), 2, 3] ∧
    [(1 : Int), 2, 3].length ≤ 3 ∧
    ∃ s, WriteComputation lessEqual 3 [(1 : Int), 2, 3] = .ok s ∧
      s.forwardPasses = 1 ∧ s.backwardPasses = 0 ∧ swapCount s.logs = 0 ∧
      s.seq = [(1 : Int), 2, 3] :=
  ⟨by decide, by simp, by decide,
    cocktail_strictly_sorted_input [1, 2, 3] (by decide) (by simp) 3 (by decide)⟩

/-- The statement of C10 at the input `[5, 4, 3, 2, 1]`. -/
theorem cocktail_pass_pairs_bounded_witness :
    2 ≤ [(5 : Int), 4, 3, 2, 1].length ∧ [(5 : Int), 4, 3, 2, 1].length ≤ 5 ∧
    ∃ s, WriteComputation lessEqual 5 [(5 : Int), 4, 3, 2, 1] = .ok s ∧
      s.backwardPasses ≤ ([(5 : Int), 4, 3, 2, 1].length + 1) / 2 :=
  ⟨by decide, by decide,
    cocktail_pass_pairs_bounded [5, 4, 3, 2, 1] (by decide) 5 (by decide)⟩

end CocktailLog

namespace MazeKruskalsLog

/-! ### MergeBucket -/

theorem readAt_of_getElem? {α : Type} {l : List α} {i : Nat} {v : α} (h : l[i]? = some v) :
    readAt l i = .ok v := by
  simp [readAt, h]

theorem readAt_of_lt {α : Type} {l : List α} {i : Nat} (h : i < l.length) :
    readAt l i = .ok l[i] :=
  readAt_of_getElem? (List.getElem?_eq_getElem h)

theorem readAt_of_le {α : Type} {l : List α} {i : Nat} (h : l.length ≤ i) :
    readAt l i = .error Fault.outOfBounds := by
  simp [readAt, List.getElem?_eq_none h]

theorem except_bind_ok {ε α β : Type} (a : α) (f : α → Except ε β) :
    (Except.ok a >>= f) = f a := rfl

theorem except_bind_error {ε α β : Type} (e : ε) (f : α → Except ε β) :
    ((Except.error e : Except ε α) >>= f) = Except.error e := rfl

theorem mergeCell_eq (bucketIdA : Nat) (h : List Cell) (b : List (List Nat)) (p : Nat)
    (c : Cell) (bucketA : List Nat) (hc : h[p]? = some c) (hA : b[bucketIdA]? = some bucketA) :
    mergeCell bucketIdA (h, b) p =
      .ok (h.set p { c with bucketId := bucketIdA }, b.set bucketIdA (bucketA ++ [p])) := by
  simp only [mergeCell, readAt_of_getElem? hc, readAt_of_getElem? hA, except_bind_ok]
  rfl

/-- The loop of `MergeBucket` over the cells `l`. -/
theorem mergeCells_spec (bucketIdA : Nat) (l : List Nat) :
    ∀ (h : List Cell) (b : List (List Nat)) (bucketA : List Nat),
      b[bucketIdA]? = some bucketA → (∀ p ∈ l, p < h.length) →
      ∃ h2 b2, l.foldlM (mergeCell bucketIdA) (h, b) = .ok (h2, b2) ∧
        h2.length = h.length ∧ b2.length = b.length ∧
        b2[bucketIdA]? = some (bucketA ++ l) ∧
        (∀ i, i ≠ bucketIdA → b2[i]? = b[i]?) ∧
        (∀ p c, h[p]? = some c →
          h2[p]? = some (if p ∈ l then { c with bucketId := bucketIdA } else c)) := by
  induction l with
  | nil =>
    intro h b bucketA hA _
    exact ⟨h, b, rfl, rfl, rfl, by simpa using hA, fun _ _ => rfl, fun p c hc => by simpa using hc⟩
  | cons p l ih =>
    intro h b bucketA hA hv
    have hp : p < h.length := hv p (List.mem_cons_self _ _)
    have hAlt : bucketIdA < b.length := (List.getElem?_eq_some.mp hA).1
    have hstep := mergeCell_eq bucketIdA h b p h[p] bucketA (List.getElem?_eq_getElem hp) hA
    obtain ⟨h2, b2, hfold, hl2, hbl2, hA2, hoth, hheap⟩ :=
      ih (h.set p { h[p] with bucketId := bucketIdA }) (b.set bucketIdA (bucketA ++ [p]))
        (bucketA ++ [p]) (by simp [List.getElem?_set, hAlt])
        (fun q hq => by simpa using hv q (List.mem_cons_of_mem _ hq))
    refine ⟨h2, b2, ?_, by simpa using hl2, by simpa using hbl2, by simpa using hA2, ?_, ?_⟩
    · rw [List.foldlM_cons, hstep, except_bind_ok]
      exact hfold
    · intro i hi
      rw [hoth i hi, List.getElem?_set_ne (fun h => hi h.symm)]
    · intro q c hc
      by_cases hq : q = p
      · subst hq
        have hc2 : h[q] = c := by
          have := List.getElem?_eq_getElem hp
          rw [this] at hc
          exact Option.some.inj hc
        rw [hheap q { h[q] with bucketId := bucketIdA } (by simp [List.getElem?_set, hp])]
        simp only [List.mem_cons, true_or, if_true, hc2]
        split <;> rfl
      · rw [hheap q c (by rw [List.getElem?_set_ne (fun h => hq h.symm)]; exact hc)]
        simp only [List.mem_cons, hq, false_or]

/-- Claim C5: for every bucket table and every pair of valid bucket ids `idA ≠ idB` (the
cells of bucket `idB` being live cells), `MergeBucket` returns, leaves bucket `idB` empty,
makes bucket `idA` its previous content followed by the previous content of bucket `idB` in
the same order, sets the `bucketId` of every cell that was in bucket `idB` to `idA` (its other
fields unchanged), and leaves every other bucket and every other cell unchanged. -/
theorem mergeBucket_contract (heap : List Cell) (buckets : List (List Nat))
    (idA idB : Nat) (bucketA bucketB : List Nat)
    (hne : idA ≠ idB) (hA : buckets[idA]? = some bucketA) (hB : buckets[idB]? = some bucketB)
    (hlive : ∀ p ∈ bucketB, p < heap.length) :
    ∃ heap2 buckets2, MergeBucket heap buckets idA idB = .ok (heap2, buckets2) ∧
      heap2.length = heap.length ∧ buckets2.length = buckets.length ∧
      buckets2[idB]? = some [] ∧
      buckets2[idA]? = some (bucketA ++ bucketB) ∧
      (∀ i, i ≠ idA → i ≠ idB → buckets2[i]? = buckets[i]?) ∧
      (∀ p c, heap[p]? = some c → p ∈ bucketB →
        heap2[p]? = some { c with bucketId := idA }) ∧
      (∀ p, p ∉ bucketB → heap2[p]? = heap[p]?) := by
  obtain ⟨h2, b2, hfold, hl2, hbl2, hA2, hoth, hheap⟩ :=
    mergeCells_spec idA bucketB heap buckets bucketA hA hlive
  have hBlt : idB < buckets.length := (List.getElem?_eq_some.mp hB).1
  refine ⟨h2, b2.set idB [], ?_, hl2, by simpa using hbl2, ?_, ?_, ?_, ?_, ?_⟩
  · unfold MergeBucket
    rw [if_neg hne, readAt_of_getElem? hB, except_bind_ok, hfold, except_bind_ok]
    rfl
  · simp [List.getElem?_set, hbl2, hBlt]
  · rw [List.getElem?_set_ne (fun h => hne h.symm)]
    exact hA2
  · intro i hiA hiB
    rw [List.getElem?_set_ne (fun h => hiB h.symm)]
    exact hoth i hiA
  · intro p c hc hp
    rw [hheap p c hc, if_pos hp]
  · intro p hp
    cases hc : heap[p]? with
    | none =>
      rw [List.getElem?_eq_none_iff] at hc ⊢
      omega
    | some c =>
      rw [hheap p c hc, if_neg hp]

/-- The statement of C5 on the table `[[0], [1]]` of a `2 × 1` grid. -/
theorem mergeBucket_contract_witness :
    (0 : Nat) ≠ 1 ∧ [[0], [1]][0]? = some [0] ∧ [[0], [1]][1]? = some [1] ∧
    (∀ p ∈ [1], p < [Cell.mk 0 0 false 0 [], Cell.mk 1 0 false 1 []].length) ∧
    ∃ heap2 buckets2,
      MergeBucket [Cell.mk 0 0 false 0 [], Cell.mk 1 0 false 1 []] [[0], [1]] 0 1 =
        .ok (heap2, buckets2) ∧
      heap2.length = [Cell.mk 0 0 false 0 [], Cell.mk 1 0 false 1 []].length ∧
      buckets2.length = [[0], [1]].length ∧
      buckets2[1]? = some [] ∧
      buckets2[0]? = some ([0] ++ [1]) ∧
      (∀ i, i ≠ 0 → i ≠ 1 → buckets2[i]? = [[0], [1]][i]?) ∧
      (∀ p c, [Cell.mk 0 0 false 0 [], Cell.mk 1 0 false 1 []][p]? = some c → p ∈ [1] →
        heap2[p]? = some { c with bucketId := 0 }) ∧
      (∀ p, p ∉ [1] → heap2[p]? = [Cell.mk 0 0 false 0 [], Cell.mk 1 0 false 1 []][p]?) :=
  ⟨by decide, rfl, rfl, by decide,
    mergeBucket_contract [Cell.mk 0 0 false 0 [], Cell.mk 1 0 false 1 []] [[0], [1]] 0 1
      [0] [1] (by decide) rfl rfl (by decide)⟩

/-! ### The bucket table is sized by the number of edges -/

/-- Claim C2 at `width = 2`, `height = 1`: the table has one bucket for two cells, the
initialisation writes `bucketCells[1]` out of bounds, and the run stops before the edge loop:
no final state in which the cells share a bucket id is reached. -/
theorem maze_2x1_stops_before_edge_loop (draws : Nat → Nat) (fuel : Nat) :
    edgeCount 2 1 = 1 ∧ (initMatrix 2 1).1.length = 2 ∧
    WriteComputation draws fuel 2 1 = .error Fault.outOfBounds :=
  ⟨rfl, rfl, rfl⟩

/-- Claim C3 at `width = 1`, `height = 2`: the run stops in the initialisation with an
out-of-bounds write, so it does not end with a log holding `1 * 2 - 1` `ConnectEdge` records. -/
theorem maze_1x2_emits_no_connect_record (draws : Nat → Nat) (fuel : Nat) :
    WriteComputation draws fuel 1 2 = .error Fault.outOfBounds ∧
    ¬ ∃ r, WriteComputation draws fuel 1 2 = .ok r ∧ connectCount r.state.logs = 1 * 2 - 1 := by
  have h : WriteComputation draws fuel 1 2 = .error Fault.outOfBounds := rfl
  refine ⟨h, ?_⟩
  rintro ⟨r, hr, _⟩
  rw [h] at hr
  cases hr

/-- Claim C4 at `width = 1`, `height = 1`: the table is sized `0`, the initialisation
writes `bucketCells[0]` out of bounds, and the run stops before `stats` is emitted. -/
theorem maze_1x1_emits_no_stats (draws : Nat → Nat) (fuel : Nat) :
    edgeCount 1 1 = 0 ∧ WriteComputation draws fuel 1 1 = .error Fault.outOfBounds :=
  ⟨rfl, rfl⟩

/-- Claim C6 at `width = 3`, `height = 1`: the table has two buckets for three cells and
the initialisation stops on the out-of-bounds write for the third cell, which is in no
bucket. -/
theorem maze_3x1_initialisation_faults :
    (startState 3 1).bucketCells = [[], []] ∧ (startState 3 1).heap.length = 3 ∧
    initBuckets (startState 3 1) = .error Fault.outOfBounds :=
  ⟨rfl, rfl, rfl⟩

/-- Claim C7 at `width = 3`, `height = 3`: the table built at generator start has twelve
buckets (the number of edges) for nine cells. -/
theorem maze_3x3_table_sized_by_edges :
    (startState 3 3).bucketCells.length = 12 ∧ (startState 3 3).heap.length = 9 ∧
    (initBuckets (startState 3 3)).map (fun r => r.2.bucketCells) =
      .ok [[0], [1], [2], [3], [4], [5], [6], [7], [8], [], [], []] :=
  ⟨rfl, rfl, rfl⟩

/-! ### The initialisation loops -/

theorem edgeCount_eq (w h : Nat) (hw : 1 ≤ w) (hh : 1 ≤ h) (hw2 : w < 2 ^ 32) (hh2 : h < 2 ^ 32)
    (hE : (h - 1) * w + (w - 1) * h < 2 ^ 32) :
    edgeCount w h = (h - 1) * w + (w - 1) * h := by
  have e1 : usub h 1 = h - 1 := by
    unfold usub
    omega
  have e2 : usub w 1 = w - 1 := by
    unfold usub
    omega
  have h1 : (h - 1) * w < 2 ^ 32 := by omega
  have h2 : (w - 1) * h < 2 ^ 32 := by omega
  unfold edgeCount u32
  rw [e1, e2, Nat.mod_eq_of_lt h1, Nat.mod_eq_of_lt h2, Nat.mod_eq_of_lt hE]

theorem div_mod_of_eq (h x y : Nat) (hy : y < h) : (x * h + y) / h = x ∧ (x * h + y) % h = y := by
  have hpos : 0 < h := by omega
  constructor
  · rw [Nat.mul_comm, Nat.mul_add_div hpos, Nat.div_eq_of_lt hy, Nat.add_zero]
  · rw [Nat.mul_comm, Nat.mul_add_mod, Nat.mod_eq_of_lt hy]

theorem heap_init (w h : Nat) :
    (initMatrix w h).1 = (List.range (w * h)).map (cellAfter h 0) := by
  simp only [initMatrix]
  induction w with
  | zero => simp
  | succ w ih =>
    rw [List.range_succ, List.flatMap_append, ih, Nat.succ_mul, List.range_add, List.map_append]
    congr 1
    simp only [List.flatMap_cons, List.flatMap_nil, List.append_nil, List.map_map]
    apply List.map_congr_left
    intro y hy
    have hy2 : y < h := List.mem_range.mp hy
    obtain ⟨e1, e2⟩ := div_mod_of_eq h w y hy2
    simp [cellAfter, e1, e2]

theorem startState_eq (w h : Nat) : startState w h = stateAfter w h 0 := by
  simp only [startState, stateAfter, heap_init]
  congr 1
  simp

theorem matrix_length (w h : Nat) : (initMatrix w h).2.length = w := by
  simp [initMatrix]

theorem matrix_column (w h x : Nat) (hx : x < w) :
    (initMatrix w h).2[x]? = some ((List.range h).map (fun y => x * h + y)) := by
  simp [initMatrix, List.getElem?_range hx]

theorem column_cell (h x y : Nat) (hy : y < h) :
    ((List.range h).map (fun y => x * h + y))[y]? = some (x * h + y) := by
  simp [List.getElem?_range hy]

theorem edgesAfter_fst_lt (w h k : Nat) :
    ∀ e ∈ (List.range k).flatMap (edgesOf w h), e.1 < k := by
  intro e he
  rw [List.mem_flatMap] at he
  obtain ⟨p, hp, hep⟩ := he
  have hp2 : p < k := List.mem_range.mp hp
  simp only [edgesOf, List.mem_append] at hep
  rcases hep with hep | hep
  · split_ifs at hep
    · simp at hep
      rw [hep]
      exact hp2
    · simp at hep
  · split_ifs at hep
    · simp at hep
      rw [hep]
      exact hp2
    · simp at hep

theorem insertEdge_new (edges : List (Nat × Nat)) (e : Nat × Nat) (h : e ∉ edges) :
    insertEdge edges e = edges ++ [e] := by
  simp [insertEdge, h]

theorem heap_step (w h k : Nat) (hk : k < w * h) :
    ((List.range (w * h)).map (cellAfter h k)).set k
        { cellAfter h k k with bucketId := k } =
      (List.range (w * h)).map (cellAfter h (k + 1)) := by
  apply List.ext_getElem?
  intro i
  rw [List.getElem?_set]
  by_cases hik : k = i
  · subst hik
    simp [List.getElem?_range hk, hk, cellAfter]
  · rw [if_neg hik]
    by_cases hi : i < w * h
    · simp only [List.getElem?_map, List.getElem?_range hi, Option.map_some']
      have : (i < k + 1) = (i < k) := by
        apply propext
        constructor <;> intro h' <;> omega
      simp only [cellAfter, this]
    · have hn : ∀ {β : Type} (f : Nat → β), ((List.range (w * h)).map f)[i]? = none := fun f =>
        List.getElem?_eq_none (by simp; omega)
      rw [hn, hn]

theorem buckets_step (n k : Nat) (hk : k < n) :
    ((List.range n).map (fun i => if i < k then [i] else [])).set k ([] ++ [k]) =
      (List.range n).map (fun i => if i < k + 1 then [i] else []) := by
  apply List.ext_getElem?
  intro i
  rw [List.getElem?_set]
  by_cases hik : k = i
  · subst hik
    simp [List.getElem?_range hk, hk]
  · rw [if_neg hik]
    by_cases hi : i < n
    · simp only [List.getElem?_map, List.getElem?_range hi, Option.map_some']
      have : (i < k + 1) = (i < k) := by
        apply propext
        constructor <;> intro h' <;> omega
      simp only [this]
    · have hn : ∀ {β : Type} (f : Nat → β), ((List.range n).map f)[i]? = none := fun f =>
        List.getElem?_eq_none (by simp; omega)
      rw [hn, hn]

theorem initCell_step (w h k : Nat) (col : List Nat) (hcol : col.length = h)
    (hk : k < w * h) (hkE : k < edgeCount w h) (hk32 : k + 1 < 2 ^ 32) :
    initCell col (k, stateAfter w h k) k = .ok (k + 1, stateAfter w h (k + 1)) := by
  have hpos : 0 < h := by
    rcases Nat.eq_zero_or_pos h with h0 | h0
    · subst h0
      simp at hk
    · exact h0
  have hx : k / h < w := (Nat.div_lt_iff_lt_mul hpos).mpr hk
  have hy : k % h < h := Nat.mod_lt _ hpos
  have hdm : k / h * h + k % h = k := by
    rw [Nat.mul_comm]
    exact Nat.div_add_mod k h
  have hc : (stateAfter w h k).heap[k]? = some (cellAfter h k k) := by
    simp [stateAfter, List.getElem?_range hk]
  have hb : (stateAfter w h k).bucketCells[k]? = some [] := by
    simp [stateAfter, List.getElem?_range hkE]
  have hu : u32 (k + 1) = k + 1 := Nat.mod_eq_of_lt hk32
  have hnew1 : ∀ q, (k, q) ∉ (stateAfter w h k).edges := by
    intro q hq
    have := edgesAfter_fst_lt w h k _ hq
    simp at this
  have hcx : (cellAfter h k k).x = k / h := rfl
  have hcy : (cellAfter h k k).y = k % h := rfl
  have hml : (stateAfter w h k).mazeMatrix.length = w := matrix_length w h
  have hfin : ∀ e2, e2 = (stateAfter w h k).edges ++ edgesOf w h k →
      (Except.ok (k + 1, ({ stateAfter w h k with
          heap := (stateAfter w h k).heap.set k { cellAfter h k k with bucketId := k }
          bucketCells := (stateAfter w h k).bucketCells.set k ([] ++ [k])
          edges := e2 } : MazeState)) : Except Fault (Nat × MazeState)) =
        .ok (k + 1, stateAfter w h (k + 1)) := by
    intro e2 he2
    subst he2
    congr 2
    simp only [stateAfter]
    rw [heap_step w h k hk, buckets_step _ k hkE]
    simp [List.range_succ, List.flatMap_append]
  have hm1 : k / h + 1 < w → (stateAfter w h k).mazeMatrix[k / h + 1]? =
      some ((List.range h).map (fun y => (k / h + 1) * h + y)) := fun hr => matrix_column w h _ hr
  have hq1 : ((List.range h).map (fun y => (k / h + 1) * h + y))[k % h]? =
      some (k + h) := by
    rw [column_cell h _ _ hy, Nat.add_mul, Nat.one_mul]
    congr 1
    omega
  have hm2 : (stateAfter w h k).mazeMatrix[k / h]? =
      some ((List.range h).map (fun y => (k / h) * h + y)) := matrix_column w h _ hx
  have hq2 : k % h + 1 < h → ((List.range h).map (fun y => (k / h) * h + y))[k % h + 1]? =
      some (k + 1) := by
    intro hbt
    rw [column_cell h _ _ hbt]
    congr 1
    omega
  have hnew2 : k % h + 1 < h → (k, k + 1) ∉ (stateAfter w h k).edges ++ [(k, k + h)] := by
    intro hbt
    simp only [List.mem_append, List.mem_singleton, Prod.mk.injEq, not_or]
    exact ⟨hnew1 _, by omega⟩
  by_cases hr : k / h + 1 < w <;> by_cases hbt : k % h + 1 < h
  · simp only [initCell, readAt_of_getElem? hc, readAt_of_getElem? hb, except_bind_ok, hu, hcx,
      hcy, hml, hcol, hr, hbt, if_true, pure_bind, readAt_of_getElem? (hm1 hr),
      readAt_of_getElem? hq1, readAt_of_getElem? hm2, readAt_of_getElem? (hq2 hbt),
      insertEdge_new _ _ (hnew1 _), insertEdge_new _ _ (hnew2 hbt)]
    exact hfin _ (by simp [edgesOf, hr, hbt])
  · simp only [initCell, readAt_of_getElem? hc, readAt_of_getElem? hb, except_bind_ok, hu, hcx,
      hcy, hml, hcol, hr, hbt, if_true, if_false, pure_bind, readAt_of_getElem? (hm1 hr),
      readAt_of_getElem? hq1, insertEdge_new _ _ (hnew1 _)]
    exact hfin _ (by simp [edgesOf, hr, hbt])
  · simp only [initCell, readAt_of_getElem? hc, readAt_of_getElem? hb, except_bind_ok, hu, hcx,
      hcy, hml, hcol, hr, hbt, if_true, if_false, pure_bind,
      readAt_of_getElem? hm2, readAt_of_getElem? (hq2 hbt), insertEdge_new _ _ (hnew1 _)]
    exact hfin _ (by simp [edgesOf, hr, hbt])
  · simp only [initCell, readAt_of_getElem? hc, readAt_of_getElem? hb, except_bind_ok, hu, hcx,
      hcy, hml, hcol, hr, hbt, if_false, pure_bind]
    exact hfin _ (by simp [edgesOf, hr, hbt])

theorem initCell_fault (w h k : Nat) (col : List Nat)
    (hk : k < w * h) (hkE : edgeCount w h ≤ k) :
    initCell col (k, stateAfter w h k) k = .error Fault.outOfBounds := by
  have hc : (stateAfter w h k).heap[k]? = some (cellAfter h k k) := by
    simp [stateAfter, List.getElem?_range hk]
  have hb : readAt (stateAfter w h k).bucketCells k = .error Fault.outOfBounds :=
    readAt_of_le (by simp [stateAfter]; exact hkE)
  simp only [initCell, readAt_of_getElem? hc, except_bind_ok, hb, except_bind_error]

/-- The cells `x * h`, ..., `x * h + m - 1` of column `x`. -/
theorem initColumn_prefix (w h x : Nat) (col : List Nat) (hcol : col.length = h) (hx : x < w)
    (h32 : w * h < 2 ^ 32) (hstart : x * h ≤ edgeCount w h) :
    ∀ m, m ≤ h →
      ((List.range m).map (fun y => x * h + y)).foldlM (initCell col)
          (x * h, stateAfter w h (x * h)) =
        if x * h + m ≤ edgeCount w h then .ok (x * h + m, stateAfter w h (x * h + m))
        else .error Fault.outOfBounds := by
  have hxh : x * h + h ≤ w * h := by
    have : (x + 1) * h ≤ w * h := Nat.mul_le_mul_right h hx
    rw [Nat.add_mul, Nat.one_mul] at this
    exact this
  intro m
  induction m with
  | zero =>
    intro _
    simp only [List.range_zero, List.map_nil, List.foldlM_nil, Nat.add_zero, if_pos hstart]
    rfl
  | succ m ih =>
    intro hm
    rw [List.range_succ, List.map_append, List.foldlM_append, ih (by omega)]
    simp only [List.map_cons, List.map_nil, List.foldlM_cons, List.foldlM_nil]
    by_cases h1 : x * h + (m + 1) ≤ edgeCount w h
    · rw [if_pos (by omega), if_pos h1, except_bind_ok,
        initCell_step w h (x * h + m) col hcol (by omega) (by omega) (by omega), except_bind_ok]
      rfl
    · rw [if_neg h1]
      by_cases h2 : x * h + m ≤ edgeCount w h
      · rw [if_pos h2, except_bind_ok,
          initCell_fault w h (x * h + m) col (by omega) (by omega), except_bind_error]
      · rw [if_neg h2, except_bind_error]

/-- The columns `0`, ..., `n - 1` of the grid. -/
theorem initColumns_prefix (w h : Nat) (h32 : w * h < 2 ^ 32) :
    ∀ n, n ≤ w →
      ((List.range n).map (fun x => (List.range h).map (fun y => x * h + y))).foldlM
          (fun acc col => col.foldlM (initCell col) acc) (0, stateAfter w h 0) =
        if n * h ≤ edgeCount w h then .ok (n * h, stateAfter w h (n * h))
        else .error Fault.outOfBounds := by
  intro n
  induction n with
  | zero =>
    intro _
    simp only [List.range_zero, List.map_nil, List.foldlM_nil, Nat.zero_mul, Nat.zero_le,
      if_true]
    rfl
  | succ n ih =>
    intro hn
    rw [List.range_succ, List.map_append, List.foldlM_append, ih (by omega)]
    simp only [List.map_cons, List.map_nil, List.foldlM_cons, List.foldlM_nil]
    have e : (n + 1) * h = n * h + h := by rw [Nat.add_mul, Nat.one_mul]
    by_cases h1 : n * h ≤ edgeCount w h
    · rw [if_pos h1, except_bind_ok,
        initColumn_prefix w h n _ (by simp) (by omega) h32 h1 h (le_refl _), e]
      by_cases h2 : n * h + h ≤ edgeCount w h
      · simp only [if_pos h2, except_bind_ok]
        rfl
      · simp only [if_neg h2, except_bind_error]
    · rw [if_neg h1, except_bind_error, if_neg (by omega)]

/-- The initialisation loops handle the cells in order, and stop with an out-of-bounds
access at the first cell that has no bucket in the table. -/
theorem initBuckets_eq (w h : Nat) (h32 : w * h < 2 ^ 32) :
    initBuckets (startState w h) =
      if w * h ≤ edgeCount w h then .ok (w * h, stateAfter w h (w * h))
      else .error Fault.outOfBounds := by
  have := initColumns_prefix w h h32 w (le_refl _)
  rw [startState_eq]
  exact this

theorem cells_le_edges_iff (w h : Nat) (hw : 1 ≤ w) (hh : 1 ≤ h) :
    w * h ≤ (h - 1) * w + (w - 1) * h ↔ 2 ≤ w ∧ 2 ≤ h := by
  obtain ⟨a, rfl⟩ : ∃ a, w = a + 1 := ⟨w - 1, by omega⟩
  obtain ⟨b, rfl⟩ : ∃ b, h = b + 1 := ⟨h - 1, by omega⟩
  simp only [Nat.add_sub_cancel]
  constructor
  · intro hle
    rcases Nat.eq_zero_or_pos a with ha | ha
    · subst ha
      simp at hle
    · rcases Nat.eq_zero_or_pos b with hb | hb
      · subst hb
        simp at hle
      · omega
  · rintro ⟨ha, hb⟩
    have : 1 ≤ a * b := Nat.mul_pos (by omega) (by omega)
    nlinarith

/-! ### One turn of the edge loop -/

theorem bucketIdOf_eq_some {heap : List Cell} {p i : Nat} :
    bucketIdOf heap p = some i ↔ ∃ c, heap[p]? = some c ∧ c.bucketId = i := by
  simp [bucketIdOf]

theorem bucketIdOf_of_getElem? {heap : List Cell} {p : Nat} {c : Cell} (h : heap[p]? = some c) :
    bucketIdOf heap p = some c.bucketId := by
  simp [bucketIdOf, h]

theorem bucketIdOf_lt {heap : List Cell} {p i : Nat} (h : bucketIdOf heap p = some i) :
    p < heap.length := by
  obtain ⟨c, hc, _⟩ := bucketIdOf_eq_some.mp h
  exact (List.getElem?_eq_some.mp hc).1

/-- `AddConnection` leaves the bucket ids alone. -/
theorem bucketIdOf_set_connections (heap : List Cell) (a : Nat) (c : Cell) (l : List Nat)
    (hc : heap[a]? = some c) (p : Nat) :
    bucketIdOf (heap.set a { c with connectedCells := l }) p = bucketIdOf heap p := by
  unfold bucketIdOf
  rw [List.getElem?_set]
  by_cases h : a = p
  · subst h
    have hlt : a < heap.length := (List.getElem?_eq_some.mp hc).1
    simp [hlt, hc]
  · simp [h]

theorem nonEmptyCount_set (l : List (List Nat)) (i : Nat) (b v : List Nat)
    (hb : l[i]? = some b) :
    nonEmptyCount (l.set i v) + (if b.isEmpty then 0 else 1) =
      nonEmptyCount l + (if v.isEmpty then 0 else 1) := by
  induction l generalizing i with
  | nil => simp at hb
  | cons x l ih =>
    cases i with
    | zero =>
      simp only [List.getElem?_cons_zero, Option.some.injEq] at hb
      subst hb
      simp only [List.set_cons_zero, nonEmptyCount, List.filter_cons]
      cases hx : x.isEmpty <;> cases hv : v.isEmpty <;> simp
    | succ i =>
      simp only [List.getElem?_cons_succ] at hb
      have := ih i hb
      simp only [List.set_cons_succ, nonEmptyCount, List.filter_cons] at this ⊢
      cases hx : x.isEmpty <;> simp at this ⊢ <;> omega

/-- The effect of `MergeBucket`, as given by its contract, on a partition. -/
theorem merge_partition (heap heap2 : List Cell) (buckets buckets2 : List (List Nat))
    (idA idB : Nat) (bucketA bucketB : List Nat)
    (hP : Partitioned heap buckets) (hne : idA ≠ idB)
    (hA : buckets[idA]? = some bucketA) (hB : buckets[idB]? = some bucketB)
    (h2B : buckets2[idB]? = some []) (h2A : buckets2[idA]? = some (bucketA ++ bucketB))
    (hoth : ∀ i, i ≠ idA → i ≠ idB → buckets2[i]? = buckets[i]?)
    (hin : ∀ p c, heap[p]? = some c → p ∈ bucketB → heap2[p]? = some { c with bucketId := idA })
    (hout : ∀ p, p ∉ bucketB → heap2[p]? = heap[p]?) :
    (∀ p, bucketIdOf heap2 p =
      (bucketIdOf heap p).map (fun i => if i = idB then idA else i)) ∧
    Partitioned heap2 buckets2 := by
  obtain ⟨hP1, hP2, hP3⟩ := hP
  have hrel : ∀ p, bucketIdOf heap2 p =
      (bucketIdOf heap p).map (fun i => if i = idB then idA else i) := by
    intro p
    by_cases hp : p ∈ bucketB
    · have h1 := hP2 idB bucketB p hB hp
      obtain ⟨c, hc, hcid⟩ := bucketIdOf_eq_some.mp h1
      rw [h1, bucketIdOf_of_getElem? (hin p c hc hp)]
      simp
    · have h1 : bucketIdOf heap2 p = bucketIdOf heap p := by
        unfold bucketIdOf
        rw [hout p hp]
      rw [h1]
      cases hq : bucketIdOf heap p with
      | none => rfl
      | some i =>
        have hi : i ≠ idB := by
          rintro rfl
          obtain ⟨b, hb, hpb⟩ := hP1 p i hq
          rw [hB] at hb
          cases hb
          exact hp hpb
        simp [hi]
  refine ⟨hrel, ?_, ?_, ?_⟩
  · intro p j hj
    rw [hrel p] at hj
    cases hq : bucketIdOf heap p with
    | none => rw [hq] at hj; cases hj
    | some i =>
      rw [hq] at hj
      simp only [Option.map_some', Option.some.injEq] at hj
      obtain ⟨b0, hb0, hpb0⟩ := hP1 p i hq
      by_cases hi : i = idB
      · subst hi
        rw [if_pos rfl] at hj
        subst hj
        rw [hB] at hb0
        cases hb0
        exact ⟨_, h2A, List.mem_append_right _ hpb0⟩
      · rw [if_neg hi] at hj
        subst hj
        by_cases hiA : i = idA
        · subst hiA
          rw [hA] at hb0
          cases hb0
          exact ⟨_, h2A, List.mem_append_left _ hpb0⟩
        · exact ⟨b0, by rw [hoth i hiA hi]; exact hb0, hpb0⟩
  · intro i b p hb hp
    rw [hrel p]
    by_cases hiB : i = idB
    · subst hiB
      rw [h2B] at hb
      cases hb
      simp at hp
    · by_cases hiA : i = idA
      · subst hiA
        rw [h2A] at hb
        cases hb
        rcases List.mem_append.mp hp with h1 | h1
        · rw [hP2 i bucketA p hA h1]
          simp [hiB]
        · rw [hP2 idB bucketB p hB h1]
          simp
      · rw [hoth i hiA hiB] at hb
        rw [hP2 i b p hb hp]
        simp [hiB]
  · intro i b hb
    by_cases hiB : i = idB
    · subst hiB
      rw [h2B] at hb
      cases hb
      exact List.nodup_nil
    · by_cases hiA : i = idA
      · subst hiA
        rw [h2A] at hb
        cases hb
        refine List.Nodup.append (hP3 i bucketA hA) (hP3 idB bucketB hB) ?_
        intro p h1 h2
        have e1 := hP2 i bucketA p hA h1
        have e2 := hP2 idB bucketB p hB h2
        rw [e1] at e2
        exact hne (Option.some.inj e2)
      · rw [hoth i hiA hiB] at hb
        exact hP3 i b hb

theorem connectCount_append_select (l : List Record) (a b c d : Int) :
    connectCount (l ++ [Record.selectEdge a b c d]) = connectCount l := by
  simp [connectCount, List.filter_append]

theorem connectCount_append_connect (l : List Record) (a b c d : Int) :
    connectCount (l ++ [Record.connectEdge a b c d]) = connectCount l + 1 := by
  simp [connectCount, List.filter_append]

theorem connectCount_append_merge (l : List Record) (a b : Int) :
    connectCount (l ++ [Record.mergeBuckets a b]) = connectCount l := by
  simp [connectCount, List.filter_append]

theorem connectCount_append_return (l : List Record) (b : Bool) :
    connectCount (l ++ [Record.opReturn b]) = connectCount l := by
  simp [connectCount, List.filter_append]

theorem connectCount_append_comment (l : List Record) (t : String) :
    connectCount (l ++ [Record.comment t]) = connectCount l := by
  simp [connectCount, List.filter_append]

theorem Partitioned.congr {heap heap2 : List Cell} {buckets : List (List Nat)}
    (h : ∀ p, bucketIdOf heap2 p = bucketIdOf heap p) (hP : Partitioned heap buckets) :
    Partitioned heap2 buckets := by
  obtain ⟨h1, h2, h3⟩ := hP
  refine ⟨?_, ?_, h3⟩
  · intro p i hp
    rw [h p] at hp
    exact h1 p i hp
  · intro i b p hb hp
    rw [h p]
    exact h2 i b p hb hp

/-- The branch that connects the two cells of the edge `e` and merges their buckets. -/
theorem connectAndMerge_spec (s : MazeState) (e : Nat × Nat) (cellA cellB : Cell)
    (hP : Partitioned s.heap s.bucketCells)
    (hA : s.heap[e.1]? = some cellA) (hB : s.heap[e.2]? = some cellB)
    (hne : cellA.bucketId ≠ cellB.bucketId) :
    ∃ s2, connectAndMerge s e cellA cellB = .ok s2 ∧
      s2.edges = s.edges ∧
      (∀ p, bucketIdOf s2.heap p = (bucketIdOf s.heap p).map
        (fun i => if i = cellB.bucketId then cellA.bucketId else i)) ∧
      s2.heap.length = s.heap.length ∧
      Partitioned s2.heap s2.bucketCells ∧
      connectCount s2.logs = connectCount s.logs + 1 ∧
      nonEmptyCount s2.bucketCells + 1 = nonEmptyCount s.bucketCells := by
  have hab : e.1 ≠ e.2 := by
    intro h
    rw [h, hB] at hA
    cases hA
    exact hne rfl
  have hAlt : e.1 < s.heap.length := (List.getElem?_eq_some.mp hA).1
  have hBlt : e.2 < s.heap.length := (List.getElem?_eq_some.mp hB).1
  -- the two calls of `AddConnection`
  have hB1 : (s.heap.set e.1
      { cellA with connectedCells := cellA.connectedCells ++ [e.2] })[e.2]? = some cellB := by
    rw [List.getElem?_set_ne hab]
    exact hB
  have hids : ∀ p, bucketIdOf ((s.heap.set e.1
      { cellA with connectedCells := cellA.connectedCells ++ [e.2] }).set e.2
      { cellB with connectedCells := cellB.connectedCells ++ [e.1] }) p = bucketIdOf s.heap p := by
    intro p
    rw [bucketIdOf_set_connections _ _ _ _ hB1, bucketIdOf_set_connections _ _ _ _ hA]
  have hP2 := Partitioned.congr hids hP
  -- the buckets of the two cells
  obtain ⟨bucketA, hbA, hmA⟩ := hP.1 e.1 cellA.bucketId (bucketIdOf_of_getElem? hA)
  obtain ⟨bucketB, hbB, hmB⟩ := hP.1 e.2 cellB.bucketId (bucketIdOf_of_getElem? hB)
  have hlive : ∀ p ∈ bucketB, p < ((s.heap.set e.1
      { cellA with connectedCells := cellA.connectedCells ++ [e.2] }).set e.2
      { cellB with connectedCells := cellB.connectedCells ++ [e.1] }).length := by
    intro p hp
    have := bucketIdOf_lt (hP.2.1 _ _ p hbB hp)
    simpa using this
  obtain ⟨heap3, buckets3, hm, hl3, hbl3, h3B, h3A, hoth, hin, hout⟩ :=
    mergeBucket_contract _ s.bucketCells cellA.bucketId cellB.bucketId bucketA bucketB
      hne hbA hbB hlive
  obtain ⟨hrel, hP3⟩ := merge_partition _ heap3 s.bucketCells buckets3 _ _ bucketA bucketB
    hP2 hne hbA hbB h3B h3A hoth hin hout
  refine ⟨{ s with heap := heap3, bucketCells := buckets3, logs := (s.logs ++
      [Record.connectEdge (toInt cellA.x) (toInt cellA.y) (toInt cellB.x) (toInt cellB.y)]) ++
      [Record.mergeBuckets (toInt cellA.bucketId) (toInt cellB.bucketId)] },
    ?_, rfl, ?_, ?_, hP3, ?_, ?_⟩
  · simp only [connectAndMerge, readAt_of_getElem? hA, except_bind_ok, readAt_of_getElem? hB1,
      hm]
    rfl
  · intro p
    rw [hrel p, hids p]
  · simpa using hl3
  · simp only
    rw [connectCount_append_merge, connectCount_append_connect]
  · have hb3 : buckets3 = (s.bucketCells.set cellA.bucketId (bucketA ++ bucketB)).set
        cellB.bucketId [] := by
      have hAl : cellA.bucketId < s.bucketCells.length := (List.getElem?_eq_some.mp hbA).1
      have hBl : cellB.bucketId < s.bucketCells.length := (List.getElem?_eq_some.mp hbB).1
      apply List.ext_getElem?
      intro i
      by_cases hiB : i = cellB.bucketId
      · subst hiB
        rw [h3B]
        simp [List.getElem?_set, hBl]
      · rw [List.getElem?_set_ne (fun h => hiB h.symm)]
        by_cases hiA : i = cellA.bucketId
        · subst hiA
          rw [h3A]
          simp [List.getElem?_set, hAl]
        · rw [List.getElem?_set_ne (fun h => hiA h.symm)]
          exact hoth i hiA hiB
    have c1 := nonEmptyCount_set s.bucketCells cellA.bucketId bucketA (bucketA ++ bucketB) hbA
    have hbB2 : (s.bucketCells.set cellA.bucketId (bucketA ++ bucketB))[cellB.bucketId]? =
        some bucketB := by
      rw [List.getElem?_set_ne hne]
      exact hbB
    have c2 := nonEmptyCount_set _ cellB.bucketId bucketB [] hbB2
    have nA : bucketA.isEmpty = false := by
      cases bucketA with
      | nil => simp at hmA
      | cons _ _ => rfl
    have nB : bucketB.isEmpty = false := by
      cases bucketB with
      | nil => simp at hmB
      | cons _ _ => rfl
    have nAB : (bucketA ++ bucketB).isEmpty = false := by
      cases bucketA with
      | nil => simp at hmA
      | cons _ _ => rfl
    simp only [nA, nB, nAB, List.isEmpty_nil, if_true, Bool.false_eq_true, if_false] at c1 c2
    simp only
    rw [hb3]
    omega

/-- One turn of the edge loop from a state that satisfies the invariant. -/
theorem edgeStep_spec (d : Nat) (s : MazeState) (hI : EdgeInv s) (hne : s.edges ≠ []) :
    ∃ s2, edgeStep d s = .ok s2 ∧ StepRel s s2 ∧ EdgeInv s2 ∧
      s2.edges.length + 1 = s.edges.length := by
  obtain ⟨hP, hE⟩ := hI
  have hlen : 0 < s.edges.length := List.length_pos.mpr hne
  have hidx : d % s.edges.length < s.edges.length := Nat.mod_lt _ hlen
  have he : s.edges[d % s.edges.length]? = some s.edges[d % s.edges.length] :=
    List.getElem?_eq_getElem hidx
  obtain ⟨h1, h2⟩ := hE _ (List.getElem_mem hidx)
  have hA := List.getElem?_eq_getElem h1
  have hB := List.getElem?_eq_getElem h2
  have hedges : ∀ (t : MazeState), t.heap.length = s.heap.length →
      ∀ e ∈ s.edges.eraseIdx (d % s.edges.length), e.1 < t.heap.length ∧ e.2 < t.heap.length := by
    intro t ht e hmem
    rw [ht]
    exact hE e (List.mem_of_mem_eraseIdx hmem)
  have hlen2 : (s.edges.eraseIdx (d % s.edges.length)).length + 1 = s.edges.length := by
    rw [List.length_eraseIdx_of_lt hidx]
    omega
  by_cases hc : (s.heap[s.edges[d % s.edges.length].1]).bucketId =
      (s.heap[s.edges[d % s.edges.length].2]).bucketId
  · refine ⟨{ s with
        logs := s.logs ++ [Record.selectEdge (toInt (s.heap[s.edges[d % s.edges.length].1]).x)
          (toInt (s.heap[s.edges[d % s.edges.length].1]).y)
          (toInt (s.heap[s.edges[d % s.edges.length].2]).x)
          (toInt (s.heap[s.edges[d % s.edges.length].2]).y)]
        edges := s.edges.eraseIdx (d % s.edges.length) }, ?_, ?_, ⟨hP, hedges _ rfl⟩, hlen2⟩
    · simp only [edgeStep, readAt_of_getElem? he, except_bind_ok, readAt_of_getElem? hA,
        readAt_of_getElem? hB, hc, ne_eq, not_true_eq_false, if_false, pure_bind]
      rfl
    · refine ⟨_, _, _, _, he, bucketIdOf_of_getElem? hA, bucketIdOf_of_getElem? hB, rfl, ?_,
        rfl, hP, ?_⟩
      · intro p
        rw [hc]
        cases bucketIdOf s.heap p with
        | none => rfl
        | some i =>
          simp only [Option.map_some', Option.some.injEq]
          split
          · next h => exact h
          · rfl
      · simp only
        rw [connectCount_append_select]
  · obtain ⟨s2, hs2, hed, hrel, hl, hP2, hcc, hnc⟩ := connectAndMerge_spec
      { s with logs := s.logs ++ [Record.selectEdge (toInt (s.heap[s.edges[d % s.edges.length].1]).x)
          (toInt (s.heap[s.edges[d % s.edges.length].1]).y)
          (toInt (s.heap[s.edges[d % s.edges.length].2]).x)
          (toInt (s.heap[s.edges[d % s.edges.length].2]).y)] }
      s.edges[d % s.edges.length] _ _ hP hA hB hc
    refine ⟨{ s2 with edges := s2.edges.eraseIdx (d % s.edges.length) }, ?_, ?_,
      ⟨hP2, ?_⟩, ?_⟩
    · simp only [edgeStep, readAt_of_getElem? he, except_bind_ok, readAt_of_getElem? hA,
        readAt_of_getElem? hB, hc, ne_eq, not_false_eq_true, if_true, hs2]
      rfl
    · refine ⟨_, _, _, _, he, bucketIdOf_of_getElem? hA, bucketIdOf_of_getElem? hB, ?_, hrel,
        hl, hP2, ?_⟩
      · simp only [hed]
      · simp only at hcc hnc ⊢
        rw [connectCount_append_select] at hcc
        omega
    · simp only [hed]
      exact hedges s2 hl
    · simp only [hed]
      exact hlen2

/-! ### The edge loop and the grid -/

/-- Invariant rule of the edge loop: an invariant kept by every turn holds when the loop
leaves with the edge set empty, and the loop takes one turn for each edge. -/
theorem edgeLoop_rule (draws : Nat → Nat) (I : Nat → MazeState → Prop)
    (hstep : ∀ k s, I k s → s.edges ≠ [] →
      ∃ s2, edgeStep (draws k) s = .ok s2 ∧ I (k + 1) s2 ∧
        s2.edges.length + 1 = s.edges.length) :
    ∀ (fuel k : Nat) (s : MazeState), s.edges.length ≤ fuel → I k s →
      ∃ s3, edgeLoop draws fuel k s = .ok s3 ∧ I (k + s.edges.length) s3 ∧ s3.edges = [] := by
  intro fuel
  induction fuel with
  | zero =>
    intro k s hf hI
    have he : s.edges = [] := List.length_eq_zero.mp (by omega)
    refine ⟨s, ?_, ?_, he⟩
    · simp [edgeLoop, he]
    · simpa [he] using hI
  | succ fuel ih =>
    intro k s hf hI
    by_cases he : s.edges = []
    · refine ⟨s, ?_, ?_, he⟩
      · simp [edgeLoop, he]
      · simpa [he] using hI
    · obtain ⟨s2, h2, hI2, hl⟩ := hstep k s hI he
      obtain ⟨s3, h3, hI3, he3⟩ := ih (k + 1) s2 (by omega) hI2
      refine ⟨s3, ?_, ?_, he3⟩
      · unfold edgeLoop
        have : s.edges.isEmpty = false := by
          cases hs : s.edges with
          | nil => exact absurd hs he
          | cons _ _ => rfl
        simp only [this, Bool.false_eq_true, if_false, h2]
        exact h3
      · have : k + 1 + s2.edges.length = k + s.edges.length := by omega
        rw [this] at hI3
        exact hI3

theorem mem_eraseIdx_or {α : Type} (l : List α) (i : Nat) (a : α) (h : a ∈ l) :
    a ∈ l.eraseIdx i ∨ l[i]? = some a := by
  induction l generalizing i with
  | nil => simp at h
  | cons x l ih =>
    cases i with
    | zero =>
      rcases List.mem_cons.mp h with h1 | h1
      · right
        simp [h1]
      · left
        simpa using h1
    | succ i =>
      rcases List.mem_cons.mp h with h1 | h1
      · left
        simp [h1]
      · rcases ih i h1 with h2 | h2
        · left
          simp [h2]
        · right
          simpa using h2

/-- One turn keeps each edge of the grid either in the edge set or inside one bucket. -/
theorem StepRel.connected {s s2 : MazeState} (hS : StepRel s s2) (e0 : Nat × Nat)
    (h : e0 ∈ s.edges ∨ SameBucket s.heap e0.1 e0.2) :
    e0 ∈ s2.edges ∨ SameBucket s2.heap e0.1 e0.2 := by
  obtain ⟨idx, e, idA, idB, he, hA, hB, hed, hrel, _, _, _⟩ := hS
  rcases h with h | h
  · rcases mem_eraseIdx_or s.edges idx e0 h with h1 | h1
    · left
      rw [hed]
      exact h1
    · right
      rw [he] at h1
      cases h1
      refine ⟨idA, ?_, ?_⟩
      · rw [hrel, hA]
        simp only [Option.map_some', Option.some.injEq]
        split
        · rfl
        · rfl
      · rw [hrel, hB]
        simp
  · right
    obtain ⟨i, h1, h2⟩ := h
    exact ⟨if i = idB then idA else i, by rw [hrel, h1]; rfl, by rw [hrel, h2]; rfl⟩

theorem SameBucket.trans {heap : List Cell} {p q r : Nat} (h1 : SameBucket heap p q)
    (h2 : SameBucket heap q r) : SameBucket heap p r := by
  obtain ⟨i, hp, hq⟩ := h1
  obtain ⟨j, hq2, hr⟩ := h2
  rw [hq] at hq2
  cases hq2
  exact ⟨i, hp, hr⟩

/-- The edges of the grid join every cell to the first one. -/
theorem grid_connected (w h : Nat) (heap : List Cell) (hlen : heap.length = w * h)
    (hE : ∀ e ∈ (List.range (w * h)).flatMap (edgesOf w h), SameBucket heap e.1 e.2) :
    ∀ p, p < w * h → SameBucket heap 0 p := by
  intro p
  induction p using Nat.strong_induction_on with
  | _ p ih =>
    intro hp
    have hpos : 0 < h := by
      rcases Nat.eq_zero_or_pos h with h0 | h0
      · subst h0
        simp at hp
      · exact h0
    by_cases hp0 : p = 0
    · subst hp0
      have : (0 : Nat) < heap.length := by omega
      exact ⟨_, bucketIdOf_of_getElem? (List.getElem?_eq_getElem this),
        bucketIdOf_of_getElem? (List.getElem?_eq_getElem this)⟩
    · have hdm : p / h * h + p % h = p := by
        rw [Nat.mul_comm]
        exact Nat.div_add_mod p h
      have hmod : p % h < h := Nat.mod_lt _ hpos
      have hxw : p / h < w := (Nat.div_lt_iff_lt_mul hpos).mpr hp
      have hedge : ∀ q, q < p → (q, p) ∈ edgesOf w h q → SameBucket heap 0 p := by
        intro q hq hmem
        have h1 : SameBucket heap q p :=
          hE (q, p) (List.mem_flatMap.mpr ⟨q, List.mem_range.mpr (by omega), hmem⟩)
        exact (ih q hq (by omega)).trans h1
      by_cases hy : p % h = 0
      · -- the right edge of the cell one column to the left
        have hx : 0 < p / h := by
          rcases Nat.eq_zero_or_pos (p / h) with h0 | h0
          · rw [h0, hy] at hdm
            simp at hdm
            exact absurd hdm.symm hp0
          · exact h0
        have hq : p - h = (p / h - 1) * h + 0 := by
          have : (p / h - 1 + 1) * h = p / h * h := by
            rw [Nat.sub_add_cancel hx]
          rw [Nat.add_mul, Nat.one_mul] at this
          omega
        obtain ⟨e1, e2⟩ := div_mod_of_eq h (p / h - 1) 0 hpos
        rw [← hq] at e1 e2
        have hge : h ≤ p := by
          have : (p / h - 1 + 1) * h = p / h * h := by
            rw [Nat.sub_add_cancel hx]
          rw [Nat.add_mul, Nat.one_mul] at this
          omega
        apply hedge (p - h) (by omega)
        simp only [edgesOf, List.mem_append]
        left
        rw [e1, if_pos (by omega)]
        simp
        omega
      · -- the bottom edge of the cell above
        have hq : p - 1 = p / h * h + (p % h - 1) := by omega
        obtain ⟨e1, e2⟩ := div_mod_of_eq h (p / h) (p % h - 1) (by omega)
        rw [← hq] at e1 e2
        apply hedge (p - 1) (by omega)
        simp only [edgesOf, List.mem_append]
        right
        rw [e2, if_pos (by omega)]
        simp
        omega

theorem toInt_of_lt (n : Nat) (h : n < 2 ^ 31) : toInt n = (n : Int) := by
  unfold toInt
  have : n % 2 ^ 32 = n := Nat.mod_eq_of_lt (by omega)
  rw [this, if_pos h]

/-- Edges inserted for the first `m` cells of column `n`. -/
theorem column_edges_length (w h n : Nat) :
    ∀ m, m ≤ h →
      ((List.range m).flatMap (fun y => edgesOf w h (n * h + y))).length =
        (if n + 1 < w then m else 0) + (if m < h then m else h - 1) := by
  intro m
  induction m with
  | zero =>
    intro _
    simp only [List.range_zero, List.flatMap_nil, List.length_nil]
    split_ifs <;> omega
  | succ m ih =>
    intro hm
    rw [List.range_succ, List.flatMap_append, List.length_append, ih (by omega)]
    obtain ⟨e1, e2⟩ := div_mod_of_eq h n m (by omega)
    simp only [List.flatMap_cons, List.flatMap_nil, List.append_nil, edgesOf, e1, e2,
      List.length_append]
    split_ifs <;> simp <;> omega

/-- Edges inserted for the first `n` columns. -/
theorem grid_edges_length (w h : Nat) :
    ∀ n, n ≤ w →
      ((List.range (n * h)).flatMap (edgesOf w h)).length =
        (if n < w then n else w - 1) * h + n * (h - 1) := by
  intro n
  induction n with
  | zero =>
    intro _
    simp only [Nat.zero_mul, List.range_zero, List.flatMap_nil, List.length_nil]
    split_ifs with h0
    · simp
    · have : w = 0 := by omega
      subst this
      simp
  | succ n ih =>
    intro hn
    have e : (n + 1) * h = n * h + h := by rw [Nat.add_mul, Nat.one_mul]
    rw [e, List.range_add, List.flatMap_append, List.length_append, ih (by omega),
      List.flatMap_map, column_edges_length w h n h (le_refl _)]
    rw [if_pos (by omega : n < w), if_neg (by omega : ¬ h < h)]
    have e2 : (n + 1) * (h - 1) = n * (h - 1) + (h - 1) := by rw [Nat.add_mul, Nat.one_mul]
    rw [e2]
    by_cases h1 : n + 1 < w
    · rw [if_pos h1, if_pos h1, e]
      omega
    · rw [if_neg h1, if_neg h1]
      have : w - 1 = n := by omega
      rw [this]
      omega

theorem stateAfter_edges_length (w h : Nat) :
    (stateAfter w h (w * h)).edges.length = (h - 1) * w + (w - 1) * h := by
  have := grid_edges_length w h w (le_refl _)
  simp only [stateAfter]
  rw [this, if_neg (by omega), Nat.mul_comm w (h - 1)]
  omega

theorem stateAfter_bucketIdOf (w h p : Nat) (hp : p < w * h) :
    bucketIdOf (stateAfter w h (w * h)).heap p = some p := by
  simp [bucketIdOf, stateAfter, List.getElem?_range hp, cellAfter, hp]

theorem stateAfter_heap_length (w h k : Nat) : (stateAfter w h k).heap.length = w * h := by
  simp [stateAfter]

theorem stateAfter_bucket (w h i : Nat) (b : List Nat)
    (hb : (stateAfter w h (w * h)).bucketCells[i]? = some b) :
    b = if i < w * h then [i] else [] := by
  have hi : i < edgeCount w h := by
    have := (List.getElem?_eq_some.mp hb).1
    simpa [stateAfter] using this
  simp only [stateAfter, List.getElem?_map, List.getElem?_range hi, Option.map_some',
    Option.some.injEq] at hb
  exact hb.symm

theorem stateAfter_partitioned (w h : Nat) (hE : w * h ≤ edgeCount w h) :
    Partitioned (stateAfter w h (w * h)).heap (stateAfter w h (w * h)).bucketCells := by
  refine ⟨?_, ?_, ?_⟩
  · intro p i hpi
    have hp : p < w * h := by
      have := bucketIdOf_lt hpi
      rwa [stateAfter_heap_length] at this
    rw [stateAfter_bucketIdOf w h p hp] at hpi
    cases hpi
    refine ⟨[p], ?_, List.mem_singleton_self p⟩
    simp [stateAfter, List.getElem?_range (show p < edgeCount w h by omega), hp]
  · intro i b p hb hp
    have := stateAfter_bucket w h i b hb
    by_cases hi : i < w * h
    · rw [if_pos hi] at this
      subst this
      rw [List.mem_singleton.mp hp]
      exact stateAfter_bucketIdOf w h i hi
    · rw [if_neg hi] at this
      subst this
      simp at hp
  · intro i b hb
    have := stateAfter_bucket w h i b hb
    subst this
    split <;> simp

theorem stateAfter_edges_lt (w h : Nat) :
    ∀ e ∈ (stateAfter w h (w * h)).edges, e.1 < w * h ∧ e.2 < w * h := by
  intro e he
  simp only [stateAfter, List.mem_flatMap, List.mem_range] at he
  obtain ⟨p, hp, hep⟩ := he
  have hpos : 0 < h := by
    rcases Nat.eq_zero_or_pos h with h0 | h0
    · subst h0
      simp at hp
    · exact h0
  have hdm : p / h * h + p % h = p := by
    rw [Nat.mul_comm]
    exact Nat.div_add_mod p h
  have hmod : p % h < h := Nat.mod_lt _ hpos
  have hxw : p / h < w := (Nat.div_lt_iff_lt_mul hpos).mpr hp
  simp only [edgesOf, List.mem_append] at hep
  rcases hep with hep | hep
  · split_ifs at hep with hr
    · simp only [List.mem_singleton] at hep
      subst hep
      refine ⟨hp, ?_⟩
      have : (p / h + 1 + 1) * h ≤ w * h := Nat.mul_le_mul_right h hr
      rw [Nat.add_mul, Nat.add_mul, Nat.one_mul] at this
      simp only
      omega
    · simp at hep
  · split_ifs at hep with hb
    · simp only [List.mem_singleton] at hep
      subst hep
      refine ⟨hp, ?_⟩
      have : (p / h + 1) * h ≤ w * h := Nat.mul_le_mul_right h hxw
      rw [Nat.add_mul, Nat.one_mul] at this
      simp only
      omega
    · simp at hep

theorem nonEmptyCount_init (n : Nat) :
    ∀ m, nonEmptyCount ((List.range m).map (fun i => if i < n then [i] else [])) =
      if m < n then m else n := by
  intro m
  induction m with
  | zero =>
    simp only [nonEmptyCount, List.range_zero, List.map_nil, List.filter_nil, List.length_nil]
    split_ifs <;> omega
  | succ m ih =>
    simp only [nonEmptyCount] at ih ⊢
    rw [List.range_succ, List.map_append, List.filter_append, List.length_append, ih]
    by_cases h1 : m < n
    · simp [h1]
      split_ifs <;> omega
    · simp [h1]
      split_ifs <;> omega

theorem nonEmptyCount_zero (l : List (List Nat)) (h : ∀ b ∈ l, b = []) :
    nonEmptyCount l = 0 := by
  simp only [nonEmptyCount, List.length_eq_zero, List.filter_eq_nil_iff]
  intro b hb
  simp [h b hb]

/-- A partition whose cells all carry the bucket id `i` has one non-empty bucket. -/
theorem nonEmptyCount_one (heap : List Cell) (buckets : List (List Nat)) (i : Nat)
    (hP : Partitioned heap buckets) (hpos : 0 < heap.length)
    (hall : ∀ p, p < heap.length → bucketIdOf heap p = some i) :
    nonEmptyCount buckets = 1 := by
  obtain ⟨b, hb, h0⟩ := hP.1 0 i (hall 0 hpos)
  have hne : b.isEmpty = false := by
    cases b with
    | nil => simp at h0
    | cons _ _ => rfl
  have c := nonEmptyCount_set buckets i b [] hb
  have hz : nonEmptyCount (buckets.set i []) = 0 := by
    apply nonEmptyCount_zero
    intro b2 hb2
    obtain ⟨j, hj⟩ := List.mem_iff_getElem?.mp hb2
    rw [List.getElem?_set] at hj
    by_cases hij : i = j
    · rw [if_pos hij] at hj
      split at hj
      · exact (Option.some.inj hj).symm
      · cases hj
    · rw [if_neg hij] at hj
      cases b2 with
      | nil => rfl
      | cons p t =>
        have h1 := hP.2.1 j (p :: t) p hj (List.mem_cons_self _ _)
        rw [hall p (bucketIdOf_lt h1)] at h1
        exact absurd (Option.some.inj h1) hij
  simp only [hne, List.isEmpty_nil, if_true, Bool.false_eq_true, if_false] at c
  omega

theorem mazeInv_step (w h d : Nat) (s : MazeState) (hI : MazeInv w h s) (hne : s.edges ≠ []) :
    ∃ s2, edgeStep d s = .ok s2 ∧ MazeInv w h s2 ∧ s2.edges.length + 1 = s.edges.length := by
  obtain ⟨hP, hE, hl, hconn, hcnt⟩ := hI
  obtain ⟨s2, h2, hS, ⟨hP2, hE2⟩, hlen⟩ := edgeStep_spec d s ⟨hP, hE⟩ hne
  refine ⟨s2, h2, ⟨hP2, hE2, ?_, ?_, ?_⟩, hlen⟩
  · obtain ⟨_, _, _, _, _, _, _, _, _, hl2, _, _⟩ := hS
    rw [hl2, hl]
  · intro e he
    exact hS.connected e (hconn e he)
  · obtain ⟨_, _, _, _, _, _, _, _, _, _, _, hc⟩ := hS
    rw [hc, hcnt]

theorem mazeInv_after_init (w h : Nat) (hE : w * h ≤ edgeCount w h) (t : String) :
    MazeInv w h { stateAfter w h (w * h) with
      logs := (stateAfter w h (w * h)).logs ++ [Record.comment t] } := by
  refine ⟨stateAfter_partitioned w h hE, ?_, stateAfter_heap_length w h _, ?_, ?_⟩
  · intro e he
    simp only [stateAfter_heap_length]
    exact stateAfter_edges_lt w h e he
  · intro e he
    left
    exact he
  · have h1 := nonEmptyCount_init (w * h) (edgeCount w h)
    rw [if_neg (by omega)] at h1
    have h2 : connectCount ((stateAfter w h (w * h)).logs ++ [Record.comment t]) = 0 := by
      rw [connectCount_append_comment]
      rfl
    simp only [h2, Nat.zero_add]
    exact h1

/-- On a grid with at least two columns and two rows the bucket table is large enough, and
the generator returns with the edge set empty, the table a partition of the cells, all
cells in one bucket, `width * height - 1` `ConnectEdge` records, and both members of `stats`
equal to the number of edges. -/
theorem maze_on_grids_with_two_rows_and_columns (draws : Nat → Nat) (fuel w h : Nat)
    (hw : 2 ≤ w) (hh : 2 ≤ h) (hE : (h - 1) * w + (w - 1) * h < 2 ^ 31)
    (hf : (h - 1) * w + (w - 1) * h ≤ fuel) :
    ∃ r, WriteComputation draws fuel w h = .ok r ∧
      r.state.edges = [] ∧ r.state.heap.length = w * h ∧
      Partitioned r.state.heap r.state.bucketCells ∧
      (∃ i, ∀ p, p < w * h → bucketIdOf r.state.heap p = some i) ∧
      connectCount r.state.logs = w * h - 1 ∧
      r.stackSize = (((h - 1) * w + (w - 1) * h : Nat) : Int) ∧
      r.nbPushes = (((h - 1) * w + (w - 1) * h : Nat) : Int) := by
  have hw1 : w ≤ (h - 1) * w := Nat.le_mul_of_pos_left w (by omega)
  have hh1 : h ≤ (w - 1) * h := Nat.le_mul_of_pos_left h (by omega)
  have hec : edgeCount w h = (h - 1) * w + (w - 1) * h :=
    edgeCount_eq w h (by omega) (by omega) (by omega) (by omega) (by omega)
  have hcells : w * h ≤ edgeCount w h := by
    rw [hec]
    exact (cells_le_edges_iff w h (by omega) (by omega)).mpr ⟨hw, hh⟩
  have hinit := initBuckets_eq w h (by omega)
  rw [if_pos hcells] at hinit
  obtain ⟨s3, h3, hI3, he3⟩ := edgeLoop_rule draws (fun _ s => MazeInv w h s)
    (fun k s hI hne => mazeInv_step w h (draws k) s hI hne) fuel 0 _
    (by
      show (stateAfter w h (w * h)).edges.length ≤ fuel
      rw [stateAfter_edges_length]
      exact hf)
    (mazeInv_after_init w h hcells
      ("While the set of edges is not empty randomly get an edge; connect cells" ++
        " and merge buckets if not already in the same one:"))
  obtain ⟨hP, _, hl, hconn, hcnt⟩ := hI3
  have hsame : ∀ e ∈ (List.range (w * h)).flatMap (edgesOf w h),
      SameBucket s3.heap e.1 e.2 := by
    intro e he
    rcases hconn e he with h1 | h1
    · rw [he3] at h1
      simp at h1
    · exact h1
  have hgrid := grid_connected w h s3.heap hl hsame
  have hNpos : 0 < w * h := Nat.mul_pos (by omega) (by omega)
  obtain ⟨i, hi0, _⟩ := hgrid 0 hNpos
  have hall : ∀ p, p < w * h → bucketIdOf s3.heap p = some i := by
    intro p hp
    obtain ⟨j, hj0, hjp⟩ := hgrid p hp
    rw [hi0] at hj0
    cases hj0
    exact hjp
  have hone := nonEmptyCount_one s3.heap s3.bucketCells i hP (by omega)
    (fun p hp => hall p (by omega))
  refine ⟨{ state := { s3 with logs := s3.logs ++ [Record.opReturn true] },
            stackSize := toInt (edgeCount w h), nbPushes := toInt (edgeCount w h) },
    ?_, he3, hl, hP, ⟨i, hall⟩, ?_, ?_, ?_⟩
  · simp only [WriteComputation, hinit, except_bind_ok, h3]
    rfl
  · simp only
    rw [connectCount_append_return]
    omega
  · simp only
    rw [hec, toInt_of_lt _ hE]
  · simp only
    rw [hec, toInt_of_lt _ hE]

/-- Claim C8 fails on every grid with one column or one row: the bucket table is sized with
the number of edges, which is smaller than the number of cells, and the initialisation
indexes the table out of bounds, so the run does not complete. -/
theorem maze_single_row_or_column_out_of_bounds (draws : Nat → Nat) (fuel w h : Nat)
    (hw : 1 ≤ w) (hh : 1 ≤ h) (hw2 : w < 2 ^ 32) (hh2 : h < 2 ^ 32)
    (h1 : w = 1 ∨ h = 1) :
    WriteComputation draws fuel w h = .error Fault.outOfBounds := by
  have hec : edgeCount w h < w * h := by
    rcases h1 with rfl | rfl
    · rw [edgeCount_eq 1 h hw hh hw2 hh2 (by simp; omega)]
      simp
      omega
    · rw [edgeCount_eq w 1 hw hh hw2 hh2 (by simp; omega)]
      simp
      omega
  have h32 : w * h < 2 ^ 32 := by
    rcases h1 with rfl | rfl
    · simpa using hh2
    · simpa using hw2
  have hinit := initBuckets_eq w h h32
  rw [if_neg (by omega)] at hinit
  simp only [WriteComputation, hinit, except_bind_error]

/-- The statement on the failing input `width = 1`, `height = 3` of C8. -/
theorem maze_single_row_or_column_out_of_bounds_witness :
    1 ≤ 1 ∧ 1 ≤ 3 ∧ 1 < 2 ^ 32 ∧ 3 < 2 ^ 32 ∧ ((1 : Nat) = 1 ∨ (3 : Nat) = 1) ∧
    WriteComputation (fun _ => 0) 0 1 3 = .error Fault.outOfBounds :=
  ⟨by decide, by decide, by decide, by decide, Or.inl rfl,
    maze_single_row_or_column_out_of_bounds (fun _ => 0) 0 1 3 (by decide) (by decide)
      (by decide) (by decide) (Or.inl rfl)⟩

end MazeKruskalsLog

end SHA_Logger

/-! # Properties of the sessions and of the logs -/

namespace SHA_Logger

namespace CocktailLog

/-! ### The end of the sort loop -/

theorem forwardLoop_collapsed {α : Type} (comp : α → α → Bool) (inner : Nat) (it : Int)
    (s : SortState α) (h : s.endIdx ≤ it) : forwardLoop comp inner it s = .ok s := by
  cases inner with
  | zero =>
    unfold forwardLoop
    rw [if_neg (by omega)]
  | succ n =>
    unfold forwardLoop
    rw [if_neg (by omega)]

/-- Claim C11, amended: at the head of the `while` loop with the bounds collapsed
(`endIdx ≤ beginIdx`, as at the end of a pass-pair), no comparison, no exchange and no
backward pass follow. Either the loop is left at once, or (when `hasSwapped` is raised and
`beginIdx < kdistance - 1`) one more forward pass is started, which compares nothing and
writes only its opening `Set` record; `WriteComputation` then writes `Return(true)`. -/
theorem cocktail_after_bounds_collapse {α : Type} (comp : α → α → Bool) (kdistance : Int)
    (inner fuel : Nat) (s : SortState α) (hcol : s.endIdx ≤ s.beginIdx) :
    whileLoop comp kdistance inner (fuel + 1) s =
      .ok (if s.hasSwapped = true ∧ s.beginIdx < kdistance - 1 then
            { s with hasSwapped := false, itIdx := s.beginIdx
                     logs := s.logs ++ [Record.opSet "it" s.beginIdx]
                     endIdx := s.endIdx - 1, forwardPasses := s.forwardPasses + 1 }
          else s) := by
  unfold whileLoop
  by_cases hc : s.hasSwapped = true ∧ s.beginIdx < kdistance - 1
  · rw [if_pos hc, if_pos hc, forwardLoop_collapsed comp inner s.beginIdx (startForward s) hcol]
    simp only
    rw [if_pos (show (endForward (startForward s)).hasSwapped = false from rfl)]
    rfl
  · rw [if_neg hc, if_neg hc]

/-- Claim C11 as stated fails on `[3, 1, 2]`: the first pass-pair ends with
`beginIdx = endIdx = 1`, and the loop, whose guard is `beginIdx < kdistance - 1`, starts a
second forward pass and writes the record `Set it 1` before `Return(true)`. -/
theorem cocktail_bounds_collapse_counterexample :
    2 ≤ [(3 : Int), 1, 2].length ∧
    (∃ s2 s5,
      forwardLoop lessEqual 3 0 (startForward (initState [(3 : Int), 1, 2])) = .ok s2 ∧
      backwardLoop lessEqual 3 ((endForward s2).endIdx - 1) (startBackward (endForward s2)) =
        .ok s5 ∧
      (endBackward s5).endIdx ≤ (endBackward s5).beginIdx ∧
      (endBackward s5).forwardPasses = 1 ∧
      (endBackward s5).logs =
        [Record.opSet "it" 0, Record.opSwap "it" "it++", Record.opSet "it" 1,
         Record.opSwap "it" "it++", Record.opSet "it" 2, Record.opSet "it" 0,
         Record.opSet "it" (-1)]) ∧
    WriteComputation lessEqual 3 [(3 : Int), 1, 2] =
      .ok { seq := [1, 2, 3], beginIdx := 1, endIdx := 0, hasSwapped := false, itIdx := 1,
            logs := [Record.opSet "it" 0, Record.opSwap "it" "it++", Record.opSet "it" 1,
                     Record.opSwap "it" "it++", Record.opSet "it" 2, Record.opSet "it" 0,
                     Record.opSet "it" (-1), Record.opSet "it" 1, Record.opReturn true],
            forwardPasses := 2, backwardPasses := 1 } :=
  ⟨by decide, ⟨_, _, rfl, rfl, by decide, rfl, rfl⟩, rfl⟩

/-- The amended statement of C11 at the state that ends the first pass-pair of `[3, 1, 2]`. -/
theorem cocktail_after_bounds_collapse_witness :
    ((1 : Int) ≤ 1) ∧
    whileLoop (lessEqual : Int → Int → Bool) 3 3 (0 + 1)
        ({ seq := [1, 2, 3], beginIdx := 1, endIdx := 1, hasSwapped := true, itIdx := -1,
           logs := [], forwardPasses := 1, backwardPasses := 1 } : SortState Int) =
      .ok (if (true = true ∧ (1 : Int) < 3 - 1) then
            ({ seq := [1, 2, 3], beginIdx := 1, endIdx := 1 - 1, hasSwapped := false,
               itIdx := 1, logs := [] ++ [Record.opSet "it" 1], forwardPasses := 1 + 1,
               backwardPasses := 1 } : SortState Int)
          else
            ({ seq := [1, 2, 3], beginIdx := 1, endIdx := 1, hasSwapped := true, itIdx := -1,
               logs := [], forwardPasses := 1, backwardPasses := 1 } : SortState Int)) :=
  ⟨by decide, cocktail_after_bounds_collapse lessEqual 3 3 0
    ({ seq := [1, 2, 3], beginIdx := 1, endIdx := 1, hasSwapped := true, itIdx := -1,
       logs := [], forwardPasses := 1, backwardPasses := 1 } : SortState Int) (by decide)⟩

/-! ### When two neighbours are exchanged -/

/-- With the default predicate the comparison step exchanges the elements at `it` and
`it + 1` (and writes a `Swap` record) exactly when `a[it + 1] ≤ a[it]`, that is for a pair
out of order and for an equal pair; a pair with `a[it] < a[it + 1]` is left alone and no
record is written. -/
theorem compareSwap_lessEqual {α : Type} [LinearOrder α] (it : Int)
    (s : SortState α) (x y : α) (h0 : 0 ≤ it) (hx : s.seq[it.toNat]? = some x)
    (hy : s.seq[it.toNat + 1]? = some y) :
    (x < y → compareSwap lessEqual it s = .ok s) ∧
    (y ≤ x → compareSwap lessEqual it s =
      .ok { s with
            seq := (s.seq.set it.toNat y).set (it.toNat + 1) x
            logs := s.logs ++ [Record.opSwap "it" "it++"]
            hasSwapped := true }) := by
  constructor
  · intro hxy
    have hc : ¬ lessEqual y x = true := fun h => not_le_of_lt hxy ((lessEqual_eq_true y x).mp h)
    unfold compareSwap
    rw [if_pos h0, hx, hy]
    simp only
    rw [if_neg hc]
  · intro hyx
    have hc : lessEqual y x = true := (lessEqual_eq_true y x).mpr hyx
    unfold compareSwap
    rw [if_pos h0, hx, hy]
    simp only
    rw [if_pos hc]

/-- Claim C12 as stated fails on `[1, 1]`: the two elements are not out of order, yet the
step exchanges them and writes a `Swap` record. The last part shows the order of two
elements with equal keys reversed, for elements compared by their first component. -/
theorem cocktail_equal_neighbours_counterexample :
    ¬ ((1 : Int) > 1) ∧
    compareSwap lessEqual 0
        { seq := [(1 : Int), 1], beginIdx := 0, endIdx := 1, hasSwapped := false, itIdx := 0,
          logs := [Record.opSet "it" 0], forwardPasses := 0, backwardPasses := 0 } =
      .ok { seq := [(1 : Int), 1], beginIdx := 0, endIdx := 1, hasSwapped := true, itIdx := 0,
            logs := [Record.opSet "it" 0, Record.opSwap "it" "it++"],
            forwardPasses := 0, backwardPasses := 0 } ∧
    (WriteComputation lessEqual 2 [(1 : Int), 1]).map (fun s => swapCount s.logs) = .ok 1 ∧
    (WriteComputation (fun (p q : Nat × Nat) => decide (p.1 ≤ q.1)) 2 [(1, 0), (1, 1)]).map
      (fun s => s.seq) = .ok [(1, 1), (1, 0)] :=
  ⟨by decide, rfl, rfl, rfl⟩

end CocktailLog

namespace CocktailLog

/-! ### Replay of the log -/

theorem replay_append {α : Type} (a : List α) (logs : List Record) (r : Record) :
    replay a (logs ++ [r]) = replayStep (replay a logs) r := by
  simp [replay, List.foldl_append]

theorem replay_compareSwap {α : Type} (comp : α → α → Bool) (a : List α) (it : Int)
    (s : SortState α) (h0 : 0 ≤ it) (h1 : it + 1 < s.seq.length)
    (hr : replay a s.logs = (s.itIdx, s.seq)) (hit : s.itIdx = it) :
    ∃ s1, compareSwap comp it s = .ok s1 ∧ s1.seq.length = s.seq.length ∧
      s1.beginIdx = s.beginIdx ∧ s1.endIdx = s.endIdx ∧ s1.itIdx = s.itIdx ∧
      replay a s1.logs = (s1.itIdx, s1.seq) := by
  obtain ⟨x, y, hx, hy, hcs⟩ := compareSwap_eq comp it s h0 h1
  refine ⟨_, hcs, ?_⟩
  by_cases hc : comp y x = true
  · rw [if_pos hc]
    refine ⟨by simp, rfl, rfl, rfl, ?_⟩
    simp only
    rw [replay_append, hr]
    simp only [replayStep, exchange, hit, if_pos h0, hx, hy]
  · rw [if_neg hc]
    exact ⟨rfl, rfl, rfl, rfl, hr⟩

theorem replay_forward_step {α : Type} (comp : α → α → Bool) (a : List α) (n : Nat)
    (b e : Int) (hb : 0 ≤ b) (he : e ≤ (n : Int) - 1) (it : Int) (s : SortState α)
    (hI : b ≤ it ∧ ReplayInv a n b e it s) (hlt : it < e) :
    ∃ s1, compareSwap comp it s = .ok s1 ∧
      (b ≤ it + 1 ∧ ReplayInv a n b e (it + 1) (logIncr s1)) := by
  obtain ⟨hbit, hlen, hbeg, hend, hr, hit⟩ := hI
  obtain ⟨s1, h1, hl1, hb1, he1, hi1, hr1⟩ :=
    replay_compareSwap comp a it s (by omega) (by omega) hr hit
  refine ⟨s1, h1, by omega, by simp [logIncr, hl1, hlen], by simp [logIncr, hb1, hbeg],
    by simp [logIncr, he1, hend], ?_, ?_⟩
  · simp only [logIncr]
    rw [replay_append, hr1]
    simp [replayStep]
  · simp only [logIncr]
    omega

theorem replay_backward_step {α : Type} (comp : α → α → Bool) (a : List α) (n : Nat)
    (b e : Int) (hb : 0 ≤ b) (he : e ≤ (n : Int) - 1) (it : Int) (s : SortState α)
    (hI : it ≤ e - 1 ∧ ReplayInv a n b e it s) (hle : b ≤ it) :
    ∃ s1, compareSwap comp it s = .ok s1 ∧
      (it - 1 ≤ e - 1 ∧ ReplayInv a n b e (it - 1) (logDecr s1)) := by
  obtain ⟨hite, hlen, hbeg, hend, hr, hit⟩ := hI
  obtain ⟨s1, h1, hl1, hb1, he1, hi1, hr1⟩ :=
    replay_compareSwap comp a it s (by omega) (by omega) hr hit
  refine ⟨s1, h1, by omega, by simp [logDecr, hl1, hlen], by simp [logDecr, hb1, hbeg],
    by simp [logDecr, he1, hend], ?_, ?_⟩
  · simp only [logDecr]
    rw [replay_append, hr1]
    simp [replayStep]
  · simp only [logDecr]
    omega

/-- For every predicate the sort loop returns, and the replay of its log gives the sequence
it leaves in place. -/
theorem whileLoop_replay {α : Type} (comp : α → α → Bool) (a : List α) (n inner : Nat)
    (hin : n ≤ inner) :
    ∀ (fuel : Nat) (s : SortState α), ((n : Int) - 1 - s.beginIdx).toNat ≤ fuel →
      ReplayHead a n s →
      ∃ s6, whileLoop comp (n : Int) inner fuel s = .ok s6 ∧
        replay a s6.logs = (s6.itIdx, s6.seq) := by
  apply whileLoop_rule comp (n : Int) inner (ReplayHead a n)
    (fun s => replay a s.logs = (s.itIdx, s.seq))
  · intro s hI _
    exact hI.2.2.2
  · intro s hI _ hlt
    obtain ⟨hlen, hb, he, hr⟩ := hI
    obtain ⟨s2, h2, _, hl2, hb2, he2, hr2, _⟩ :=
      forwardLoop_rule comp s.endIdx (fun it t => s.beginIdx ≤ it ∧
          ReplayInv a n s.beginIdx s.endIdx it t)
        (fun it t h => h.2.2.2.1)
        (fun it t h hlt => replay_forward_step comp a n s.beginIdx s.endIdx hb he it t h hlt)
        inner s.beginIdx (startForward s) (by omega)
        ⟨le_refl _, hlen, rfl, rfl, by
          simp only [startForward]
          rw [replay_append, hr]
          simp [replayStep], rfl⟩
    refine ⟨s2, h2, ?_, ?_⟩
    · intro _
      exact hr2
    · intro _
      obtain ⟨s5, h5, _, hl5, hb5, he5, hr5, _⟩ :=
        backwardLoop_rule comp s.beginIdx (fun it t => it ≤ s.endIdx - 1 - 1 ∧
            ReplayInv a n s.beginIdx (s.endIdx - 1) it t)
          (fun it t h => h.2.2.1)
          (fun it t h hle =>
            replay_backward_step comp a n s.beginIdx (s.endIdx - 1) hb (by omega) it t h hle)
          inner ((endForward s2).endIdx - 1) (startBackward (endForward s2))
          (by simp only [endForward, he2]; omega)
          ⟨by simp only [endForward, he2]; omega, hl2, hb2,
            by simp only [startBackward, endForward, he2], by
              simp only [startBackward, endForward]
              rw [replay_append, hr2]
              simp [replayStep], rfl⟩
      refine ⟨s5, h5, ⟨hl5, ?_, ?_, hr5⟩, ?_⟩
      · simp only [endBackward, hb5]
        omega
      · simp only [endBackward, he5]
        omega
      · simp only [endBackward, hb5]

/-- For every predicate `WriteComputation` returns, and the replay of its log gives the
sequence it leaves in place. -/
theorem WriteComputation_replay {α : Type} (comp : α → α → Bool) (a : List α)
    (fuel : Nat) (hf : a.length ≤ fuel) :
    ∃ s, WriteComputation comp fuel a = .ok s ∧ (replay a s.logs).2 = s.seq := by
  obtain ⟨s6, h6, hr⟩ := whileLoop_replay comp a a.length fuel hf fuel (initState a)
    (by simp only [initState]; omega)
    ⟨rfl, le_refl _, by simp [initState], rfl⟩
  refine ⟨{ s6 with logs := s6.logs ++ [Record.opReturn true] },
    by simp only [WriteComputation, h6], ?_⟩
  simp only
  rw [replay_append, hr]
  rfl

/-- Claim C13: for every input sequence of length at least two (and every predicate), the
sort returns, and the replay of its log against the initial sequence (cursor from the `Set`
records, starting at `0`; each `Swap` record exchanges the elements at the cursor and after
it) gives exactly the sequence the sort leaves in place. -/
theorem cocktail_replay_gives_final_sequence {α : Type} (comp : α → α → Bool) (a : List α)
    (hlen : 2 ≤ a.length) (fuel : Nat) (hf : a.length ≤ fuel) :
    ∃ s, WriteComputation comp fuel a = .ok s ∧ (replay a s.logs).2 = s.seq := by
  have _ := hlen
  exact WriteComputation_replay comp a fuel hf

/-- The statement of C13 at the input `[3, 1, 2]`. -/
theorem cocktail_replay_gives_final_sequence_witness :
    2 ≤ [(3 : Int), 1, 2].length ∧ [(3 : Int), 1, 2].length ≤ 3 ∧
    ∃ s, WriteComputation lessEqual 3 [(3 : Int), 1, 2] = .ok s ∧
      (replay [(3 : Int), 1, 2] s.logs).2 = s.seq :=
  ⟨by decide, by decide,
    cocktail_replay_gives_final_sequence lessEqual [3, 1, 2] (by decide) 3 (by decide)⟩

end CocktailLog

namespace CocktailLog

/-! ### The exchanges of a whole run -/

theorem append_cons_eq_concat {β : Type} (pre post logs : List β) (x r : β)
    (h : pre ++ x :: post = logs ++ [r]) :
    (post = [] ∧ pre = logs ∧ x = r) ∨ ∃ post2, post = post2 ++ [r] ∧ logs = pre ++ x :: post2 := by
  rcases List.eq_nil_or_concat post with hp | ⟨post2, y, hp⟩
  · subst hp
    left
    have := List.append_inj' h rfl
    simp at this
    exact ⟨rfl, this.1, this.2⟩
  · subst hp
    right
    have h2 : (pre ++ x :: post2) ++ [y] = logs ++ [r] := by simpa using h
    have := List.append_inj' h2 rfl
    simp at this
    exact ⟨post2, by rw [this.2, List.concat_eq_append], this.1.symm⟩

theorem append_pair_eq_concat {β : Type} (pre post logs : List β) (x y r : β)
    (h : pre ++ x :: y :: post = logs ++ [r]) :
    (post = [] ∧ logs = pre ++ [x] ∧ y = r) ∨
      ∃ post2, post = post2 ++ [r] ∧ logs = pre ++ x :: y :: post2 := by
  rcases append_cons_eq_concat pre (y :: post) logs x r h with ⟨h1, _, _⟩ | ⟨post2, h1, h2⟩
  · cases h1
  · cases post2 with
    | nil =>
      simp at h1
      left
      exact ⟨h1.2, h2, h1.1⟩
    | cons z post3 =>
      simp at h1
      right
      refine ⟨post3, h1.2, ?_⟩
      rw [h2, h1.1]

theorem SwapJustified.append_swap {α : Type} [LinearOrder α] (a : List α)
    (logs : List Record) (n1 n2 : String) (h : SwapJustified a logs)
    (hnew : ∃ x y, 0 ≤ (replay a logs).1 ∧ (replay a logs).2[(replay a logs).1.toNat]? = some x ∧
      (replay a logs).2[(replay a logs).1.toNat + 1]? = some y ∧ y ≤ x) :
    SwapJustified a (logs ++ [Record.opSwap n1 n2]) := by
  intro pre post m1 m2 hd
  rcases append_cons_eq_concat pre post logs _ _ hd.symm with ⟨_, h2, _⟩ | ⟨post2, _, h2⟩
  · rw [h2]
    exact hnew
  · exact h pre post2 m1 m2 h2

theorem SwapJustified.append_other {α : Type} [LinearOrder α] (a : List α)
    (logs : List Record) (r : Record) (h : SwapJustified a logs)
    (hr : ∀ n1 n2, r ≠ Record.opSwap n1 n2) :
    SwapJustified a (logs ++ [r]) := by
  intro pre post m1 m2 hd
  rcases append_cons_eq_concat pre post logs _ _ hd.symm with ⟨_, _, h3⟩ | ⟨post2, _, h2⟩
  · exact absurd h3.symm (hr m1 m2)
  · exact h pre post2 m1 m2 h2

theorem UnswappedAscending.append {α : Type} [LinearOrder α] (a : List α)
    (logs : List Record) (r : Record) (h : UnswappedAscending a logs)
    (hnew : ∀ pre k k2, logs = pre ++ [Record.opSet "it" k] → r = Record.opSet "it" k2 →
      (k2 = k + 1 ∨ k2 = k - 1) →
      ∃ x y, 0 ≤ k ∧ (replay a pre).2[k.toNat]? = some x ∧
        (replay a pre).2[k.toNat + 1]? = some y ∧ x < y) :
    UnswappedAscending a (logs ++ [r]) := by
  intro pre post k k2 hd hk
  rcases append_pair_eq_concat pre post logs _ _ _ hd.symm with ⟨_, h2, h3⟩ | ⟨post2, _, h2⟩
  · exact hnew pre k k2 h2 h3.symm hk
  · exact h pre post2 k k2 h2 hk

theorem replay_last_set {α : Type} (a : List α) (pre : List Record) (k c : Int)
    (q : List α) (h : replay a (pre ++ [Record.opSet "it" k]) = (c, q)) :
    k = c ∧ (replay a pre).2 = q := by
  rw [replay_append] at h
  simp only [replayStep, if_pos, Prod.mk.injEq] at h
  exact h

/-- One comparison of the default predicate followed by the `Set` record that closes the
step keeps the two properties of the log. -/
theorem swap_compare {α : Type} [LinearOrder α] (a : List α) (it : Int) (s : SortState α)
    (h0 : 0 ≤ it) (h1 : it + 1 < s.seq.length)
    (hr : replay a s.logs = (s.itIdx, s.seq)) (hit : s.itIdx = it)
    (hJ : SwapJustified a s.logs) (hU : UnswappedAscending a s.logs) :
    ∃ s1, compareSwap lessEqual it s = .ok s1 ∧ ∀ k2 : Int,
      SwapJustified a (s1.logs ++ [Record.opSet "it" k2]) ∧
      UnswappedAscending a (s1.logs ++ [Record.opSet "it" k2]) := by
  obtain ⟨x, y, hx, hy, hcs⟩ := compareSwap_eq lessEqual it s h0 h1
  refine ⟨_, hcs, fun k2 => ?_⟩
  by_cases hc : lessEqual y x = true
  · rw [if_pos hc]
    simp only
    constructor
    · apply SwapJustified.append_other
      · apply SwapJustified.append_swap _ _ _ _ hJ
        rw [hr]
        exact ⟨x, y, by simp only; omega, by simp only [hit]; exact hx,
          by simp only [hit]; exact hy, (lessEqual_eq_true y x).mp hc⟩
      · intro n1 n2 h
        cases h
    · apply UnswappedAscending.append
      · apply UnswappedAscending.append _ _ _ hU
        intro pre k k3 _ h
        cases h
      · intro pre k k3 h _ _
        have := List.append_inj' h rfl
        simp at this
  · rw [if_neg hc]
    constructor
    · apply SwapJustified.append_other _ _ _ hJ
      intro n1 n2 h
      cases h
    · apply UnswappedAscending.append _ _ _ hU
      intro pre k k3 h _ _
      rw [h] at hr
      obtain ⟨hk, hq⟩ := replay_last_set a pre k _ _ hr
      have hki : k = it := by rw [hk, hit]
      rw [hq, hki]
      refine ⟨x, y, h0, hx, hy, ?_⟩
      by_contra hlt
      exact hc ((lessEqual_eq_true y x).mpr (not_lt.mp hlt))

/-- A `Set` record written at the start of a pass, at least two positions away from the
cursor, keeps the two properties of the log. -/
theorem swap_start_pass {α : Type} [LinearOrder α] (a : List α) (s : SortState α) (k2 : Int)
    (hr : replay a s.logs = (s.itIdx, s.seq))
    (hJ : SwapJustified a s.logs) (hU : UnswappedAscending a s.logs)
    (hfar : s.logs = [] ∨ (k2 ≠ s.itIdx + 1 ∧ k2 ≠ s.itIdx - 1)) :
    SwapJustified a (s.logs ++ [Record.opSet "it" k2]) ∧
    UnswappedAscending a (s.logs ++ [Record.opSet "it" k2]) := by
  constructor
  · apply SwapJustified.append_other _ _ _ hJ
    intro n1 n2 h
    cases h
  · apply UnswappedAscending.append _ _ _ hU
    intro pre k k3 h h3 hk
    rcases hfar with hnil | ⟨hf1, hf2⟩
    · rw [hnil] at h
      simp at h
    · rw [h] at hr
      obtain ⟨hki, _⟩ := replay_last_set a pre k _ _ hr
      simp only [Record.opSet.injEq, true_and] at h3
      exfalso
      rcases hk with hk | hk
      · exact hf1 (by omega)
      · exact hf2 (by omega)

theorem swap_forward_step {α : Type} [LinearOrder α] (a : List α) (n : Nat)
    (b e : Int) (hb : 0 ≤ b) (he : e ≤ (n : Int) - 1) (it : Int) (s : SortState α)
    (hI : b ≤ it ∧ SwapInv a n b e it s) (hlt : it < e) :
    ∃ s1, compareSwap lessEqual it s = .ok s1 ∧
      (b ≤ it + 1 ∧ SwapInv a n b e (it + 1) (logIncr s1)) := by
  obtain ⟨hbit, hR, hJ, hU⟩ := hI
  obtain ⟨s1, h1, hb1, hR1⟩ :=
    replay_forward_step lessEqual a n b e hb he it s ⟨hbit, hR⟩ hlt
  obtain ⟨hlen, _, _, hr, hit⟩ := hR
  obtain ⟨t1, ht1, hJU⟩ := swap_compare a it s (by omega) (by omega) hr hit hJ hU
  rw [h1] at ht1
  cases ht1
  exact ⟨s1, h1, hb1, hR1, hJU (s1.itIdx + 1)⟩

theorem swap_backward_step {α : Type} [LinearOrder α] (a : List α) (n : Nat)
    (b e : Int) (hb : 0 ≤ b) (he : e ≤ (n : Int) - 1) (it : Int) (s : SortState α)
    (hI : it ≤ e - 1 ∧ SwapInv a n b e it s) (hle : b ≤ it) :
    ∃ s1, compareSwap lessEqual it s = .ok s1 ∧
      (it - 1 ≤ e - 1 ∧ SwapInv a n b e (it - 1) (logDecr s1)) := by
  obtain ⟨hite, hR, hJ, hU⟩ := hI
  obtain ⟨s1, h1, hb1, hR1⟩ :=
    replay_backward_step lessEqual a n b e hb he it s ⟨hite, hR⟩ hle
  obtain ⟨hlen, _, _, hr, hit⟩ := hR
  obtain ⟨t1, ht1, hJU⟩ := swap_compare a it s (by omega) (by omega) hr hit hJ hU
  rw [h1] at ht1
  cases ht1
  exact ⟨s1, h1, hb1, hR1, hJU (s1.itIdx - 1)⟩

/-- With the default predicate the sort loop returns, and in its log every `Swap` record
was written on a pair with `y ≤ x` and every comparison without a `Swap` record on a pair
with `x < y`. -/
theorem whileLoop_swaps {α : Type} [LinearOrder α] (a : List α) (n inner : Nat)
    (hin : n ≤ inner) :
    ∀ (fuel : Nat) (s : SortState α), ((n : Int) - 1 - s.beginIdx).toNat ≤ fuel →
      SwapHead a n s →
      ∃ s6, whileLoop lessEqual (n : Int) inner fuel s = .ok s6 ∧
        SwapJustified a s6.logs ∧ UnswappedAscending a s6.logs := by
  apply whileLoop_rule lessEqual (n : Int) inner (SwapHead a n)
    (fun s => SwapJustified a s.logs ∧ UnswappedAscending a s.logs)
  · intro s hI _
    exact ⟨hI.2.1, hI.2.2.1⟩
  · intro s hI _ hlt
    obtain ⟨⟨hlen, hb, he, hr⟩, hJ, hU, hfar⟩ := hI
    have hstart := swap_start_pass a s s.beginIdx hr hJ hU (by
      rcases hfar with h | h
      · exact Or.inl h
      · exact Or.inr ⟨by omega, by omega⟩)
    obtain ⟨s2, h2, _, ⟨hl2, hb2, he2, hr2, hi2⟩, hJ2, hU2⟩ :=
      forwardLoop_rule lessEqual s.endIdx (fun it t => s.beginIdx ≤ it ∧
          SwapInv a n s.beginIdx s.endIdx it t)
        (fun it t h => h.2.1.2.2.1)
        (fun it t h hlt => swap_forward_step a n s.beginIdx s.endIdx hb he it t h hlt)
        inner s.beginIdx (startForward s) (by omega)
        ⟨le_refl _, ⟨hlen, rfl, rfl, by
          simp only [startForward]
          rw [replay_append, hr]
          simp [replayStep], rfl⟩, hstart.1, hstart.2⟩
    refine ⟨s2, h2, ?_, ?_⟩
    · intro _
      exact ⟨hJ2, hU2⟩
    · intro _
      have hback := swap_start_pass a s2 (s2.endIdx - 1 - 1) hr2 hJ2 hU2
        (Or.inr ⟨by rw [hi2, he2]; omega, by rw [hi2, he2]; omega⟩)
      obtain ⟨s5, h5, _, ⟨hl5, hb5, he5, hr5, hi5⟩, hJ5, hU5⟩ :=
        backwardLoop_rule lessEqual s.beginIdx (fun it t => it ≤ s.endIdx - 1 - 1 ∧
            SwapInv a n s.beginIdx (s.endIdx - 1) it t)
          (fun it t h => h.2.1.2.1)
          (fun it t h hle =>
            swap_backward_step a n s.beginIdx (s.endIdx - 1) hb (by omega) it t h hle)
          inner ((endForward s2).endIdx - 1) (startBackward (endForward s2))
          (by simp only [endForward, he2]; omega)
          ⟨by simp only [endForward, he2]; omega, ⟨hl2, hb2,
            by simp only [startBackward, endForward, he2], by
              simp only [startBackward, endForward]
              rw [replay_append, hr2]
              simp [replayStep], rfl⟩, hback.1, hback.2⟩
      refine ⟨s5, h5, ⟨⟨hl5, ?_, ?_, hr5⟩, hJ5, hU5, Or.inr ?_⟩, ?_⟩
      · simp only [endBackward, hb5]
        omega
      · simp only [endBackward, he5]
        omega
      · simp only [endBackward, hb5, hi5, endForward]
        omega
      · simp only [endBackward, hb5]

/-- With the default predicate `WriteComputation` returns, and its log has the two
properties. -/
theorem WriteComputation_swaps {α : Type} [LinearOrder α] (a : List α) (fuel : Nat)
    (hf : a.length ≤ fuel) :
    ∃ s, WriteComputation lessEqual fuel a = .ok s ∧
      SwapJustified a s.logs ∧ UnswappedAscending a s.logs := by
  obtain ⟨s6, h6, hJ, hU⟩ := whileLoop_swaps a a.length fuel hf fuel (initState a)
    (by simp only [initState]; omega)
    ⟨⟨rfl, le_refl _, by simp [initState], rfl⟩,
      fun pre post n1 n2 h => by simp [initState] at h,
      fun pre post k k2 h => by simp [initState] at h, Or.inl rfl⟩
  refine ⟨{ s6 with logs := s6.logs ++ [Record.opReturn true] },
    by simp only [WriteComputation, h6], ?_, ?_⟩
  · apply SwapJustified.append_other _ _ _ hJ
    intro n1 n2 h
    cases h
  · apply UnswappedAscending.append _ _ _ hU
    intro pre k k3 _ h
    cases h

/-- Claim C12, amended: for every input sequence and the default predicate the sort returns
(given fuel for one turn of the loop per element), and over the whole run, in the forward
and in the backward pass, every `Swap` record was written on two neighbours with
`a[i + 1] ≤ a[i]`, and every comparison that wrote no `Swap` record was made on two
neighbours with `a[i] < a[i + 1]`: neighbours are exchanged exactly when they are out of
order or equal. -/
theorem cocktail_swaps_unless_strictly_ascending {α : Type} [LinearOrder α] (a : List α)
    (fuel : Nat) (hf : a.length ≤ fuel) :
    ∃ s, WriteComputation lessEqual fuel a = .ok s ∧
      SwapJustified a s.logs ∧ UnswappedAscending a s.logs :=
  WriteComputation_swaps a fuel hf

/-- The amended statement of C12 at the input `[1, 3, 2]`. -/
theorem cocktail_swaps_unless_strictly_ascending_witness :
    [(1 : Int), 3, 2].length ≤ 3 ∧
    ∃ s, WriteComputation lessEqual 3 [(1 : Int), 3, 2] = .ok s ∧
      SwapJustified [(1 : Int), 3, 2] s.logs ∧ UnswappedAscending [(1 : Int), 3, 2] s.logs :=
  ⟨by decide, cocktail_swaps_unless_strictly_ascending [1, 3, 2] 3 (by decide)⟩

/-- The log of the run on `[1, 3, 2]`: a forward comparison without exchange (`Set it 0`,
`Set it 1`), a forward exchange (`Swap` between `Set it 1` and `Set it 2`) and a backward
comparison without exchange (`Set it 0`, `Set it -1`); the records that open a pass move
the cursor by two positions or more. -/
theorem cocktail_log_of_1_3_2 :
    (WriteComputation lessEqual 3 [(1 : Int), 3, 2]).map (fun s => (s.seq, s.logs)) =
      .ok ([1, 2, 3],
        [Record.opSet "it" 0, Record.opSet "it" 1, Record.opSwap "it" "it++",
         Record.opSet "it" 2, Record.opSet "it" 0, Record.opSet "it" (-1),
         Record.opSet "it" 1, Record.opReturn true]) :=
  rfl

/-- The two properties of the log tell the default predicate from others: the run on
`[1, 1]` with the strict predicate leaves an equal pair alone and so fails
`UnswappedAscending`, and the run on `[1, 2]` with a predicate that always holds exchanges
an ascending pair and so fails `SwapJustified`. -/
theorem log_properties_of_other_predicates :
    (∃ s, WriteComputation (fun (x y : Int) => decide (x < y)) 2 [(1 : Int), 1] = .ok s ∧
      ¬ UnswappedAscending [(1 : Int), 1] s.logs) ∧
    (∃ s, WriteComputation (fun (_ _ : Int) => true) 2 [(1 : Int), 2] = .ok s ∧
      ¬ SwapJustified [(1 : Int), 2] s.logs) := by
  constructor
  · have hlog : (WriteComputation (fun (x y : Int) => decide (x < y)) 2 [(1 : Int), 1]).map
        (fun s => s.logs) =
        .ok [Record.opSet "it" 0, Record.opSet "it" 1, Record.opReturn true] := rfl
    cases hrun : WriteComputation (fun (x y : Int) => decide (x < y)) 2 [(1 : Int), 1] with
    | error e =>
      rw [hrun] at hlog
      cases hlog
    | ok s =>
      rw [hrun] at hlog
      have hl : s.logs = [Record.opSet "it" 0, Record.opSet "it" 1, Record.opReturn true] :=
        Except.ok.inj hlog
      refine ⟨s, rfl, fun h => ?_⟩
      obtain ⟨x, y, _, hx, hy, hlt⟩ := h [] [Record.opReturn true] 0 1 hl (Or.inl rfl)
      have hx1 : some (1 : Int) = some x := hx
      have hy1 : some (1 : Int) = some y := hy
      have := Option.some.inj hx1
      have := Option.some.inj hy1
      omega
  · have hlog : (WriteComputation (fun (_ _ : Int) => true) 2 [(1 : Int), 2]).map
        (fun s => s.logs) =
        .ok [Record.opSet "it" 0, Record.opSwap "it" "it++", Record.opSet "it" 1,
          Record.opSet "it" (-1), Record.opReturn true] := rfl
    cases hrun : WriteComputation (fun (_ _ : Int) => true) 2 [(1 : Int), 2] with
    | error e =>
      rw [hrun] at hlog
      cases hlog
    | ok s =>
      rw [hrun] at hlog
      have hl : s.logs = [Record.opSet "it" 0, Record.opSwap "it" "it++",
          Record.opSet "it" 1, Record.opSet "it" (-1), Record.opReturn true] :=
        Except.ok.inj hlog
      refine ⟨s, rfl, fun h => ?_⟩
      obtain ⟨x, y, _, hx, hy, hle⟩ := h [Record.opSet "it" 0]
        [Record.opSet "it" 1, Record.opSet "it" (-1), Record.opReturn true] "it" "it++" hl
      have hx1 : some (1 : Int) = some x := hx
      have hy1 : some (2 : Int) = some y := hy
      have := Option.some.inj hx1
      have := Option.some.inj hy1
      omega

end CocktailLog

namespace MazeKruskalsLog

/-! ### The assertion of MergeBucket -/

end MazeKruskalsLog

namespace MazeKruskalsLog

/-! ### The records of one turn of the edge loop -/

theorem readAt_ok {α : Type} {l : List α} {i : Nat} {v : α} (h : readAt l i = .ok v) :
    l[i]? = some v := by
  unfold readAt at h
  cases hl : l[i]? with
  | none => rw [hl] at h; cases h
  | some w =>
    rw [hl] at h
    cases h
    rfl

theorem connectAndMerge_logs (s s2 : MazeState) (e : Nat × Nat) (cellA cellB : Cell)
    (h : connectAndMerge s e cellA cellB = .ok s2) :
    s2.logs = s.logs ++
      [Record.connectEdge (toInt cellA.x) (toInt cellA.y) (toInt cellB.x) (toInt cellB.y),
       Record.mergeBuckets (toInt cellA.bucketId) (toInt cellB.bucketId)] ∧
    s2.edges = s.edges := by
  unfold connectAndMerge at h
  cases h1 : readAt s.heap e.1 with
  | error err => rw [h1, except_bind_error] at h; cases h
  | ok a =>
    rw [h1, except_bind_ok] at h
    dsimp only at h
    cases h2 : readAt (s.heap.set e.1
        { a with connectedCells := a.connectedCells ++ [e.2] }) e.2 with
    | error err => rw [h2, except_bind_error] at h; cases h
    | ok b =>
      rw [h2, except_bind_ok] at h
      cases h3 : MergeBucket ((s.heap.set e.1
          { a with connectedCells := a.connectedCells ++ [e.2] }).set e.2
          { b with connectedCells := b.connectedCells ++ [e.1] }) s.bucketCells
          cellA.bucketId cellB.bucketId with
      | error err => rw [h3, except_bind_error] at h; cases h
      | ok r =>
        rw [h3, except_bind_ok] at h
        cases h
        simp

/-- What one turn of the edge loop writes: always the `SelectEdge` record of the edge the
draw selects, followed, exactly when the bucket ids of its two cells differ, by the
`ConnectEdge` record and the `MergeBuckets` record that names these two ids. -/
theorem edgeStep_records (d : Nat) (s s2 : MazeState) (h : edgeStep d s = .ok s2) :
    ∃ edge cellA cellB,
      s.edges[d % s.edges.length]? = some edge ∧
      s.heap[edge.1]? = some cellA ∧ s.heap[edge.2]? = some cellB ∧
      s2.edges = s.edges.eraseIdx (d % s.edges.length) ∧
      ((cellA.bucketId = cellB.bucketId ∧ s2.logs = s.logs ++
          [Record.selectEdge (toInt cellA.x) (toInt cellA.y) (toInt cellB.x) (toInt cellB.y)]) ∨
       (cellA.bucketId ≠ cellB.bucketId ∧ s2.logs = s.logs ++
          [Record.selectEdge (toInt cellA.x) (toInt cellA.y) (toInt cellB.x) (toInt cellB.y),
           Record.connectEdge (toInt cellA.x) (toInt cellA.y) (toInt cellB.x) (toInt cellB.y),
           Record.mergeBuckets (toInt cellA.bucketId) (toInt cellB.bucketId)])) := by
  unfold edgeStep at h
  dsimp only at h
  cases h1 : readAt s.edges (d % s.edges.length) with
  | error err => rw [h1, except_bind_error] at h; cases h
  | ok edge =>
    rw [h1, except_bind_ok] at h
    cases h2 : readAt s.heap edge.1 with
    | error err => rw [h2, except_bind_error] at h; cases h
    | ok cellA =>
      rw [h2, except_bind_ok] at h
      cases h3 : readAt s.heap edge.2 with
      | error err => rw [h3, except_bind_error] at h; cases h
      | ok cellB =>
        rw [h3, except_bind_ok] at h
        refine ⟨edge, cellA, cellB, readAt_ok h1, readAt_ok h2, readAt_ok h3, ?_⟩
        by_cases hc : cellA.bucketId = cellB.bucketId
        · simp only [hc, ne_eq, not_true_eq_false, if_false, pure_bind] at h
          cases h
          exact ⟨rfl, Or.inl ⟨hc, rfl⟩⟩
        · simp only [ne_eq, hc, not_false_eq_true, if_true] at h
          cases h4 : connectAndMerge { s with logs := s.logs ++
              [Record.selectEdge (toInt cellA.x) (toInt cellA.y) (toInt cellB.x)
                (toInt cellB.y)] } edge cellA cellB with
          | error err => rw [h4, except_bind_error] at h; cases h
          | ok s3 =>
            rw [h4, except_bind_ok] at h
            cases h
            obtain ⟨hl, he⟩ := connectAndMerge_logs _ _ _ _ _ h4
            refine ⟨by simp [he], Or.inr ⟨hc, ?_⟩⟩
            simp [hl]

theorem selectCount_append_select (l : List Record) (a b c d : Int) :
    selectCount (l ++ [Record.selectEdge a b c d]) = selectCount l + 1 := by
  simp [selectCount, List.filter_append]

theorem selectCount_step (d : Nat) (s s2 : MazeState) (h : edgeStep d s = .ok s2) :
    selectCount s2.logs = selectCount s.logs + 1 := by
  obtain ⟨edge, cellA, cellB, _, _, _, _, hl⟩ := edgeStep_records d s s2 h
  rcases hl with ⟨_, hl⟩ | ⟨_, hl⟩
  · rw [hl, selectCount_append_select]
  · rw [hl]
    simp [selectCount, List.filter_append]

end MazeKruskalsLog

namespace MazeKruskalsLog

/-! ### The session of the maze generator -/

/-- Claim C14: for every width and height with `width < 1` or `height < 1`, `Write` of
the maze generator writes exactly one comment record followed by one `Return(true)` record,
nothing else, and returns `true`. -/
theorem maze_write_short_circuit (draws : Nat → Nat) (fuel width height : Nat)
    (h : width < 1 ∨ height < 1) :
    Write draws fuel width height =
      .ok { events := [Event.record (Record.comment "Sequence size too small to be processed."),
                       Event.record (Record.opReturn true)]
            returned := true } := by
  unfold Write
  rw [if_pos h]

/-- The statement of C14 at `width = 0`, `height = 5`. -/
theorem maze_write_short_circuit_witness :
    ((0 : Nat) < 1 ∨ (5 : Nat) < 1) ∧
    Write (fun _ => 0) 0 0 5 =
      .ok { events := [Event.record (Record.comment "Sequence size too small to be processed."),
                       Event.record (Record.opReturn true)]
            returned := true } :=
  ⟨by decide, maze_write_short_circuit (fun _ => 0) 0 0 5 (by decide)⟩

/-- The edge loop takes one turn for each edge of the grid and writes one `SelectEdge`
record in each turn. -/
theorem maze_select_count_on_grids_with_two_rows_and_columns (draws : Nat → Nat)
    (fuel w h : Nat) (hw : 2 ≤ w) (hh : 2 ≤ h) (hE : (h - 1) * w + (w - 1) * h < 2 ^ 31)
    (hf : (h - 1) * w + (w - 1) * h ≤ fuel) :
    ∃ r, WriteComputation draws fuel w h = .ok r ∧ r.state.edges = [] ∧
      selectCount r.state.logs = (h - 1) * w + (w - 1) * h ∧
      r.state.logs.getLast? = some (Record.opReturn true) := by
  have hw1 : w ≤ (h - 1) * w := Nat.le_mul_of_pos_left w (by omega)
  have hh1 : h ≤ (w - 1) * h := Nat.le_mul_of_pos_left h (by omega)
  have hec : edgeCount w h = (h - 1) * w + (w - 1) * h :=
    edgeCount_eq w h (by omega) (by omega) (by omega) (by omega) (by omega)
  have hcells : w * h ≤ edgeCount w h := by
    rw [hec]
    exact (cells_le_edges_iff w h (by omega) (by omega)).mpr ⟨hw, hh⟩
  have hinit := initBuckets_eq w h (by omega)
  rw [if_pos hcells] at hinit
  obtain ⟨s3, h3, ⟨_, hI3⟩, he3⟩ := edgeLoop_rule draws
    (fun k s => MazeInv w h s ∧ selectCount s.logs = k)
    (fun k s hI hne => by
      obtain ⟨s2, h2, hI2, hl2⟩ := mazeInv_step w h (draws k) s hI.1 hne
      exact ⟨s2, h2, ⟨hI2, by rw [selectCount_step _ _ _ h2, hI.2]⟩, hl2⟩)
    fuel 0 _
    (by
      show (stateAfter w h (w * h)).edges.length ≤ fuel
      rw [stateAfter_edges_length]
      exact hf)
    ⟨mazeInv_after_init w h hcells
      ("While the set of edges is not empty randomly get an edge; connect cells" ++
        " and merge buckets if not already in the same one:"), rfl⟩
  refine ⟨{ state := { s3 with logs := s3.logs ++ [Record.opReturn true] },
            stackSize := toInt (edgeCount w h), nbPushes := toInt (edgeCount w h) },
    ?_, he3, ?_, ?_⟩
  · simp only [WriteComputation, hinit, except_bind_ok, h3]
    rfl
  · have hlen : (stateAfter w h (w * h)).edges.length = (h - 1) * w + (w - 1) * h :=
      stateAfter_edges_length w h
    simp only at hI3 ⊢
    simp only [selectCount, List.filter_append] at hI3 ⊢
    simp only [Nat.zero_add] at hI3
    simp [hI3, hlen]
  · simp

/-- Claim C17 at `width = 1`, `height = 4`: the table has three buckets for four cells,
the initialisation indexes it out of bounds, and the edge loop is not reached: no log with
three `SelectEdge` records and a final `Return(true)` is written. -/
theorem maze_1x4_edge_loop_not_reached (draws : Nat → Nat) (fuel : Nat) :
    edgeCount 1 4 = 3 ∧ (initMatrix 1 4).1.length = 4 ∧
    Write draws fuel 1 4 = .error Fault.outOfBounds :=
  ⟨rfl, rfl, rfl⟩

end MazeKruskalsLog

namespace MazeKruskalsLog

theorem edgeStep_congr (d d2 : Nat) (s : MazeState)
    (h : d % s.edges.length = d2 % s.edges.length) : edgeStep d s = edgeStep d2 s := by
  unfold edgeStep
  rw [h]

/-- Claim C19 at its input `width = 2`, `height = 1`: the initialisation inserts the edge
`((0,0),(1,0))` for the first cell, then indexes the one-bucket table out of bounds for the
second cell, so `Write` writes no log. From the state with one bucket for each cell the loop
writes the records of the claim for every draw. -/
theorem maze_2x1_scenario_out_of_bounds (draws : Nat → Nat) (fuel : Nat) :
    (initCell [0] (0, startState 2 1) 0).map (fun r => (r.1, r.2.edges, r.2.bucketCells)) =
      .ok (1, [(0, 1)], [[0]]) ∧
    (startState 2 1).heap.map (fun c => (c.x, c.y)) = [(0, 0), (1, 0)] ∧
    initBuckets (startState 2 1) = .error Fault.outOfBounds ∧
    Write draws fuel 2 1 = .error Fault.outOfBounds ∧
    (edgeLoop draws 1 0 twoCellState).map (fun s => s.logs ++ [Record.opReturn true]) =
      .ok [Record.selectEdge 0 0 1 0, Record.connectEdge 0 0 1 0, Record.mergeBuckets 0 1,
           Record.opReturn true] := by
  refine ⟨rfl, rfl, rfl, rfl, ?_⟩
  unfold edgeLoop
  rw [edgeStep_congr (draws 0) 0 twoCellState
    (by show draws 0 % 1 = 0 % 1; rw [Nat.mod_one, Nat.mod_one])]
  rfl

end MazeKruskalsLog

namespace CocktailLog

/-! ### The session of the sort -/

/-- Claim C15: for every input sequence of length below two, `Write` of the sort writes
exactly one comment record followed by one `Return(true)` record, nothing else, leaves the
sequence as it is (the sort loop is not entered), and returns `true`. -/
theorem cocktail_write_short_circuit {α : Type} (comp : α → α → Bool) (fuel : Nat)
    (traits : List Event) (kSeqName : String) (isSub : Bool) (a : List α)
    (h : a.length < 2) :
    Write comp fuel traits kSeqName isSub a =
      .ok { events := [Event.record (Record.comment "Sequence size too small to be processed."),
                       Event.record (Record.opReturn true)]
            seq := a, returned := true } := by
  unfold Write
  rw [if_pos (by omega)]

/-- The statement of C15 at the input `[7]`. -/
theorem cocktail_write_short_circuit_witness :
    [(7 : Int)].length < 2 ∧
    Write lessEqual 0 [] "sequence" false [(7 : Int)] =
      .ok { events := [Event.record (Record.comment "Sequence size too small to be processed."),
                       Event.record (Record.opReturn true)]
            seq := [7], returned := true } :=
  ⟨by decide, cocktail_write_short_circuit lessEqual 0 [] "sequence" false [7] (by decide)⟩

/-- Claim C20: on `[3, 1, 2]` with the default predicate the two steps of the first forward
pass exchange, giving `[1, 3, 2]` and then `[1, 2, 3]`; the backward pass that follows
exchanges nothing; the log holds two `Swap` records; the final sequence is `[1, 2, 3]`; and
the run ends after one pass-pair (a second forward pass is started and compares nothing). -/
theorem cocktail_scenario_3_1_2 :
    (compareSwap lessEqual 0 (startForward (initState [(3 : Int), 1, 2]))).map
        (fun s => (s.seq, swapCount s.logs)) = .ok ([1, 3, 2], 1) ∧
    (∃ s1, compareSwap lessEqual 0 (startForward (initState [(3 : Int), 1, 2])) = .ok s1 ∧
      (compareSwap lessEqual 1 (logIncr s1)).map (fun s => (s.seq, swapCount s.logs)) =
        .ok ([1, 2, 3], 2)) ∧
    (∃ s2 s5,
      forwardLoop lessEqual 3 0 (startForward (initState [(3 : Int), 1, 2])) = .ok s2 ∧
      s2.seq = [1, 2, 3] ∧ swapCount s2.logs = 2 ∧ s2.hasSwapped = true ∧
      backwardLoop lessEqual 3 ((endForward s2).endIdx - 1) (startBackward (endForward s2)) =
        .ok s5 ∧
      s5.seq = [1, 2, 3] ∧ swapCount s5.logs = 2) ∧
    (∃ s, WriteComputation lessEqual 3 [(3 : Int), 1, 2] = .ok s ∧
      s.seq = [1, 2, 3] ∧ swapCount s.logs = 2 ∧ s.backwardPasses = 1 ∧ s.forwardPasses = 2 ∧
      s.logs.getLast? = some (Record.opReturn true)) :=
  ⟨rfl, ⟨_, rfl, rfl⟩, ⟨_, _, rfl, rfl, rfl, rfl, rfl, rfl, rfl⟩,
    ⟨_, rfl, rfl, rfl, rfl, rfl, rfl⟩⟩

end CocktailLog

namespace MazeKruskalsLog

theorem bind_eq_ok {α β : Type} {x : Except Fault α} {f : α → Except Fault β} {b : β}
    (h : (x >>= f) = .ok b) : ∃ a, x = .ok a ∧ f a = .ok b := by
  cases x with
  | error e => rw [except_bind_error] at h; cases h
  | ok a => exact ⟨a, rfl, h⟩

/-- Both members of `stats` are the value of the expression that sizes the bucket table. -/
theorem WriteComputation_stats (draws : Nat → Nat) (fuel w h : Nat) (c : MazeResult)
    (hc : WriteComputation draws fuel w h = .ok c) :
    c.stackSize = toInt (edgeCount w h) ∧ c.nbPushes = toInt (edgeCount w h) := by
  unfold WriteComputation at hc
  obtain ⟨i, _, hc⟩ := bind_eq_ok hc
  obtain ⟨s2, _, hc⟩ := bind_eq_ok hc
  cases hc
  exact ⟨rfl, rfl⟩

end MazeKruskalsLog

/-! ### The last member of the top-level object -/

/-- Claim C16, amended: whenever `Write` of the maze generator returns on
`width, height ≥ 1`, the top-level object ends with the member `stats` right after `logs`
(and on grids with at least two rows and columns it does return); the object of the cocktail
sort (length at least two) ends with the member `logs` and has no trailing `stats`. -/
theorem trace_session_last_member {α : Type} (comp : α → α → Bool) (draws : Nat → Nat)
    (fuelMaze fuelSort width height : Nat) (traits : List Event) (kSeqName : String)
    (isSub : Bool) (a : List α)
    (hw : 1 ≤ width) (hh : 1 ≤ height) (ha : 2 ≤ a.length) (hf : a.length ≤ fuelSort) :
    (∀ r, MazeKruskalsLog.Write draws fuelMaze width height = .ok r →
      ∃ (before : List Event) (logs : List Record) (edges : Int),
        r.events = before ++ [Event.key "logs", Event.startArray] ++ logs.map Event.record ++
          [Event.endArray, Event.key "stats", Event.startObject, Event.key "stackSize",
           Event.int edges, Event.key "nbPushes", Event.int edges, Event.endObject,
           Event.endObject]) ∧
    (2 ≤ width → 2 ≤ height → (height - 1) * width + (width - 1) * height < 2 ^ 31 →
      (height - 1) * width + (width - 1) * height ≤ fuelMaze →
      ∃ r, MazeKruskalsLog.Write draws fuelMaze width height = .ok r) ∧
    (∃ (r : CocktailLog.WriteResult α) (logs : List Record),
      CocktailLog.Write comp fuelSort traits kSeqName isSub a = .ok r ∧
      r.events = [Event.startObject] ++ traits ++
        CocktailLog.WriteParameters kSeqName isSub a.length ++
        [Event.key "locals", Event.startArray, Event.iterator kSeqName "it" 0,
         Event.endArray] ++
        [Event.key "logs", Event.startArray] ++ logs.map Event.record ++
        [Event.endArray, Event.endObject]) := by
  refine ⟨?_, ?_, ?_⟩
  · intro r hr
    unfold MazeKruskalsLog.Write at hr
    rw [if_neg (by omega)] at hr
    cases hc : MazeKruskalsLog.WriteComputation draws fuelMaze width height with
    | error e =>
      rw [hc] at hr
      cases hr
    | ok c =>
      rw [hc] at hr
      have hst : c.stackSize = c.nbPushes := by
        obtain ⟨h1, h2⟩ := MazeKruskalsLog.WriteComputation_stats draws fuelMaze width height c hc
        rw [h1, h2]
      cases hr
      refine ⟨[Event.startObject, Event.key "type", Event.string "DataStructure",
          Event.key "structure", Event.startObject, Event.key "type", Event.string "2DGrid",
          Event.key "width", Event.int (MazeKruskalsLog.toInt width), Event.key "height",
          Event.int (MazeKruskalsLog.toInt height), Event.endObject, Event.key "name",
          Event.string "Kruskals Maze Generator"] ++
          MazeKruskalsLog.WriteParameters width height ++
          [Event.key "locals", Event.startArray, Event.startObject, Event.key "name",
           Event.string "pathStack", Event.key "type", Event.string "set",
           Event.key "dataType", Event.string "Cell", Event.endObject, Event.endArray],
        c.state.logs, c.stackSize, ?_⟩
      simp [MazeKruskalsLog.computationEvents, ← hst]
  · intro hw2 hh2 hE hfm
    obtain ⟨c, hc, _⟩ := MazeKruskalsLog.maze_on_grids_with_two_rows_and_columns draws
      fuelMaze width height hw2 hh2 hE hfm
    unfold MazeKruskalsLog.Write
    rw [if_neg (by omega), hc]
    exact ⟨_, rfl⟩
  · obtain ⟨s, hs, _⟩ := CocktailLog.WriteComputation_replay comp a fuelSort hf
    refine ⟨{ events := [Event.startObject] ++ traits ++
          CocktailLog.WriteParameters kSeqName isSub a.length ++
          CocktailLog.computationEvents kSeqName s.logs ++ [Event.endObject]
              seq := s.seq, returned := true }, s.logs, ?_, ?_⟩
    · unfold CocktailLog.Write
      rw [if_neg (by omega), hs]
    · simp [CocktailLog.computationEvents]

/-- Claim C16 as stated fails for the cocktail sort: on `[3, 1, 2]` the events written hold
no key `stats`, and the top-level object is closed right after the array `logs`. -/
theorem cocktail_session_has_no_stats_counterexample :
    2 ≤ [(3 : Int), 1, 2].length ∧
    ∃ r, CocktailLog.Write CocktailLog.lessEqual 3
        [Event.key "type", Event.string "algorithm", Event.key "name",
         Event.string "Cocktail_Sort"] "sequence" false [(3 : Int), 1, 2] = .ok r ∧
      Event.key "stats" ∉ r.events ∧
      r.events.reverse.take 3 =
        [Event.endObject, Event.endArray, Event.record (Record.opReturn true)] :=
  ⟨by decide, _, rfl, by decide, rfl⟩

/-- The amended statement of C16 at a `2 × 2` grid and the sequence `[3, 1, 2]`. -/
theorem trace_session_last_member_witness :
    1 ≤ 2 ∧ 1 ≤ 2 ∧ 2 ≤ [(3 : Int), 1, 2].length ∧ [(3 : Int), 1, 2].length ≤ 3 ∧
    ((∀ r, MazeKruskalsLog.Write (fun _ => 0) 4 2 2 = .ok r →
      ∃ (before : List Event) (logs : List Record) (edges : Int),
        r.events = before ++ [Event.key "logs", Event.startArray] ++ logs.map Event.record ++
          [Event.endArray, Event.key "stats", Event.startObject, Event.key "stackSize",
           Event.int edges, Event.key "nbPushes", Event.int edges, Event.endObject,
           Event.endObject]) ∧
    (2 ≤ 2 → 2 ≤ 2 → (2 - 1) * 2 + (2 - 1) * 2 < 2 ^ 31 →
      (2 - 1) * 2 + (2 - 1) * 2 ≤ 4 →
      ∃ r, MazeKruskalsLog.Write (fun _ => 0) 4 2 2 = .ok r) ∧
    (∃ (r : CocktailLog.WriteResult Int) (logs : List Record),
      CocktailLog.Write CocktailLog.lessEqual 3 [] "sequence" false [(3 : Int), 1, 2] = .ok r ∧
      r.events = [Event.startObject] ++ [] ++
        CocktailLog.WriteParameters "sequence" false [(3 : Int), 1, 2].length ++
        [Event.key "locals", Event.startArray, Event.iterator "sequence" "it" 0,
         Event.endArray] ++
        [Event.key "logs", Event.startArray] ++ logs.map Event.record ++
        [Event.endArray, Event.endObject])) :=
  ⟨by decide, by decide, by decide, by decide,
    trace_session_last_member CocktailLog.lessEqual (fun _ => 0) 4 3 2 2 [] "sequence" false
      [(3 : Int), 1, 2] (by decide) (by decide) (by decide) (by decide)⟩

end SHA_Logger

/-! # Properties of the structure of the events, of the error record and of the positions read -/

namespace SHA_Logger

/-! ### Structure of the events of a session -/

theorem scanFrom_append (s : Scan) (l1 l2 : List Event) :
    scanFrom s (l1 ++ l2) =
      match scanFrom s l1 with
      | none => none
      | some s2 => scanFrom s2 l2 := by
  induction l1 generalizing s with
  | nil => rfl
  | cons e es ih =>
    simp only [List.cons_append, scanFrom]
    cases scanStep s e with
    | none => rfl
    | some s2 => exact ih s2

/-- Records written inside an array leave the state of the scan as it is. -/
theorem scanFrom_records (s : Scan) (rest : List Frame) (hs : s.stack = Frame.array :: rest)
    (logs : List Record) : scanFrom s (logs.map Event.record) = some s := by
  induction logs with
  | nil => rfl
  | cons r logs ih =>
    have h1 : scanStep s (Event.record r) = some s := by
      simp only [scanStep, Scan.closeValue, hs]
    simp only [List.map_cons, scanFrom, h1]
    exact ih

theorem scanFrom_records_in_array (rest : List Frame) (complete : Bool) (keys : List String)
    (logs : List Record) :
    scanFrom { stack := Frame.array :: rest, complete := complete, keys := keys }
        (logs.map Event.record) =
      some { stack := Frame.array :: rest, complete := complete, keys := keys } :=
  scanFrom_records _ rest rfl logs

namespace MazeKruskalsLog

/-- Whenever `Write` of the maze generator returns on `width, height ≥ 1`, the events it
has written form one complete top-level object with the keys `type`, `structure`, `name`,
`parameters`, `locals`, `logs`, `stats`, in this order. -/
theorem Write_events_complete (draws : Nat → Nat) (fuel width height : Nat) (r : WriteResult)
    (hw : 1 ≤ width) (hh : 1 ≤ height) (hr : Write draws fuel width height = .ok r) :
    CompleteObject r.events
      ["type", "structure", "name", "parameters", "locals", "logs", "stats"] ∧
    r.returned = true := by
  unfold Write at hr
  rw [if_neg (by omega)] at hr
  cases hc : WriteComputation draws fuel width height with
  | error e =>
    rw [hc] at hr
    cases hr
  | ok c =>
    rw [hc] at hr
    cases hr
    refine ⟨⟨rfl, ?_⟩, rfl⟩
    have hev : ([Event.startObject, Event.key "type", Event.string "DataStructure",
          Event.key "structure", Event.startObject, Event.key "type", Event.string "2DGrid",
          Event.key "width", Event.int (toInt width), Event.key "height",
          Event.int (toInt height), Event.endObject, Event.key "name",
          Event.string "Kruskals Maze Generator"] ++ WriteParameters width height ++
          computationEvents c.state.logs c.stackSize c.nbPushes ++ [Event.endObject]) =
        [Event.startObject, Event.key "type", Event.string "DataStructure",
          Event.key "structure", Event.startObject, Event.key "type", Event.string "2DGrid",
          Event.key "width", Event.int (toInt width), Event.key "height",
          Event.int (toInt height), Event.endObject, Event.key "name",
          Event.string "Kruskals Maze Generator", Event.key "parameters", Event.startArray,
          Event.value "width" width, Event.value "height" height, Event.endArray,
          Event.key "locals", Event.startArray, Event.startObject, Event.key "name",
          Event.string "pathStack", Event.key "type", Event.string "set",
          Event.key "dataType", Event.string "Cell", Event.endObject, Event.endArray,
          Event.key "logs", Event.startArray] ++
        (c.state.logs.map Event.record ++
          [Event.endArray, Event.key "stats", Event.startObject, Event.key "stackSize",
           Event.int c.stackSize, Event.key "nbPushes", Event.int c.nbPushes,
           Event.endObject, Event.endObject]) := by
      simp [computationEvents, WriteParameters]
    show scan _ = _
    rw [hev]
    unfold scan
    rw [scanFrom_append]
    have hP : scanFrom { stack := [], complete := false, keys := [] }
        [Event.startObject, Event.key "type", Event.string "DataStructure",
          Event.key "structure", Event.startObject, Event.key "type", Event.string "2DGrid",
          Event.key "width", Event.int (toInt width), Event.key "height",
          Event.int (toInt height), Event.endObject, Event.key "name",
          Event.string "Kruskals Maze Generator", Event.key "parameters", Event.startArray,
          Event.value "width" width, Event.value "height" height, Event.endArray,
          Event.key "locals", Event.startArray, Event.startObject, Event.key "name",
          Event.string "pathStack", Event.key "type", Event.string "set",
          Event.key "dataType", Event.string "Cell", Event.endObject, Event.endArray,
          Event.key "logs", Event.startArray] =
        some { stack := [Frame.array, Frame.objectValue], complete := false,
               keys := ["type", "structure", "name", "parameters", "locals", "logs"] } := rfl
    rw [hP]
    simp only
    rw [scanFrom_append, scanFrom_records_in_array]
    rfl

end MazeKruskalsLog

namespace MazeKruskalsLog

/-- On a grid with at least two columns and two rows `Write` returns, and its events form
one complete top-level object. -/
theorem Write_complete_on_grids_with_two_rows_and_columns (draws : Nat → Nat)
    (fuel w h : Nat) (hw : 2 ≤ w) (hh : 2 ≤ h) (hE : (h - 1) * w + (w - 1) * h < 2 ^ 31)
    (hf : (h - 1) * w + (w - 1) * h ≤ fuel) :
    ∃ r, Write draws fuel w h = .ok r ∧ r.returned = true ∧
      CompleteObject r.events
        ["type", "structure", "name", "parameters", "locals", "logs", "stats"] := by
  obtain ⟨c, hc, _⟩ := maze_on_grids_with_two_rows_and_columns draws fuel w h hw hh hE hf
  have hr : Write draws fuel w h = .ok
      { events :=
          [Event.startObject, Event.key "type", Event.string "DataStructure",
           Event.key "structure", Event.startObject, Event.key "type",
           Event.string "2DGrid", Event.key "width", Event.int (toInt w),
           Event.key "height", Event.int (toInt h), Event.endObject,
           Event.key "name", Event.string "Kruskals Maze Generator"] ++
          WriteParameters w h ++
          computationEvents c.state.logs c.stackSize c.nbPushes ++ [Event.endObject]
        returned := true } := by
    unfold Write
    rw [if_neg (by omega), hc]
  obtain ⟨h1, h2⟩ := Write_events_complete draws fuel w h _ (by omega) (by omega) hr
  exact ⟨_, hr, h2, h1⟩

/-- Claim C21 fails on a grid of one column: for width 1 and height 5 there are four edges
and five cells, the table of buckets is sized by the edges, and `Write` stops with an access
out of bounds whatever the draws; it returns no events, so there is no complete top-level
object with the keys type, structure, name, parameters, locals, logs, stats. -/
theorem maze_1x5_events_not_completed (draws : Nat → Nat) (fuel : Nat) :
    edgeCount 1 5 = 4 ∧ (initMatrix 1 5).1.length = 5 ∧
    Write draws fuel 1 5 = .error Fault.outOfBounds ∧
    ¬ ∃ r, Write draws fuel 1 5 = .ok r ∧
      CompleteObject r.events
        ["type", "structure", "name", "parameters", "locals", "logs", "stats"] := by
  have h : Write draws fuel 1 5 = .error Fault.outOfBounds := rfl
  refine ⟨rfl, rfl, h, ?_⟩
  rintro ⟨r, hr, _⟩
  rw [h] at hr
  cases hr

end MazeKruskalsLog

namespace Error

/-- Claim C22: for every file, line and message, `Error.Write` returns true and writes
exactly one object with the four members, in order, type = "error", file, line and
message = "Error: " followed by the message; the events are balanced and form one complete
top-level object with the keys type, file, line, message. -/
theorem error_write_one_object (file : String) (line : Int) (message : String) :
    (Write file line message).2 = true ∧
    (Write file line message).1 =
      [Event.startObject, Event.key "type", Event.string "error", Event.key "file",
       Event.string file, Event.key "line", Event.int line, Event.key "message",
       Event.string ("Error: " ++ message), Event.endObject] ∧
    CompleteObject (Write file line message).1 ["type", "file", "line", "message"] :=
  ⟨rfl, rfl, rfl, rfl⟩

end Error

namespace CocktailLog

/-! ### The sequence stays a permutation of the input -/

theorem exchange_set_perm {α : Type} (l : List α) (i : Nat) (x y : α)
    (hx : l[i]? = some x) (hy : l[i + 1]? = some y) :
    ((l.set i y).set (i + 1) x).Perm l := by
  induction l generalizing i with
  | nil => simp at hx
  | cons a t ih =>
    cases i with
    | zero =>
      simp only [List.getElem?_cons_zero, Option.some.injEq] at hx
      subst hx
      cases t with
      | nil => simp at hy
      | cons b t2 =>
        simp only [Nat.zero_add, List.getElem?_cons_succ, List.getElem?_cons_zero,
          Option.some.injEq] at hy
        subst hy
        simp only [List.set_cons_zero, Nat.zero_add, List.set_cons_succ]
        exact List.Perm.swap _ _ _
    | succ k =>
      simp only [List.getElem?_cons_succ] at hx hy
      simp only [List.set_cons_succ]
      exact List.Perm.cons a (ih k hx hy)

theorem exchange_perm {α : Type} (seq : List α) (it : Int) : (exchange seq it).Perm seq := by
  unfold exchange
  split
  · split
    · next x y hx hy => exact exchange_set_perm seq _ x y hx hy
    · exact List.Perm.refl _
  · exact List.Perm.refl _

theorem replayStep_perm {α : Type} (st : Int × List α) (r : Record) :
    (replayStep st r).2.Perm st.2 := by
  unfold replayStep
  split
  · split
    · exact List.Perm.refl _
    · exact List.Perm.refl _
  · exact exchange_perm _ _
  · exact List.Perm.refl _

/-- Whatever the log, its replay permutes the initial sequence. -/
theorem replay_perm {α : Type} (a : List α) (logs : List Record) :
    (replay a logs).2.Perm a := by
  induction logs using List.reverseRecOn with
  | nil => exact List.Perm.refl _
  | append_singleton logs r ih =>
    rw [replay_append]
    exact (replayStep_perm _ r).trans ih

/-- Claim C23: for every input sequence, of any length and with any predicate, the sequence
left by the cocktail sort is a permutation of the input and has its length, both for
`WriteComputation` and for the session `Write` (which leaves sequences shorter than two
untouched), given fuel for one turn of the loop per element. -/
theorem cocktail_result_is_permutation {α : Type} (comp : α → α → Bool) (fuel : Nat)
    (traits : List Event) (kSeqName : String) (isSub : Bool) (a : List α)
    (hf : a.length ≤ fuel) :
    (∃ s, WriteComputation comp fuel a = .ok s ∧ s.seq.Perm a ∧ s.seq.length = a.length) ∧
    (∃ r, Write comp fuel traits kSeqName isSub a = .ok r ∧ r.seq.Perm a ∧
      r.seq.length = a.length) := by
  obtain ⟨s, hs, hr⟩ := WriteComputation_replay comp a fuel hf
  have hp : s.seq.Perm a := by
    rw [← hr]
    exact replay_perm a s.logs
  refine ⟨⟨s, hs, hp, hp.length_eq⟩, ?_⟩
  unfold Write
  by_cases h2 : (a.length : Int) < 2
  · rw [if_pos h2]
    exact ⟨_, rfl, List.Perm.refl _, rfl⟩
  · rw [if_neg h2, hs]
    exact ⟨_, rfl, hp, hp.length_eq⟩

/-- The statement of C23 at the input `[3, 1, 2]`. -/
theorem cocktail_result_is_permutation_witness :
    [(3 : Int), 1, 2].length ≤ 3 ∧
    ((∃ s, WriteComputation lessEqual 3 [(3 : Int), 1, 2] = .ok s ∧
        s.seq.Perm [(3 : Int), 1, 2] ∧ s.seq.length = [(3 : Int), 1, 2].length) ∧
    (∃ r, Write lessEqual 3 [] "sequence" false [(3 : Int), 1, 2] = .ok r ∧
      r.seq.Perm [(3 : Int), 1, 2] ∧ r.seq.length = [(3 : Int), 1, 2].length)) :=
  ⟨by decide, cocktail_result_is_permutation lessEqual 3 [] "sequence" false [3, 1, 2]
    (by decide)⟩

/-! ### The positions compared -/

/-- The comparison step returns a state exactly when both positions it reads lie inside
the sequence; otherwise it is an access out of bounds. -/
theorem compareSwap_in_bounds {α : Type} (comp : α → α → Bool) (it : Int) (s : SortState α) :
    ((∃ s1, compareSwap comp it s = .ok s1) ↔
      (0 ≤ it ∧ it + 1 ≤ (s.seq.length : Int) - 1)) ∧
    (¬ (0 ≤ it ∧ it + 1 ≤ (s.seq.length : Int) - 1) →
      compareSwap comp it s = .error Fault.outOfBounds) := by
  have hbad : ¬ (0 ≤ it ∧ it + 1 ≤ (s.seq.length : Int) - 1) →
      compareSwap comp it s = .error Fault.outOfBounds := by
    intro hn
    unfold compareSwap
    by_cases h0 : 0 ≤ it
    · rw [if_pos h0]
      have hy : s.seq[it.toNat + 1]? = none := List.getElem?_eq_none (by omega)
      rw [hy]
      cases s.seq[it.toNat]? <;> rfl
    · rw [if_neg h0]
  refine ⟨⟨?_, ?_⟩, hbad⟩
  · rintro ⟨s1, h1⟩
    by_contra hn
    rw [hbad hn] at h1
    cases h1
  · rintro ⟨h0, h1⟩
    obtain ⟨x, y, _, _, hcs⟩ := compareSwap_eq comp it s h0 (by omega)
    exact ⟨_, hcs⟩

/-- Claim C24: for every input sequence of length at least two and every predicate the
sort returns, so none of its comparisons reads out of bounds: the comparison of the positions
`it` and `it + 1` returns exactly when `0 ≤ it` and `it + 1 ≤ n - 1` and is an access out
of bounds otherwise. The logged cursor does leave the range: the log of `[2, 1]` holds the
record `Set it -1`. -/
theorem cocktail_accesses_in_bounds {α : Type} (comp : α → α → Bool) (a : List α)
    (hlen : 2 ≤ a.length) (fuel : Nat) (hf : a.length ≤ fuel) :
    (∃ s, WriteComputation comp fuel a = .ok s ∧ s.seq.length = a.length) ∧
    (∀ (it : Int) (t : SortState α),
      ((∃ t1, compareSwap comp it t = .ok t1) ↔
        (0 ≤ it ∧ it + 1 ≤ (t.seq.length : Int) - 1)) ∧
      (¬ (0 ≤ it ∧ it + 1 ≤ (t.seq.length : Int) - 1) →
        compareSwap comp it t = .error Fault.outOfBounds)) ∧
    (∃ s, WriteComputation lessEqual 2 [(2 : Int), 1] = .ok s ∧
      Record.opSet "it" (-1) ∈ s.logs) := by
  have _ := hlen
  obtain ⟨s, hs, hr⟩ := WriteComputation_replay comp a fuel hf
  have hp : s.seq.Perm a := by
    rw [← hr]
    exact replay_perm a s.logs
  exact ⟨⟨s, hs, hp.length_eq⟩, fun it t => compareSwap_in_bounds comp it t,
    ⟨_, rfl, by decide⟩⟩

/-- The statement of C24 at the input `[3, 1, 2]`. -/
theorem cocktail_accesses_in_bounds_witness :
    2 ≤ [(3 : Int), 1, 2].length ∧ [(3 : Int), 1, 2].length ≤ 3 ∧
    ((∃ s, WriteComputation lessEqual 3 [(3 : Int), 1, 2] = .ok s ∧
        s.seq.length = [(3 : Int), 1, 2].length) ∧
    (∀ (it : Int) (t : SortState Int),
      ((∃ t1, compareSwap lessEqual it t = .ok t1) ↔
        (0 ≤ it ∧ it + 1 ≤ (t.seq.length : Int) - 1)) ∧
      (¬ (0 ≤ it ∧ it + 1 ≤ (t.seq.length : Int) - 1) →
        compareSwap lessEqual it t = .error Fault.outOfBounds)) ∧
    (∃ s, WriteComputation lessEqual 2 [(2 : Int), 1] = .ok s ∧
      Record.opSet "it" (-1) ∈ s.logs)) :=
  ⟨by decide, by decide,
    cocktail_accesses_in_bounds lessEqual [3, 1, 2] (by decide) 3 (by decide)⟩

end CocktailLog

end SHA_Logger
